import Mathlib

/-!
# Strided transpose kernels of the CPU backend

A shallow embedding of `src/backend/cpu/transpose.cpp`: the offset helper
`getIdx`, the conjugation helper `getConjugate`, the out-of-place kernel
`transpose_` with its entry point `transpose`, and the in-place kernel
`transpose_inplace`.

Conventions of the embedding.

* `dim_t` extents, strides and loop counters are natural numbers; the 32-bit
  parameter and return types of `getIdx` are kept, as explicit reductions.
* A buffer is a list of elements.  A load or store outside the buffer has no
  defined behaviour in C++; here it makes the kernel return `none`.
* The asynchronous queue runs a task to completion before its result is
  observed, so an enqueued kernel is modelled by its execution.
* Element types are abstract.  The complex types are pairs of components over
  a carrier with a negation.
-/

namespace cpu

/-! ## Data model -/

/-- Four extents or four strides (`af::dim4`). -/
structure dim4 where
  d0 : Nat
  d1 : Nat
  d2 : Nat
  d3 : Nat
deriving DecidableEq, Repr

/-- Number of elements of a shape (`dim4::elements`). -/
def dim4.elements (d : dim4) : Nat := d.d0 * d.d1 * d.d2 * d.d3

/-- An evaluated array: shape, strides and the buffer `get()` points to. -/
structure Array (T : Type) where
  dims : dim4
  strides : dim4
  data : List T
deriving DecidableEq, Repr

/-- Complex number with components in `R` (`std::complex`). -/
structure Cplx (R : Type) where
  re : R
  im : R
deriving DecidableEq, Repr

/-! ## Machine integers -/

/-- Conversion of a `dim_t` value to the 32-bit `int` parameter type. -/
def toInt32 (x : Int) : Int := (x + 2 ^ 31) % 2 ^ 32 - 2 ^ 31

/-- Two's complement reduction to the 64-bit `dim_t` range. -/
def wrapInt64 (x : Int) : Int := (x + 2 ^ 63) % 2 ^ 64 - 2 ^ 63

/-- Conversion to the 32-bit `unsigned` return type. -/
def toUInt32 (x : Int) : Nat := (x % 2 ^ 32).toNat

/-! ## Helpers of the kernels -/

/-- Flat offset helper (`getIdx`): the indices arrive as `int`, the sum is
formed in `dim_t` and returned as `unsigned`.  The stride of axis 0 is not
read. -/
def getIdx (strides : dim4) (i j k l : Nat) : Nat :=
  toUInt32 (wrapInt64
    (toInt32 l * strides.d3 +
     toInt32 k * strides.d2 +
     toInt32 j * strides.d1 +
     toInt32 i))

/-- Primary template of `getConjugate`: non-complex values are returned as
they are. -/
def getConjugate {T : Type} (x : T) : T := x

/-- Specialisations of `getConjugate` for `cfloat` and `cdouble`
(`std::conj`): the imaginary part changes sign. -/
def getConjugateC {R : Type} [Neg R] (x : Cplx R) : Cplx R := ⟨x.re, -x.im⟩

/-- Load `buf[idx]`. -/
def load {T : Type} (buf : List T) (idx : Nat) : Option T := buf[idx]?

/-- Store `buf[idx] = v`. -/
def store {T : Type} (buf : List T) (idx : Nat) (v : T) : Option (List T) :=
  if idx < buf.length then some (buf.set idx v) else none

/-- Loop `for (i = lo; i < hi; ++i)` over a state that may fault. -/
def forLoop {σ : Type} (lo hi : Nat) (body : Nat → σ → Option σ) (s : σ) : Option σ :=
  (List.range' lo (hi - lo)).foldlM (fun s i => body i s) s

/-! ## Out-of-place transpose -/

/-- Body of the innermost loop of `transpose_`. -/
def transposeBody {T : Type} (conj : T → T) (conjugate : Bool)
    (ostrides istrides : dim4) (inp : List T) (i j k l : Nat) (out : List T) :
    Option (List T) :=
  let inIdx := getIdx istrides j i k l
  let outIdx := getIdx ostrides i j k l
  match load inp inIdx with
  | none => none
  | some x => if conjugate then store out outIdx (conj x) else store out outIdx x

/-- Kernel `transpose_<T, conjugate>` together with its run-time dispatch on
the flag; `conj` is the instance of `getConjugate` for the element type.  The
result is the output array after the kernel has run. -/
def transpose_ {T : Type} (conj : T → T) (output input : Array T) (conjugate : Bool) :
    Option (Array T) :=
  let odims := output.dims
  let ostrides := output.strides
  let istrides := input.strides
  (forLoop 0 odims.d3 (fun l =>
    forLoop 0 odims.d2 (fun k =>
      forLoop 0 odims.d1 (fun j =>
        forLoop 0 odims.d0 (fun i =>
          transposeBody conj conjugate ostrides istrides input.data i j k l))))
    output.data).map (fun d => { output with data := d })

/-- Modelled from the spec: `createEmptyArray` is not part of the sources.  It
allocates a packed array of the given shape (axis 0 has stride 1, every other
stride is the previous stride times the previous extent); the contents of the
fresh buffer are unspecified and given by `garbage`. -/
def createEmptyArray {T : Type} (dims : dim4) (garbage : Nat → T) : Array T :=
  { dims := dims
    strides := ⟨1, dims.d0, dims.d0 * dims.d1, dims.d0 * dims.d1 * dims.d2⟩
    data := (List.range dims.elements).map garbage }

/-- Entry point `transpose`: allocate the output with the first two extents
swapped and run the kernel on it. -/
def transpose {T : Type} (conj : T → T) (inp : Array T) (conjugate : Bool)
    (garbage : Nat → T) : Option (Array T) :=
  let inDims := inp.dims
  let outDims : dim4 := ⟨inDims.d1, inDims.d0, inDims.d2, inDims.d3⟩
  let out := createEmptyArray outDims garbage
  transpose_ conj out inp conjugate

/-! ## In-place transpose -/

/-- Exchange of two cells (`std::swap(in[a], in[b])`). -/
def swapCells {T : Type} (buf : List T) (a b : Nat) : Option (List T) :=
  match load buf a, load buf b with
  | some x, some y =>
    match store buf a y with
    | none => none
    | some buf1 => store buf1 b x
  | _, _ => none

/-- Assignment `in[a] = getConjugate(in[a])`. -/
def conjCell {T : Type} (conj : T → T) (buf : List T) (a : Nat) : Option (List T) :=
  match load buf a with
  | none => none
  | some x => store buf a (conj x)

/-- Body of the innermost loop of `transpose_inplace`. -/
def inplaceBody {T : Type} (conj : T → T) (conjugate : Bool)
    (istrides : dim4) (i j k l : Nat) (buf : List T) : Option (List T) :=
  let iIdx := getIdx istrides j i k l
  let oIdx := getIdx istrides i j k l
  if conjugate then
    match conjCell conj buf iIdx with
    | none => none
    | some buf1 =>
      match conjCell conj buf1 oIdx with
      | none => none
      | some buf2 => swapCells buf2 iIdx oIdx
  else
    swapCells buf iIdx oIdx

/-- Kernel `transpose_inplace<T, conjugate>` with the dispatch of
`transpose_inplace_`: only the cells with `i > j` are visited. -/
def transpose_inplace_ {T : Type} (conj : T → T) (input : Array T) (conjugate : Bool) :
    Option (Array T) :=
  let idims := input.dims
  let istrides := input.strides
  (forLoop 0 idims.d3 (fun l =>
    forLoop 0 idims.d2 (fun k =>
      forLoop 0 idims.d1 (fun j =>
        forLoop (j + 1) idims.d0 (fun i =>
          inplaceBody conj conjugate istrides i j k l))))
    input.data).map (fun d => { input with data := d })

/-- Entry point `transpose_inplace`: the kernel is queued on the array
itself. -/
def transpose_inplace {T : Type} (conj : T → T) (inp : Array T) (conjugate : Bool) :
    Option (Array T) :=
  transpose_inplace_ conj inp conjugate

/-! ## Vocabulary of the statements -/

/-- The exact offset of an element: dot product of index and strides. -/
def dotOffset (s : dim4) (i j k l : Nat) : Nat := i * s.d0 + j * s.d1 + k * s.d2 + l * s.d3

/-- Element of `A` at a multi-index: the buffer cell at the dot product of the
index with the strides. -/
def Array.elem {T : Type} (A : Array T) (i j k l : Nat) : Option T :=
  A.data[dotOffset A.strides i j k l]?

/-- A packed array: unit stride on axis 0, every other stride the product of
the lower extents, and a buffer of exactly `elements` cells. -/
def Array.packed {T : Type} (A : Array T) : Prop :=
  A.strides = ⟨1, A.dims.d0, A.dims.d0 * A.dims.d1, A.dims.d0 * A.dims.d1 * A.dims.d2⟩ ∧
  A.data.length = A.dims.elements

instance {T : Type} (A : Array T) : Decidable A.packed := by
  unfold Array.packed; infer_instance

/-- Packed array of a given shape over a given buffer. -/
def mkPacked {T : Type} (dims : dim4) (data : List T) : Array T :=
  { dims := dims
    strides := ⟨1, dims.d0, dims.d0 * dims.d1, dims.d0 * dims.d1 * dims.d2⟩
    data := data }

/-- Offset of `(i, j, k, l)` in a packed array with lower extents `a b c`. -/
def packedOffset (a b c i j k l : Nat) : Nat := i + j * a + k * (a * b) + l * (a * b * c)

/-- Every element of the array lies inside its buffer. -/
def Array.inBounds {T : Type} (A : Array T) : Prop :=
  ∀ i j k l, i < A.dims.d0 → j < A.dims.d1 → k < A.dims.d2 → l < A.dims.d3 →
    dotOffset A.strides i j k l < A.data.length

/-- Every element of the array has an offset below `2^32`. -/
def Array.offsets32 {T : Type} (A : Array T) : Prop :=
  ∀ i j k l, i < A.dims.d0 → j < A.dims.d1 → k < A.dims.d2 → l < A.dims.d3 →
    dotOffset A.strides i j k l < 2 ^ 32

/-- The elements of the array have pairwise distinct offsets. -/
def Array.distinctOffsets {T : Type} (A : Array T) : Prop :=
  ∀ i j k l i2 j2 k2 l2, i < A.dims.d0 → j < A.dims.d1 → k < A.dims.d2 → l < A.dims.d3 →
    i2 < A.dims.d0 → j2 < A.dims.d1 → k2 < A.dims.d2 → l2 < A.dims.d3 →
    dotOffset A.strides i j k l = dotOffset A.strides i2 j2 k2 l2 →
    i = i2 ∧ j = j2 ∧ k = k2 ∧ l = l2

/-- What `transpose_` applies to an element: `conj` when the flag is set. -/
def applyConj {T : Type} (conj : T → T) (conjugate : Bool) (x : T) : T :=
  if conjugate then conj x else x

/-! ## Iteration domains -/

/-- Index tuples `(i, j, k, l)` in the order the loops of `transpose_` visit
them, for loop bounds `d`. -/
def transposeIdx (d : dim4) : List (Nat × Nat × Nat × Nat) :=
  (List.range d.d3).flatMap fun l =>
    (List.range d.d2).flatMap fun k =>
      (List.range d.d1).flatMap fun j =>
        (List.range d.d0).map fun i => (i, j, k, l)

/-- Index tuples `(i, j, k, l)` in the order the loops of `transpose_inplace`
visit them, for loop bounds `d`. -/
def inplaceIdx (d : dim4) : List (Nat × Nat × Nat × Nat) :=
  (List.range d.d3).flatMap fun l =>
    (List.range d.d2).flatMap fun k =>
      (List.range d.d1).flatMap fun j =>
        (List.range' (j + 1) (d.d0 - (j + 1))).map fun i => (i, j, k, l)

/-- Offsets `outIdx` that the loops of `transpose_` store to, one per iteration
of the innermost loop, in loop order, for loop bounds `odims` and output
strides `ostrides`. -/
def transposeWrites (odims ostrides : dim4) : List Nat :=
  (transposeIdx odims).map fun t => getIdx ostrides t.1 t.2.1 t.2.2.1 t.2.2.2

/-! ## Concrete arrays -/

/-- The 3×2 array `[[1,2],[3,4],[5,6]]`, element `(i, j)` at offset `i + 3*j`. -/
def rows32 : Array Int := mkPacked ⟨3, 2, 1, 1⟩ [1, 3, 5, 2, 4, 6]

/-- A packed column of `2^32 + 1` elements, element `n` holding `n`. -/
def hugeColumn : Array Nat := mkPacked ⟨2 ^ 32 + 1, 1, 1, 1⟩ (List.range (2 ^ 32 + 1))

/-- The 2×2 complex array `[[1+2i, 3+4i], [5+6i, 7+8i]]`, element `(i, j)` at
offset `i + 2*j`. -/
def cplx22 : Array (Cplx Int) := mkPacked ⟨2, 2, 1, 1⟩ [⟨1, 2⟩, ⟨5, 6⟩, ⟨3, 4⟩, ⟨7, 8⟩]

/-- A packed complex column of `2^32 + 1` elements, element `n` holding
`n + i`. -/
def hugeComplexColumn : Array (Cplx Int) :=
  mkPacked ⟨2 ^ 32 + 1, 1, 1, 1⟩
    ((List.range (2 ^ 32 + 1)).map fun n : Nat => (⟨Int.ofNat n, 1⟩ : Cplx Int))

/-- Two elements `10` and `20` stored with stride 2 on axis 0, the cells in
between holding `99`. -/
def stridedPair : Array Int := ⟨⟨2, 1, 1, 1⟩, ⟨2, 4, 4, 4⟩, [10, 99, 20, 99]⟩

/-- Two complex elements `1+2i` and `3+4i` stored with stride 2 on axis 0, the
cells in between holding `9+9i`. -/
def stridedComplexPair : Array (Cplx Int) :=
  ⟨⟨2, 1, 1, 1⟩, ⟨2, 4, 4, 4⟩, [⟨1, 2⟩, ⟨9, 9⟩, ⟨3, 4⟩, ⟨9, 9⟩]⟩

/-- A packed square array of `65537 × 65537` elements, the cell at offset `n`
holding `n`. -/
def hugeSquare : Array Nat :=
  mkPacked ⟨65537, 65537, 1, 1⟩ (List.range (65537 * 65537))

/-- The packed 2×3 array with buffer `[1, 2, 3, 4, 5, 6]`. -/
def wide23 : Array Int := mkPacked ⟨2, 3, 1, 1⟩ [1, 2, 3, 4, 5, 6]

/-- A 2×2 array `[[1, 3], [2, 4]]` stored with stride 2 on axis 0, the cells in
between holding `0`. -/
def stridedSquare : Array Int := ⟨⟨2, 2, 1, 1⟩, ⟨2, 4, 8, 8⟩, [1, 0, 2, 0, 3, 0, 4, 0]⟩

/-- A 3×3 array stored with stride 2 on axis 0 and stride 6 on axis 1, cell `n`
holding `n`: element `(i, j)` lies at offset `2*i + 6*j`. -/
def strided33 : Array Int :=
  ⟨⟨3, 3, 1, 1⟩, ⟨2, 6, 18, 18⟩, [0, 1, 2, 3, 4, 5, 6, 7, 8, 9, 10, 11, 12, 13, 14, 15, 16]⟩

/-- A 3×3 array stored with stride 6 on axis 0 and stride 2 on axis 1, cell `n`
holding `n`: element `(i, j)` lies at offset `6*i + 2*j`. -/
def skew33 : Array Int :=
  ⟨⟨3, 3, 1, 1⟩, ⟨6, 2, 18, 18⟩, [0, 1, 2, 3, 4, 5, 6, 7, 8, 9, 10, 11, 12, 13, 14, 15, 16]⟩

/-- Two 3×2 slices with packed strides `(1, 3, 6, 12)` in a buffer of 14 cells,
cell `n` holding `n`. -/
def tallSlack : Array Int :=
  ⟨⟨3, 2, 2, 1⟩, ⟨1, 3, 6, 12⟩, [0, 1, 2, 3, 4, 5, 6, 7, 8, 9, 10, 11, 12, 13]⟩

/-- The packed 3×2 array with buffer `[1, 2, 3, 4, 5, 6]`: shape `(3, 2, 1, 1)`,
strides `(1, 3, 6, 6)`. -/
def tall32 : Array Int := mkPacked ⟨3, 2, 1, 1⟩ [1, 2, 3, 4, 5, 6]

end cpu

namespace cuda

/-! ## Device manager -/

/-- Outcome reported by an operation of the device manager. -/
inductive Status where
  | success
  | invalidArgument
deriving DecidableEq, Repr

/-- The attributes of `DeviceManager` that device selection reads and writes:
the active logical index and the number of enumerated devices. -/
structure DeviceManager where
  activeDev : Int
  nDevices : Int
deriving DecidableEq, Repr

/-- Modelled from the spec: the body of `DeviceManager::setActiveDevice` is not
part of the sources, only its declaration is.  The index is validated against
the range of enumerated devices; out of range, an invalid-argument error is
returned and the manager is not mutated; in range, the active device is
switched. -/
def DeviceManager.setActiveDevice (m : DeviceManager) (device : Int) :
    Status × DeviceManager :=
  if 0 ≤ device ∧ device < m.nDevices then
    (Status.success, { m with activeDev := device })
  else
    (Status.invalidArgument, m)

/-- Modelled from the spec: `getDeviceCount` returns the number of enumerated
devices. -/
def getDeviceCount (m : DeviceManager) : Int := m.nDevices

/-- Modelled from the spec: `getActiveDeviceId` returns the active logical
index. -/
def getActiveDeviceId (m : DeviceManager) : Int := m.activeDev

/-- Modelled from the spec: `setDevice` selects the active device through the
manager. -/
def setDevice (m : DeviceManager) (device : Int) : Status × DeviceManager :=
  m.setActiveDevice device

end cuda

namespace cpu

/-! ## Offsets computed by `getIdx` -/

theorem toInt32_emod (x : Int) : toInt32 x % 2 ^ 32 = x % 2 ^ 32 := by
  unfold toInt32; omega

theorem wrapInt64_emod (x : Int) : wrapInt64 x % 2 ^ 32 = x % 2 ^ 32 := by
  unfold wrapInt64; omega

theorem mul_emod_congr (a b c : Int) (h : a % 2 ^ 32 = b % 2 ^ 32) :
    (a * c) % 2 ^ 32 = (b * c) % 2 ^ 32 := by
  rw [Int.mul_emod, h, ← Int.mul_emod]

theorem add_emod_congr (a b c d : Int) (h1 : a % 2 ^ 32 = b % 2 ^ 32)
    (h2 : c % 2 ^ 32 = d % 2 ^ 32) : (a + c) % 2 ^ 32 = (b + d) % 2 ^ 32 := by
  rw [Int.add_emod, h1, h2, ← Int.add_emod]

/-- The value of `getIdx`: the sum `i + j*s1 + k*s2 + l*s3` reduced modulo
`2^32`; the conversions of the indices to `int` do not change it. -/
theorem getIdx_eq (s : dim4) (i j k l : Nat) :
    getIdx s i j k l = (i + j * s.d1 + k * s.d2 + l * s.d3) % 2 ^ 32 := by
  unfold getIdx toUInt32
  rw [wrapInt64_emod]
  have h : (toInt32 l * s.d3 + toInt32 k * s.d2 + toInt32 j * s.d1 + toInt32 i) % 2 ^ 32
      = (((i + j * s.d1 + k * s.d2 + l * s.d3 : Nat) : Int)) % 2 ^ 32 := by
    have e : (((i + j * s.d1 + k * s.d2 + l * s.d3 : Nat) : Int))
        = (l : Int) * s.d3 + (k : Int) * s.d2 + (j : Int) * s.d1 + (i : Int) := by
      push_cast; ring
    rw [e]
    apply add_emod_congr
    · apply add_emod_congr
      · apply add_emod_congr
        · exact mul_emod_congr _ _ _ (toInt32_emod _)
        · exact mul_emod_congr _ _ _ (toInt32_emod _)
      · exact mul_emod_congr _ _ _ (toInt32_emod _)
    · exact toInt32_emod _
  rw [h]
  omega

theorem getIdx_lt (s : dim4) (i j k l : Nat) : getIdx s i j k l < 2 ^ 32 := by
  rw [getIdx_eq]; exact Nat.mod_lt _ (by norm_num)

theorem getIdx_le (s : dim4) (i j k l : Nat) :
    getIdx s i j k l ≤ i + j * s.d1 + k * s.d2 + l * s.d3 := by
  rw [getIdx_eq]; exact Nat.mod_le _ _

theorem getIdx_exact (s : dim4) (i j k l : Nat)
    (h : i + j * s.d1 + k * s.d2 + l * s.d3 < 2 ^ 32) :
    getIdx s i j k l = i + j * s.d1 + k * s.d2 + l * s.d3 := by
  rw [getIdx_eq]; exact Nat.mod_eq_of_lt h

/-! ## Loops as folds over index lists -/

theorem forLoop_zero {σ : Type} (n : Nat) (body : Nat → σ → Option σ) (s : σ) :
    forLoop 0 n body s = (List.range n).foldlM (fun s i => body i s) s := by
  unfold forLoop
  rw [List.range_eq_range', Nat.sub_zero]

theorem foldlM_flatMap_option {α β σ : Type} (g : α → List β) (step : σ → β → Option σ) :
    ∀ (xs : List α) (s : σ),
      (xs.flatMap g).foldlM step s = xs.foldlM (fun s x => (g x).foldlM step s) s := by
  intro xs
  induction xs with
  | nil => intro s; rfl
  | cons x xs ih =>
    intro s
    rw [List.flatMap_cons, List.foldlM_append, List.foldlM_cons]
    cases h : (g x).foldlM step s with
    | none => rfl
    | some s1 => exact ih s1

theorem transpose_loops_eq {σ : Type} (d : dim4) (body : Nat → Nat → Nat → Nat → σ → Option σ)
    (s : σ) :
    forLoop 0 d.d3 (fun l => forLoop 0 d.d2 (fun k => forLoop 0 d.d1 (fun j =>
      forLoop 0 d.d0 (fun i => body i j k l)))) s
    = (transposeIdx d).foldlM (fun s t => body t.1 t.2.1 t.2.2.1 t.2.2.2 s) s := by
  unfold transposeIdx
  simp only [forLoop_zero, foldlM_flatMap_option, List.foldlM_map]

theorem inplace_loops_eq {σ : Type} (d : dim4) (body : Nat → Nat → Nat → Nat → σ → Option σ)
    (s : σ) :
    forLoop 0 d.d3 (fun l => forLoop 0 d.d2 (fun k => forLoop 0 d.d1 (fun j =>
      forLoop (j + 1) d.d0 (fun i => body i j k l)))) s
    = (inplaceIdx d).foldlM (fun s t => body t.1 t.2.1 t.2.2.1 t.2.2.2 s) s := by
  unfold inplaceIdx
  simp only [forLoop_zero, foldlM_flatMap_option, List.foldlM_map]
  rfl

theorem mem_transposeIdx (d : dim4) (i j k l : Nat) :
    (i, j, k, l) ∈ transposeIdx d ↔ i < d.d0 ∧ j < d.d1 ∧ k < d.d2 ∧ l < d.d3 := by
  unfold transposeIdx
  simp only [List.mem_flatMap, List.mem_map, List.mem_range, Prod.mk.injEq]
  constructor
  · rintro ⟨l', hl, k', hk, j', hj, i', hi, rfl, rfl, rfl, rfl⟩
    exact ⟨hi, hj, hk, hl⟩
  · rintro ⟨hi, hj, hk, hl⟩
    exact ⟨l, hl, k, hk, j, hj, i, hi, rfl, rfl, rfl, rfl⟩

theorem mem_inplaceIdx (d : dim4) (i j k l : Nat) :
    (i, j, k, l) ∈ inplaceIdx d ↔ (j < i ∧ i < d.d0) ∧ j < d.d1 ∧ k < d.d2 ∧ l < d.d3 := by
  unfold inplaceIdx
  simp only [List.mem_flatMap, List.mem_map, List.mem_range, List.mem_range'_1, Prod.mk.injEq]
  constructor
  · rintro ⟨l', hl, k', hk, j', hj, i', hi, rfl, rfl, rfl, rfl⟩
    exact ⟨⟨by omega, by omega⟩, hj, hk, hl⟩
  · rintro ⟨hi, hj, hk, hl⟩
    exact ⟨l, hl, k, hk, j, hj, i, ⟨by omega, by omega⟩, rfl, rfl, rfl, rfl⟩

theorem nodup_flatMap_tag {α β : Type} (xs : List α) (g : α → List β) (tag : β → α)
    (hx : xs.Nodup) (hg : ∀ x ∈ xs, (g x).Nodup) (htag : ∀ x ∈ xs, ∀ y ∈ g x, tag y = x) :
    (xs.flatMap g).Nodup := by
  rw [List.nodup_flatMap]
  refine ⟨hg, hx.pairwise_of_forall_ne ?_⟩
  intro x hxm y hym hxy z hz1 hz2
  exact hxy ((htag x hxm z hz1).symm.trans (htag y hym z hz2))

theorem inplaceIdx_nodup (d : dim4) : (inplaceIdx d).Nodup := by
  unfold inplaceIdx
  refine nodup_flatMap_tag _ _ (fun t => t.2.2.2) (List.nodup_range _) ?_ ?_
  · intro l _
    refine nodup_flatMap_tag _ _ (fun t => t.2.2.1) (List.nodup_range _) ?_ ?_
    · intro k _
      refine nodup_flatMap_tag _ _ (fun t => t.2.1) (List.nodup_range _) ?_ ?_
      · intro j _
        refine (List.nodup_range' _ _).map_on ?_
        intro x _ y _ h
        exact congrArg Prod.fst h
      · intro j _ y hy
        obtain ⟨i, -, rfl⟩ := List.mem_map.mp hy
        rfl
    · intro k _ y hy
      obtain ⟨j, -, hy2⟩ := List.mem_flatMap.mp hy
      obtain ⟨i, -, rfl⟩ := List.mem_map.mp hy2
      rfl
  · intro l _ y hy
    obtain ⟨k, -, hy2⟩ := List.mem_flatMap.mp hy
    obtain ⟨j, -, hy3⟩ := List.mem_flatMap.mp hy2
    obtain ⟨i, -, rfl⟩ := List.mem_map.mp hy3
    rfl

theorem transposeIdx_nodup (d : dim4) : (transposeIdx d).Nodup := by
  unfold transposeIdx
  refine nodup_flatMap_tag _ _ (fun t => t.2.2.2) (List.nodup_range _) ?_ ?_
  · intro l _
    refine nodup_flatMap_tag _ _ (fun t => t.2.2.1) (List.nodup_range _) ?_ ?_
    · intro k _
      refine nodup_flatMap_tag _ _ (fun t => t.2.1) (List.nodup_range _) ?_ ?_
      · intro j _
        refine (List.nodup_range _).map_on ?_
        intro x _ y _ h
        exact congrArg Prod.fst h
      · intro j _ y hy
        obtain ⟨i, -, rfl⟩ := List.mem_map.mp hy
        rfl
    · intro k _ y hy
      obtain ⟨j, -, hy2⟩ := List.mem_flatMap.mp hy
      obtain ⟨i, -, rfl⟩ := List.mem_map.mp hy2
      rfl
  · intro l _ y hy
    obtain ⟨k, -, hy2⟩ := List.mem_flatMap.mp hy
    obtain ⟨j, -, hy3⟩ := List.mem_flatMap.mp hy2
    obtain ⟨i, -, rfl⟩ := List.mem_map.mp hy3
    rfl

/-! ## Folds of stores -/

theorem store_eq_some {T : Type} (buf : List T) (idx : Nat) (v : T) (h : idx < buf.length) :
    store buf idx v = some (buf.set idx v) := by
  unfold store; rw [if_pos h]

theorem store_eq_none {T : Type} (buf : List T) (idx : Nat) (v : T) (h : ¬ idx < buf.length) :
    store buf idx v = none := by
  unfold store; rw [if_neg h]

theorem load_eq_some {T : Type} (buf : List T) (idx : Nat) (h : idx < buf.length) :
    load buf idx = some (buf.get ⟨idx, h⟩) := by
  unfold load; exact List.getElem?_eq_getElem h

/-- A fold of steps that each load one cell of `inp` and store its image under
`f` into the running buffer: it succeeds when every access is in range, keeps
the length, leaves the cells that no step writes, and a written cell holds the
image of the cell its writers read. -/
theorem scatter_fold {ι T : Type} (inp : List T) (rd w : ι → Nat) (f : T → T)
    (step : List T → ι → Option (List T))
    (hstep : ∀ b t, step b t =
      match load inp (rd t) with
      | none => none
      | some x => store b (w t) (f x)) :
    ∀ (ts : List ι) (buf : List T),
      (∀ t ∈ ts, rd t < inp.length) → (∀ t ∈ ts, w t < buf.length) →
      ∃ r, ts.foldlM step buf = some r ∧ r.length = buf.length ∧
        (∀ p, (∀ t ∈ ts, w t ≠ p) → r[p]? = buf[p]?) ∧
        (∀ t ∈ ts, (∀ t2 ∈ ts, w t2 = w t → rd t2 = rd t) →
          r[w t]? = (inp[rd t]?).map f) := by
  intro ts
  induction ts with
  | nil =>
    intro buf _ _
    exact ⟨buf, rfl, rfl, fun _ _ => rfl, fun t ht => absurd ht (List.not_mem_nil t)⟩
  | cons t0 ts ih =>
    intro buf hr hw
    have hr0 := hr t0 (List.mem_cons_self _ _)
    have hw0 := hw t0 (List.mem_cons_self _ _)
    have hs : step buf t0 = some (buf.set (w t0) (f (inp.get ⟨rd t0, hr0⟩))) := by
      rw [hstep, load_eq_some inp (rd t0) hr0]
      exact store_eq_some _ _ _ hw0
    obtain ⟨r, hfold, hlen, hframe, hval⟩ :=
      ih (buf.set (w t0) (f (inp.get ⟨rd t0, hr0⟩)))
        (fun t ht => hr t (List.mem_cons_of_mem _ ht))
        (fun t ht => by rw [List.length_set]; exact hw t (List.mem_cons_of_mem _ ht))
    refine ⟨r, ?_, ?_, ?_, ?_⟩
    · rw [List.foldlM_cons, hs]; exact hfold
    · rw [hlen, List.length_set]
    · intro p hp
      rw [hframe p (fun t ht => hp t (List.mem_cons_of_mem _ ht))]
      exact List.getElem?_set_ne (hp t0 (List.mem_cons_self _ _))
    · intro t ht hsame
      rcases List.mem_cons.mp ht with rfl | ht'
      · by_cases hex : ∃ t2 ∈ ts, w t2 = w t
        · obtain ⟨t2, ht2, hw2⟩ := hex
          have h2 := hval t2 ht2 (fun t3 ht3 h3 => by
            rw [hsame t3 (List.mem_cons_of_mem _ ht3) (h3.trans hw2),
              hsame t2 (List.mem_cons_of_mem _ ht2) hw2])
          rw [← hw2, h2, hsame t2 (List.mem_cons_of_mem _ ht2) hw2]
        · have hne : ∀ t2 ∈ ts, w t2 ≠ w t := fun t2 ht2 h => hex ⟨t2, ht2, h⟩
          rw [hframe (w t) hne, List.getElem?_set_eq_of_lt _ hw0]
          have : inp[rd t]? = some (inp.get ⟨rd t, hr0⟩) := List.getElem?_eq_getElem hr0
          rw [this]; rfl
      · exact hval t ht' (fun t2 ht2 h => hsame t2 (List.mem_cons_of_mem _ ht2) h)

/-- Two runs of a fold of load-and-store steps from two buffers of one length
fault together or succeed together, and after success they agree on every
cell on which the buffers agreed and on every cell that a step writes. -/
theorem scatter_fold_fresh {ι T : Type} (inp : List T) (rd w : ι → Nat) (f : T → T)
    (step : List T → ι → Option (List T))
    (hstep : ∀ b t, step b t =
      match load inp (rd t) with
      | none => none
      | some x => store b (w t) (f x)) :
    ∀ (ts : List ι) (b1 b2 : List T), b1.length = b2.length →
      (ts.foldlM step b1 = none ∧ ts.foldlM step b2 = none) ∨
      ∃ r1 r2, ts.foldlM step b1 = some r1 ∧ ts.foldlM step b2 = some r2 ∧
        r1.length = b1.length ∧ r2.length = b2.length ∧
        ∀ p, (b1[p]? = b2[p]? ∨ ∃ t ∈ ts, w t = p) → r1[p]? = r2[p]? := by
  intro ts
  induction ts with
  | nil =>
    intro b1 b2 _
    refine Or.inr ⟨b1, b2, rfl, rfl, rfl, rfl, ?_⟩
    intro p hp
    rcases hp with hp | ⟨t, ht, -⟩
    · exact hp
    · exact absurd ht (List.not_mem_nil t)
  | cons t0 ts ih =>
    intro b1 b2 hlen
    rw [List.foldlM_cons, List.foldlM_cons, hstep, hstep]
    cases hl : load inp (rd t0) with
    | none => exact Or.inl ⟨rfl, rfl⟩
    | some x =>
      dsimp only
      by_cases hw : w t0 < b1.length
      · have hw2 : w t0 < b2.length := by omega
        rw [store_eq_some _ _ _ hw, store_eq_some _ _ _ hw2]
        rcases ih (b1.set (w t0) (f x)) (b2.set (w t0) (f x))
          (by rw [List.length_set, List.length_set]; exact hlen) with hnone | hsome
        · exact Or.inl hnone
        · obtain ⟨r1, r2, h1, h2, hl1, hl2, hag⟩ := hsome
          refine Or.inr ⟨r1, r2, h1, h2, ?_, ?_, ?_⟩
          · rw [hl1, List.length_set]
          · rw [hl2, List.length_set]
          · intro p hp
            apply hag p
            rcases hp with hp | ⟨t, ht, hwt⟩
            · left
              by_cases hpe : w t0 = p
              · subst hpe
                rw [List.getElem?_set_eq_of_lt _ hw, List.getElem?_set_eq_of_lt _ hw2]
              · rw [List.getElem?_set_ne hpe, List.getElem?_set_ne hpe]
                exact hp
            · rcases List.mem_cons.mp ht with rfl | ht2
              · left
                subst hwt
                rw [List.getElem?_set_eq_of_lt _ hw, List.getElem?_set_eq_of_lt _ hw2]
              · exact Or.inr ⟨t, ht2, hwt⟩
      · have hw2 : ¬ w t0 < b2.length := by omega
        rw [store_eq_none _ _ _ hw, store_eq_none _ _ _ hw2]
        exact Or.inl ⟨rfl, rfl⟩

/-! ## Packed offsets -/

theorem digit_lt (a i m M : Nat) (hi : i < a) (hm : m < M) : i + m * a < M * a := by
  have h1 : (m + 1) * a ≤ M * a := Nat.mul_le_mul_right a hm
  have h2 : (m + 1) * a = m * a + a := by ring
  omega

theorem digit_inj (a i m i2 m2 : Nat) (hi : i < a) (hi2 : i2 < a)
    (h : i + m * a = i2 + m2 * a) : i = i2 ∧ m = m2 := by
  have ha : 0 < a := by omega
  have e1 : (i + m * a) % a = i := by
    rw [Nat.add_mul_mod_self_right]; exact Nat.mod_eq_of_lt hi
  have e2 : (i2 + m2 * a) % a = i2 := by
    rw [Nat.add_mul_mod_self_right]; exact Nat.mod_eq_of_lt hi2
  have hii : i = i2 := by rw [← e1, ← e2, h]
  subst hii
  have hm : m * a = m2 * a := by omega
  exact ⟨rfl, Nat.eq_of_mul_eq_mul_right ha hm⟩

theorem packedOffset_horner (a b c i j k l : Nat) :
    packedOffset a b c i j k l = i + (j + (k + l * c) * b) * a := by
  unfold packedOffset; ring

theorem packedOffset_lt (a b c d i j k l : Nat) (hi : i < a) (hj : j < b) (hk : k < c)
    (hl : l < d) : packedOffset a b c i j k l < a * b * c * d := by
  rw [packedOffset_horner]
  have h1 : k + l * c < d * c := digit_lt c k l d hk hl
  have h2 : j + (k + l * c) * b < d * c * b := digit_lt b j _ _ hj h1
  have h3 := digit_lt a i _ _ hi h2
  have e : d * c * b * a = a * b * c * d := by ring
  omega

theorem packedOffset_inj (a b c i j k l i2 j2 k2 l2 : Nat) (hi : i < a) (hj : j < b)
    (hk : k < c) (hi2 : i2 < a) (hj2 : j2 < b) (hk2 : k2 < c)
    (h : packedOffset a b c i j k l = packedOffset a b c i2 j2 k2 l2) :
    i = i2 ∧ j = j2 ∧ k = k2 ∧ l = l2 := by
  rw [packedOffset_horner, packedOffset_horner] at h
  obtain ⟨h1, h⟩ := digit_inj a i _ i2 _ hi hi2 h
  obtain ⟨h2, h⟩ := digit_inj b j _ j2 _ hj hj2 h
  obtain ⟨h3, h4⟩ := digit_inj c k _ k2 _ hk hk2 h
  exact ⟨h1, h2, h3, h4⟩

/-! ## The out-of-place kernel -/

theorem transposeBody_eq {T : Type} (conj : T → T) (conjugate : Bool)
    (ostrides istrides : dim4) (inp : List T) (i j k l : Nat) (out : List T) :
    transposeBody conj conjugate ostrides istrides inp i j k l out =
      match load inp (getIdx istrides j i k l) with
      | none => none
      | some x => store out (getIdx ostrides i j k l) (applyConj conj conjugate x) := by
  unfold transposeBody applyConj
  dsimp only
  cases load inp (getIdx istrides j i k l) with
  | none => rfl
  | some x => cases conjugate <;> rfl

/-- The kernel `transpose_` is one load and one store per index tuple of its
iteration domain, in loop order: the store of the tuple `t` goes to the offset
that `transposeWrites` lists for `t`. -/
theorem transpose__eq_fold {T : Type} (conj : T → T) (output input : Array T)
    (conjugate : Bool) :
    transpose_ conj output input conjugate =
      ((transposeIdx output.dims).foldlM (fun (buf : List T) (t : Nat × Nat × Nat × Nat) =>
        match load input.data (getIdx input.strides t.2.1 t.1 t.2.2.1 t.2.2.2) with
        | none => none
        | some x =>
          store buf (getIdx output.strides t.1 t.2.1 t.2.2.1 t.2.2.2) (applyConj conj conjugate x))
        output.data).map (fun d => { output with data := d }) := by
  unfold transpose_
  simp only []
  rw [transpose_loops_eq output.dims
    (fun i j k l => transposeBody conj conjugate output.strides input.strides input.data i j k l)]
  simp only [transposeBody_eq]

/-- The kernel `transpose_` runs to completion when every offset it forms is
inside its buffer; it keeps shape, strides and size of the output, leaves the
cells it does not address, and a cell it addresses holds the image of the input
cell read for it. -/
theorem transpose__spec {T : Type} (conj : T → T) (output input : Array T) (conjugate : Bool)
    (hr : ∀ i j k l, i < output.dims.d0 → j < output.dims.d1 → k < output.dims.d2 →
      l < output.dims.d3 → getIdx input.strides j i k l < input.data.length)
    (hw : ∀ i j k l, i < output.dims.d0 → j < output.dims.d1 → k < output.dims.d2 →
      l < output.dims.d3 → getIdx output.strides i j k l < output.data.length) :
    ∃ out, transpose_ conj output input conjugate = some out ∧
      out.dims = output.dims ∧ out.strides = output.strides ∧
      out.data.length = output.data.length ∧
      (∀ p, (∀ i j k l, i < output.dims.d0 → j < output.dims.d1 → k < output.dims.d2 →
          l < output.dims.d3 → getIdx output.strides i j k l ≠ p) →
        out.data[p]? = output.data[p]?) ∧
      (∀ i j k l, i < output.dims.d0 → j < output.dims.d1 → k < output.dims.d2 →
        l < output.dims.d3 →
        (∀ i2 j2 k2 l2, i2 < output.dims.d0 → j2 < output.dims.d1 → k2 < output.dims.d2 →
          l2 < output.dims.d3 →
          getIdx output.strides i2 j2 k2 l2 = getIdx output.strides i j k l →
          getIdx input.strides j2 i2 k2 l2 = getIdx input.strides j i k l) →
        out.data[getIdx output.strides i j k l]? =
          (input.data[getIdx input.strides j i k l]?).map (applyConj conj conjugate)) := by
  obtain ⟨r, hfold, hlen, hframe, hval⟩ :=
    scatter_fold input.data
      (fun t : Nat × Nat × Nat × Nat => getIdx input.strides t.2.1 t.1 t.2.2.1 t.2.2.2)
      (fun t : Nat × Nat × Nat × Nat => getIdx output.strides t.1 t.2.1 t.2.2.1 t.2.2.2)
      (applyConj conj conjugate)
      (fun s t => transposeBody conj conjugate output.strides input.strides input.data
        t.1 t.2.1 t.2.2.1 t.2.2.2 s)
      (fun b t => transposeBody_eq _ _ _ _ _ _ _ _ _ _)
      (transposeIdx output.dims) output.data
      (fun t ht => by
        obtain ⟨i, j, k, l⟩ := t
        obtain ⟨hi, hj, hk, hl⟩ := (mem_transposeIdx _ _ _ _ _).mp ht
        exact hr i j k l hi hj hk hl)
      (fun t ht => by
        obtain ⟨i, j, k, l⟩ := t
        obtain ⟨hi, hj, hk, hl⟩ := (mem_transposeIdx _ _ _ _ _).mp ht
        exact hw i j k l hi hj hk hl)
  refine ⟨{ output with data := r }, ?_, rfl, rfl, hlen, ?_, ?_⟩
  · unfold transpose_
    simp only []
    rw [transpose_loops_eq output.dims
      (fun i j k l => transposeBody conj conjugate output.strides input.strides input.data i j k l),
      hfold]
    rfl
  · intro p hp
    apply hframe p
    intro t ht
    obtain ⟨i, j, k, l⟩ := t
    obtain ⟨hi, hj, hk, hl⟩ := (mem_transposeIdx _ _ _ _ _).mp ht
    exact hp i j k l hi hj hk hl
  · intro i j k l hi hj hk hl hsame
    apply hval (i, j, k, l) ((mem_transposeIdx _ _ _ _ _).mpr ⟨hi, hj, hk, hl⟩)
    intro t ht h
    obtain ⟨i2, j2, k2, l2⟩ := t
    obtain ⟨hi2, hj2, hk2, hl2⟩ := (mem_transposeIdx _ _ _ _ _).mp ht
    exact hsame i2 j2 k2 l2 hi2 hj2 hk2 hl2 h

theorem getIdx_packed_le (a b c i j k l : Nat) :
    getIdx ⟨1, a, a * b, a * b * c⟩ i j k l ≤ packedOffset a b c i j k l :=
  getIdx_le _ i j k l

theorem getIdx_packed_exact (a b c i j k l : Nat) (h : packedOffset a b c i j k l < 2 ^ 32) :
    getIdx ⟨1, a, a * b, a * b * c⟩ i j k l = packedOffset a b c i j k l :=
  getIdx_exact _ i j k l h

theorem elem_packed {T : Type} (a b c d : Nat) (data : List T) (i j k l : Nat) :
    (Array.mk ⟨a, b, c, d⟩ ⟨1, a, a * b, a * b * c⟩ data).elem i j k l =
      data[packedOffset a b c i j k l]? := by
  unfold Array.elem dotOffset packedOffset
  simp only [Nat.mul_one]

theorem elem_eq_dotOffset {T : Type} (A : Array T) (i j k l : Nat) :
    A.elem i j k l = A.data[dotOffset A.strides i j k l]? := rfl

theorem getIdx_le_dotOffset (s : dim4) (hs : 1 ≤ s.d0) (i j k l : Nat) :
    getIdx s i j k l ≤ dotOffset s i j k l := by
  have h1 := getIdx_le s i j k l
  have h2 : i ≤ i * s.d0 := Nat.le_mul_of_pos_right i hs
  unfold dotOffset
  omega

theorem getIdx_eq_dotOffset (s : dim4) (hs : s.d0 = 1) (i j k l : Nat)
    (h : dotOffset s i j k l < 2 ^ 32) : getIdx s i j k l = dotOffset s i j k l := by
  unfold dotOffset at h ⊢
  rw [hs, Nat.mul_one] at h ⊢
  exact getIdx_exact s i j k l h

/-- The entry point `transpose` on an array whose elements lie in its buffer:
it returns a packed array of the swapped shape; cells at offsets from `2^32`
on keep the contents of the fresh buffer; with unit stride on axis 0, input
offsets below `2^32` and at most `2^32` elements, every element is the image
of the mirrored input element. -/
theorem transpose_run {T : Type} (conj : T → T) (A : Array T) (conjugate : Bool)
    (garbage : Nat → T) (hs0 : 1 ≤ A.strides.d0) (hwf : A.inBounds) :
    ∃ out, transpose conj A conjugate garbage = some out ∧
      out.dims = ⟨A.dims.d1, A.dims.d0, A.dims.d2, A.dims.d3⟩ ∧ out.packed ∧
      (∀ p, 2 ^ 32 ≤ p → out.data[p]? =
        ((List.range (A.dims.d1 * A.dims.d0 * A.dims.d2 * A.dims.d3)).map garbage)[p]?) ∧
      (A.strides.d0 = 1 → A.offsets32 → A.dims.elements ≤ 2 ^ 32 →
        ∀ i j k l, i < A.dims.d1 → j < A.dims.d0 → k < A.dims.d2 → l < A.dims.d3 →
        ∃ v, A.elem j i k l = some v ∧
          out.elem i j k l = some (applyConj conj conjugate v)) := by
  obtain ⟨⟨d0, d1, d2, d3⟩, strides, data⟩ := A
  simp only [dim4.elements, Array.inBounds, Array.offsets32] at hs0 hwf ⊢
  have hswap : d1 * d0 * d2 * d3 = d0 * d1 * d2 * d3 := by ring
  obtain ⟨out, hrun, hdims, hstr, hlen2, hframe, hval⟩ :=
    transpose__spec conj (createEmptyArray ⟨d1, d0, d2, d3⟩ garbage)
      ⟨⟨d0, d1, d2, d3⟩, strides, data⟩ conjugate
      (fun i j k l hi hj hk hl => by
        have h1 := getIdx_le_dotOffset strides hs0 j i k l
        have h2 := hwf j i k l hj hi hk hl
        show getIdx strides j i k l < data.length
        omega)
      (fun i j k l hi hj hk hl => by
        have h1 := getIdx_packed_le d1 d0 d2 i j k l
        have h2 := packedOffset_lt d1 d0 d2 d3 i j k l hi hj hk hl
        show getIdx ⟨1, d1, d1 * d0, d1 * d0 * d2⟩ i j k l <
          ((List.range (d1 * d0 * d2 * d3)).map garbage).length
        rw [List.length_map, List.length_range]
        omega)
  have hlen3 : out.data.length = d1 * d0 * d2 * d3 := by
    rw [hlen2]
    show ((List.range (d1 * d0 * d2 * d3)).map garbage).length = _
    rw [List.length_map, List.length_range]
  refine ⟨out, hrun, hdims, ⟨?_, ?_⟩, ?_, ?_⟩
  · rw [hstr, hdims]; rfl
  · rw [hlen3, hdims]; rfl
  · intro p hp
    apply hframe p
    intro i j k l _ _ _ _ h
    have := getIdx_lt (createEmptyArray (T := T) ⟨d1, d0, d2, d3⟩ garbage).strides i j k l
    omega
  · intro hone hlt hsz i j k l hi hj hk hl
    have ho := packedOffset_lt d1 d0 d2 d3 i j k l hi hj hk hl
    have hin := hwf j i k l hj hi hk hl
    have hoe : getIdx ⟨1, d1, d1 * d0, d1 * d0 * d2⟩ i j k l = packedOffset d1 d0 d2 i j k l :=
      getIdx_packed_exact _ _ _ _ _ _ _ (by omega)
    have hie : getIdx strides j i k l = dotOffset strides j i k l :=
      getIdx_eq_dotOffset strides hone j i k l (hlt j i k l hj hi hk hl)
    have hv := hval i j k l hi hj hk hl (fun i2 j2 k2 l2 hi2 hj2 hk2 hl2 h => by
      have ho2 := packedOffset_lt d1 d0 d2 d3 i2 j2 k2 l2 hi2 hj2 hk2 hl2
      have hoe2 : getIdx ⟨1, d1, d1 * d0, d1 * d0 * d2⟩ i2 j2 k2 l2 =
          packedOffset d1 d0 d2 i2 j2 k2 l2 :=
        getIdx_packed_exact _ _ _ _ _ _ _ (by omega)
      have h3 : packedOffset d1 d0 d2 i2 j2 k2 l2 = packedOffset d1 d0 d2 i j k l := by
        rw [← hoe2, ← hoe]; exact h
      obtain ⟨e1, e2, e3, e4⟩ := packedOffset_inj d1 d0 d2 _ _ _ _ _ _ _ _ hi2 hj2 hk2 hi hj hk h3
      subst e1 e2 e3 e4
      rfl)
    refine ⟨data.get ⟨dotOffset strides j i k l, hin⟩, ?_, ?_⟩
    · rw [elem_eq_dotOffset]
      exact List.getElem?_eq_getElem _
    · have hv2 : out.data[packedOffset d1 d0 d2 i j k l]? =
          (data[dotOffset strides j i k l]?).map (applyConj conj conjugate) := by
        rw [← hoe, ← hie]; exact hv
      obtain ⟨od, os, odata⟩ := out
      dsimp only [createEmptyArray] at hdims hstr hv2
      subst hdims hstr
      rw [elem_packed, hv2, List.getElem?_eq_getElem hin]
      rfl

theorem packed_dotOffset (a b c i j k l : Nat) :
    dotOffset ⟨1, a, a * b, a * b * c⟩ i j k l = packedOffset a b c i j k l := by
  unfold dotOffset packedOffset
  simp only [Nat.mul_one]

theorem packed_inBounds {T : Type} (A : Array T) (hp : A.packed) : A.inBounds := by
  obtain ⟨⟨d0, d1, d2, d3⟩, strides, data⟩ := A
  obtain ⟨hs, hlen⟩ := hp
  simp only [dim4.elements] at hs hlen
  subst hs
  intro i j k l hi hj hk hl
  show dotOffset ⟨1, d0, d0 * d1, d0 * d1 * d2⟩ i j k l < data.length
  rw [packed_dotOffset, hlen]
  exact packedOffset_lt d0 d1 d2 d3 i j k l hi hj hk hl

theorem packed_offsets32 {T : Type} (A : Array T) (hp : A.packed)
    (hsz : A.dims.elements ≤ 2 ^ 32) : A.offsets32 := by
  intro i j k l hi hj hk hl
  have h := packed_inBounds A hp i j k l hi hj hk hl
  rw [hp.2] at h
  omega

theorem packed_stride0 {T : Type} (A : Array T) (hp : A.packed) : A.strides.d0 = 1 := by
  rw [hp.1]

theorem packed_distinctOffsets {T : Type} (A : Array T) (hp : A.packed) :
    A.distinctOffsets := by
  obtain ⟨⟨d0, d1, d2, d3⟩, strides, data⟩ := A
  obtain ⟨hs, -⟩ := hp
  dsimp only at hs
  subst hs
  intro i j k l i2 j2 k2 l2 hi hj hk _ hi2 hj2 hk2 _ h
  dsimp only at h
  rw [packed_dotOffset, packed_dotOffset] at h
  exact packedOffset_inj d0 d1 d2 i j k l i2 j2 k2 l2 hi hj hk hi2 hj2 hk2 h

/-- The entry point `transpose` on a packed input. -/
theorem transpose_packed {T : Type} (conj : T → T) (A : Array T) (hp : A.packed)
    (conjugate : Bool) (garbage : Nat → T) :
    ∃ out, transpose conj A conjugate garbage = some out ∧
      out.dims = ⟨A.dims.d1, A.dims.d0, A.dims.d2, A.dims.d3⟩ ∧ out.packed ∧
      (∀ p, 2 ^ 32 ≤ p → out.data[p]? =
        ((List.range (A.dims.d1 * A.dims.d0 * A.dims.d2 * A.dims.d3)).map garbage)[p]?) ∧
      (A.dims.elements ≤ 2 ^ 32 → ∀ i j k l, i < A.dims.d1 → j < A.dims.d0 →
        k < A.dims.d2 → l < A.dims.d3 →
        ∃ v, A.elem j i k l = some v ∧
          out.elem i j k l = some (applyConj conj conjugate v)) := by
  obtain ⟨out, h1, h2, h3, h4, h5⟩ :=
    transpose_run conj A conjugate garbage (by rw [packed_stride0 A hp]) (packed_inBounds A hp)
  exact ⟨out, h1, h2, h3, h4, fun hsz =>
    h5 (packed_stride0 A hp) (packed_offsets32 A hp hsz) hsz⟩

/-- On a packed input, an output element whose offset is `2^32` or more is
never written: it keeps the contents of the fresh buffer. -/
theorem transpose_unwritten {T : Type} (conj : T → T) (A : Array T) (hp : A.packed)
    (conjugate : Bool) (garbage : Nat → T) (i j k l : Nat)
    (hi : i < A.dims.d1) (hj : j < A.dims.d0) (hk : k < A.dims.d2) (hl : l < A.dims.d3)
    (hbig : 2 ^ 32 ≤ packedOffset A.dims.d1 A.dims.d0 A.dims.d2 i j k l) :
    ∃ out, transpose conj A conjugate garbage = some out ∧
      out.dims = ⟨A.dims.d1, A.dims.d0, A.dims.d2, A.dims.d3⟩ ∧ out.packed ∧
      out.elem i j k l =
        some (garbage (packedOffset A.dims.d1 A.dims.d0 A.dims.d2 i j k l)) := by
  obtain ⟨out, hrun, hdims, hpk, hhigh, -⟩ := transpose_packed conj A hp conjugate garbage
  refine ⟨out, hrun, hdims, hpk, ?_⟩
  obtain ⟨od, os, odata⟩ := out
  obtain ⟨hs, -⟩ := hpk
  dsimp only at hdims hs hhigh
  subst hdims
  dsimp only at hs
  subst hs
  rw [elem_packed, hhigh _ hbig, List.getElem?_map,
    List.getElem?_range (packedOffset_lt _ _ _ _ i j k l hi hj hk hl)]
  rfl

/-! ## Facts about the concrete arrays -/

theorem mkPacked_packed {T : Type} (dims : dim4) (data : List T)
    (h : data.length = dims.elements) : (mkPacked dims data).packed := ⟨rfl, h⟩

theorem elem_mkPacked {T : Type} (dims : dim4) (data : List T) (i j k l : Nat) :
    (mkPacked dims data).elem i j k l = data[packedOffset dims.d0 dims.d1 dims.d2 i j k l]? := by
  obtain ⟨a, b, c, d⟩ := dims
  exact elem_packed a b c d data i j k l

theorem hugeColumn_packed : hugeColumn.packed :=
  mkPacked_packed _ _ (by rw [List.length_range]; simp only [dim4.elements, Nat.mul_one])

theorem hugeComplexColumn_packed : hugeComplexColumn.packed :=
  mkPacked_packed _ _ (by
    rw [List.length_map, List.length_range]; simp only [dim4.elements, Nat.mul_one])

theorem hugeColumn_elem : hugeColumn.elem (2 ^ 32) 0 0 0 = some (2 ^ 32) := by
  have hoff : packedOffset (2 ^ 32 + 1) 1 1 (2 ^ 32) 0 0 0 = 2 ^ 32 := by
    unfold packedOffset; omega
  rw [hugeColumn, elem_mkPacked]
  dsimp only
  rw [hoff, List.getElem?_range (by omega)]

theorem hugeComplexColumn_elem :
    hugeComplexColumn.elem (2 ^ 32) 0 0 0 = some ⟨2 ^ 32, 1⟩ := by
  have hoff : packedOffset (2 ^ 32 + 1) 1 1 (2 ^ 32) 0 0 0 = 2 ^ 32 := by
    unfold packedOffset; omega
  rw [hugeComplexColumn, elem_mkPacked]
  dsimp only
  rw [hoff, List.getElem?_map, List.getElem?_range (by omega)]
  rfl

theorem stridedPair_inBounds : stridedPair.inBounds := by
  intro i j k l hi hj hk hl
  simp only [stridedPair, dotOffset, List.length_cons, List.length_nil] at hi hj hk hl ⊢
  omega

theorem stridedComplexPair_inBounds : stridedComplexPair.inBounds := by
  intro i j k l hi hj hk hl
  simp only [stridedComplexPair, dotOffset, List.length_cons, List.length_nil] at hi hj hk hl ⊢
  omega

theorem hugeSquare_packed : hugeSquare.packed :=
  mkPacked_packed _ _ (by rw [List.length_range]; simp only [dim4.elements, Nat.mul_one])

theorem hugeSquare_elem : hugeSquare.elem 65536 65535 0 0 = some (2 ^ 32 + 65535) := by
  have hoff : packedOffset 65537 65537 1 65536 65535 0 0 = 2 ^ 32 + 65535 := by
    unfold packedOffset; omega
  rw [hugeSquare, elem_mkPacked]
  dsimp only
  rw [hoff, List.getElem?_range (by omega)]

theorem hugeSquare_elem_upper :
    hugeSquare.elem 65535 65536 0 0 = some (2 ^ 32 + 131071) := by
  have hoff : packedOffset 65537 65537 1 65535 65536 0 0 = 2 ^ 32 + 131071 := by
    unfold packedOffset; omega
  rw [hugeSquare, elem_mkPacked]
  dsimp only
  rw [hoff, List.getElem?_range (by omega)]

theorem stridedSquare_distinctOffsets : stridedSquare.distinctOffsets := by
  intro i j k l i2 j2 k2 l2 hi hj hk hl hi2 hj2 hk2 hl2 h
  simp only [stridedSquare, dotOffset] at hi hj hk hl hi2 hj2 hk2 hl2 h
  omega

/-! ## The in-place kernel -/

theorem swapCells_eq {T : Type} (buf : List T) (a b : Nat) (x y : T)
    (ha : buf[a]? = some x) (hb : buf[b]? = some y) :
    swapCells buf a b = some ((buf.set a y).set b x) := by
  have hla : a < buf.length := (List.getElem?_eq_some.mp ha).1
  have hlb : b < buf.length := (List.getElem?_eq_some.mp hb).1
  unfold swapCells load
  rw [ha, hb]
  dsimp only
  rw [store_eq_some buf a y hla]
  dsimp only
  rw [store_eq_some _ b x (by rw [List.length_set]; exact hlb)]

theorem conjCell_eq {T : Type} (conj : T → T) (buf : List T) (a : Nat) (x : T)
    (ha : buf[a]? = some x) : conjCell conj buf a = some (buf.set a (conj x)) := by
  have hla : a < buf.length := (List.getElem?_eq_some.mp ha).1
  unfold conjCell load
  rw [ha]
  dsimp only
  rw [store_eq_some buf a (conj x) hla]

/-- One exchange of the in-place kernel on the cells `a` and `b`: it succeeds
when both lie in the buffer, keeps the length and every other cell, and when
`a` and `b` differ each of the two cells receives the image of the other. -/
theorem exchange_spec {T : Type} (conj : T → T) (conjugate : Bool) (buf : List T) (a b : Nat)
    (ha : a < buf.length) (hb : b < buf.length) :
    ∃ r, (if conjugate then
            match conjCell conj buf a with
            | none => none
            | some buf1 =>
              match conjCell conj buf1 b with
              | none => none
              | some buf2 => swapCells buf2 a b
          else swapCells buf a b) = some r ∧
      r.length = buf.length ∧
      (∀ p, p ≠ a → p ≠ b → r[p]? = buf[p]?) ∧
      (a ≠ b → r[a]? = (buf[b]?).map (applyConj conj conjugate) ∧
        r[b]? = (buf[a]?).map (applyConj conj conjugate)) := by
  have hxa : buf[a]? = some (buf.get ⟨a, ha⟩) := List.getElem?_eq_getElem ha
  have hyb : buf[b]? = some (buf.get ⟨b, hb⟩) := List.getElem?_eq_getElem hb
  generalize buf.get ⟨a, ha⟩ = x at hxa
  generalize buf.get ⟨b, hb⟩ = y at hyb
  cases conjugate with
  | false =>
    refine ⟨(buf.set a y).set b x, ?_, ?_, ?_, ?_⟩
    · simp only [Bool.false_eq_true, if_false]
      exact swapCells_eq buf a b x y hxa hyb
    · simp only [List.length_set]
    · intro p hpa hpb
      rw [List.getElem?_set_ne (Ne.symm hpb), List.getElem?_set_ne (Ne.symm hpa)]
    · intro hab
      constructor
      · rw [List.getElem?_set_ne (Ne.symm hab), List.getElem?_set_eq_of_lt _ ha, hyb]
        rfl
      · rw [List.getElem?_set_eq_of_lt _ (by rw [List.length_set]; exact hb), hxa]
        rfl
  | true =>
    by_cases hab : a = b
    · subst hab
      have hx : x = y := Option.some.inj (hxa.symm.trans hyb)
      subst hx
      have h1 : conjCell conj buf a = some (buf.set a (conj x)) := conjCell_eq conj buf a x hxa
      have hb1 : (buf.set a (conj x))[a]? = some (conj x) := List.getElem?_set_eq_of_lt _ ha
      have h2 : conjCell conj (buf.set a (conj x)) a
          = some ((buf.set a (conj x)).set a (conj (conj x))) :=
        conjCell_eq conj _ a _ hb1
      have hb2 : ((buf.set a (conj x)).set a (conj (conj x)))[a]? = some (conj (conj x)) :=
        List.getElem?_set_eq_of_lt _ (by rw [List.length_set]; exact ha)
      refine ⟨((((buf.set a (conj x)).set a (conj (conj x))).set a (conj (conj x))).set a
        (conj (conj x))), ?_, ?_, ?_, ?_⟩
      · simp only [if_true, h1, h2]
        exact swapCells_eq _ a a _ _ hb2 hb2
      · simp only [List.length_set]
      · intro p hpa _
        simp only [List.getElem?_set_ne (Ne.symm hpa)]
      · intro h; exact absurd rfl h
    · have h1 : conjCell conj buf a = some (buf.set a (conj x)) := conjCell_eq conj buf a x hxa
      have hb1 : (buf.set a (conj x))[b]? = some y := by
        rw [List.getElem?_set_ne hab]; exact hyb
      have h2 : conjCell conj (buf.set a (conj x)) b
          = some ((buf.set a (conj x)).set b (conj y)) :=
        conjCell_eq conj _ b _ hb1
      have ha2 : ((buf.set a (conj x)).set b (conj y))[a]? = some (conj x) := by
        rw [List.getElem?_set_ne (Ne.symm hab)]; exact List.getElem?_set_eq_of_lt _ ha
      have hb2 : ((buf.set a (conj x)).set b (conj y))[b]? = some (conj y) :=
        List.getElem?_set_eq_of_lt _ (by rw [List.length_set]; exact hb)
      refine ⟨((((buf.set a (conj x)).set b (conj y)).set a (conj y)).set b (conj x)),
        ?_, ?_, ?_, ?_⟩
      · simp only [if_true, h1, h2]
        exact swapCells_eq _ a b _ _ ha2 hb2
      · simp only [List.length_set]
      · intro p hpa hpb
        simp only [List.getElem?_set_ne (Ne.symm hpa), List.getElem?_set_ne (Ne.symm hpb)]
      · intro _
        constructor
        · rw [List.getElem?_set_ne (Ne.symm hab),
            List.getElem?_set_eq_of_lt _ (by simp only [List.length_set]; exact ha), hyb]
          rfl
        · rw [List.getElem?_set_eq_of_lt _ (by simp only [List.length_set]; exact hb), hxa]
          rfl

/-- A fold of exchanges: it succeeds when every addressed cell lies in the
buffer, keeps the length and the cells no step addresses, and when the steps
address pairwise disjoint pairs of distinct cells, each pair ends up
exchanged. -/
theorem swap_fold {ι T : Type} (f : T → T) (a b : ι → Nat)
    (step : List T → ι → Option (List T))
    (hstep : ∀ buf t, a t < buf.length → b t < buf.length →
      ∃ r, step buf t = some r ∧ r.length = buf.length ∧
        (∀ p, p ≠ a t → p ≠ b t → r[p]? = buf[p]?) ∧
        (a t ≠ b t → r[a t]? = (buf[b t]?).map f ∧ r[b t]? = (buf[a t]?).map f)) :
    ∀ (ts : List ι) (buf : List T),
      (∀ t ∈ ts, a t < buf.length ∧ b t < buf.length) →
      ∃ r, ts.foldlM step buf = some r ∧ r.length = buf.length ∧
        (∀ p, (∀ t ∈ ts, a t ≠ p ∧ b t ≠ p) → r[p]? = buf[p]?) ∧
        (ts.Pairwise (fun t t2 => a t ≠ a t2 ∧ a t ≠ b t2 ∧ b t ≠ a t2 ∧ b t ≠ b t2) →
          (∀ t ∈ ts, a t ≠ b t) →
          ∀ t ∈ ts, r[a t]? = (buf[b t]?).map f ∧ r[b t]? = (buf[a t]?).map f) := by
  intro ts
  induction ts with
  | nil =>
    intro buf _
    exact ⟨buf, rfl, rfl, fun _ _ => rfl, fun _ _ t ht => absurd ht (List.not_mem_nil t)⟩
  | cons t0 ts ih =>
    intro buf hin
    obtain ⟨ha0, hb0⟩ := hin t0 (List.mem_cons_self _ _)
    obtain ⟨r0, hs0, hl0, hf0, hv0⟩ := hstep buf t0 ha0 hb0
    obtain ⟨r, hfold, hlen, hframe, hval⟩ := ih r0 (fun t ht => by
      rw [hl0]; exact hin t (List.mem_cons_of_mem _ ht))
    refine ⟨r, ?_, ?_, ?_, ?_⟩
    · rw [List.foldlM_cons, hs0]; exact hfold
    · rw [hlen, hl0]
    · intro p hp
      rw [hframe p (fun t ht => hp t (List.mem_cons_of_mem _ ht))]
      obtain ⟨h1, h2⟩ := hp t0 (List.mem_cons_self _ _)
      exact hf0 p (Ne.symm h1) (Ne.symm h2)
    · intro hpw hne t ht
      obtain ⟨hR, hpw2⟩ := List.pairwise_cons.mp hpw
      rcases List.mem_cons.mp ht with rfl | ht2
      · obtain ⟨e1, e2⟩ := hv0 (hne t (List.mem_cons_self _ _))
        constructor
        · rw [hframe (a t) (fun t2 ht2 => ⟨Ne.symm (hR t2 ht2).1, Ne.symm (hR t2 ht2).2.1⟩)]
          exact e1
        · rw [hframe (b t) (fun t2 ht2 => ⟨Ne.symm (hR t2 ht2).2.2.1, Ne.symm (hR t2 ht2).2.2.2⟩)]
          exact e2
      · obtain ⟨e1, e2⟩ := hval hpw2 (fun t2 h2 => hne t2 (List.mem_cons_of_mem _ h2)) t ht2
        obtain ⟨n1, n2, n3, n4⟩ := hR t ht2
        constructor
        · rw [e1, hf0 (b t) (Ne.symm n2) (Ne.symm n4)]
        · rw [e2, hf0 (a t) (Ne.symm n1) (Ne.symm n3)]

/-- The kernel `transpose_inplace` on an array with `d0 ≤ d1` whose elements
lie in its buffer: it runs to completion and keeps shape, strides and size;
cells at offsets from `2^32` on are untouched; with unit stride on axis 0,
offsets below `2^32` and pairwise distinct offsets, every element `(i, j)`
with `i ≠ j` inside the leading `d0 × d0` block is the image of the element
`(j, i)`, and every other element is unchanged. -/
theorem transpose_inplace_run {T : Type} (conj : T → T) (A : Array T) (conjugate : Bool)
    (hs0 : 1 ≤ A.strides.d0) (hwf : A.inBounds) (hle : A.dims.d0 ≤ A.dims.d1) :
    ∃ out, transpose_inplace conj A conjugate = some out ∧
      out.dims = A.dims ∧ out.strides = A.strides ∧ out.data.length = A.data.length ∧
      (∀ p, 2 ^ 32 ≤ p → out.data[p]? = A.data[p]?) ∧
      (A.strides.d0 = 1 → A.offsets32 → A.distinctOffsets →
        (∀ i j k l, i < A.dims.d0 → j < A.dims.d0 → k < A.dims.d2 → l < A.dims.d3 → i ≠ j →
          out.elem i j k l = (A.elem j i k l).map (applyConj conj conjugate)) ∧
        (∀ i j k l, i < A.dims.d0 → j < A.dims.d1 → k < A.dims.d2 → l < A.dims.d3 →
          (i = j ∨ A.dims.d0 ≤ j) → out.elem i j k l = A.elem i j k l)) := by
  obtain ⟨⟨d0, d1, d2, d3⟩, strides, data⟩ := A
  simp only [Array.inBounds, Array.offsets32, Array.distinctOffsets] at hs0 hwf hle ⊢
  obtain ⟨r, hfold, hlen, hframe, hval⟩ :=
    swap_fold (applyConj conj conjugate)
      (fun t : Nat × Nat × Nat × Nat => getIdx strides t.2.1 t.1 t.2.2.1 t.2.2.2)
      (fun t : Nat × Nat × Nat × Nat => getIdx strides t.1 t.2.1 t.2.2.1 t.2.2.2)
      (fun buf t => inplaceBody conj conjugate strides t.1 t.2.1 t.2.2.1 t.2.2.2 buf)
      (fun buf t ha hb => exchange_spec conj conjugate buf _ _ ha hb)
      (inplaceIdx ⟨d0, d1, d2, d3⟩) data
      (fun t ht => by
        obtain ⟨i, j, k, l⟩ := t
        obtain ⟨⟨hji, hi⟩, hj, hk, hl⟩ := (mem_inplaceIdx _ _ _ _ _).mp ht
        dsimp only at hji hi hj hk hl ⊢
        have h1 := getIdx_le_dotOffset strides hs0 j i k l
        have h2 := hwf j i k l (by omega) (by omega) hk hl
        have h3 := getIdx_le_dotOffset strides hs0 i j k l
        have h4 := hwf i j k l hi hj hk hl
        exact ⟨by omega, by omega⟩)
  refine ⟨⟨⟨d0, d1, d2, d3⟩, strides, r⟩, ?_, rfl, rfl, hlen, ?_, ?_⟩
  · unfold transpose_inplace transpose_inplace_
    simp only []
    rw [inplace_loops_eq ⟨d0, d1, d2, d3⟩
      (fun i j k l => inplaceBody conj conjugate strides i j k l), hfold]
    rfl
  · intro p hp
    apply hframe p
    intro t _
    have h1 := getIdx_lt strides t.2.1 t.1 t.2.2.1 t.2.2.2
    have h2 := getIdx_lt strides t.1 t.2.1 t.2.2.1 t.2.2.2
    exact ⟨by omega, by omega⟩
  · intro hone h32 hinj
    have hex : ∀ i j k l, i < d0 → j < d1 → k < d2 → l < d3 →
        getIdx strides i j k l = dotOffset strides i j k l :=
      fun i j k l hi hj hk hl => getIdx_eq_dotOffset strides hone i j k l (h32 i j k l hi hj hk hl)
    have hne : ∀ t ∈ inplaceIdx ⟨d0, d1, d2, d3⟩,
        getIdx strides t.2.1 t.1 t.2.2.1 t.2.2.2 ≠ getIdx strides t.1 t.2.1 t.2.2.1 t.2.2.2 := by
      intro t ht h
      obtain ⟨i, j, k, l⟩ := t
      obtain ⟨⟨hji, hi⟩, hj, hk, hl⟩ := (mem_inplaceIdx _ _ _ _ _).mp ht
      dsimp only at hji hi hj hk hl h
      rw [hex j i k l (by omega) (by omega) hk hl, hex i j k l hi hj hk hl] at h
      have := hinj j i k l i j k l (by omega) (by omega) hk hl hi hj hk hl h
      omega
    have hpw : (inplaceIdx ⟨d0, d1, d2, d3⟩).Pairwise (fun t t2 =>
        getIdx strides t.2.1 t.1 t.2.2.1 t.2.2.2 ≠ getIdx strides t2.2.1 t2.1 t2.2.2.1 t2.2.2.2 ∧
        getIdx strides t.2.1 t.1 t.2.2.1 t.2.2.2 ≠ getIdx strides t2.1 t2.2.1 t2.2.2.1 t2.2.2.2 ∧
        getIdx strides t.1 t.2.1 t.2.2.1 t.2.2.2 ≠ getIdx strides t2.2.1 t2.1 t2.2.2.1 t2.2.2.2 ∧
        getIdx strides t.1 t.2.1 t.2.2.1 t.2.2.2 ≠ getIdx strides t2.1 t2.2.1 t2.2.2.1 t2.2.2.2) := by
      apply (inplaceIdx_nodup _).pairwise_of_forall_ne
      intro t ht t2 ht2 hdiff
      obtain ⟨i, j, k, l⟩ := t
      obtain ⟨i2, j2, k2, l2⟩ := t2
      obtain ⟨⟨hji, hi⟩, hj, hk, hl⟩ := (mem_inplaceIdx _ _ _ _ _).mp ht
      obtain ⟨⟨hji2, hi2⟩, hj2, hk2, hl2⟩ := (mem_inplaceIdx _ _ _ _ _).mp ht2
      dsimp only at hji hi hj hk hl hji2 hi2 hj2 hk2 hl2 ⊢
      rw [hex j i k l (by omega) (by omega) hk hl, hex i j k l hi hj hk hl,
        hex j2 i2 k2 l2 (by omega) (by omega) hk2 hl2, hex i2 j2 k2 l2 hi2 hj2 hk2 hl2]
      refine ⟨?_, ?_, ?_, ?_⟩
      · intro h
        obtain ⟨e1, e2, e3, e4⟩ := hinj j i k l j2 i2 k2 l2 (by omega) (by omega) hk hl
          (by omega) (by omega) hk2 hl2 h
        exact hdiff (by rw [e1, e2, e3, e4])
      · intro h
        obtain ⟨e1, e2, e3, e4⟩ := hinj j i k l i2 j2 k2 l2 (by omega) (by omega) hk hl
          hi2 hj2 hk2 hl2 h
        omega
      · intro h
        obtain ⟨e1, e2, e3, e4⟩ := hinj i j k l j2 i2 k2 l2 hi hj hk hl
          (by omega) (by omega) hk2 hl2 h
        omega
      · intro h
        obtain ⟨e1, e2, e3, e4⟩ := hinj i j k l i2 j2 k2 l2 hi hj hk hl
          hi2 hj2 hk2 hl2 h
        exact hdiff (by rw [e1, e2, e3, e4])
    have hv := hval hpw hne
    constructor
    · intro i j k l hi hj hk hl hij
      rw [elem_eq_dotOffset, elem_eq_dotOffset]
      dsimp only
      rcases Nat.lt_or_gt_of_ne hij with hlt | hgt
      · have hm : (j, i, k, l) ∈ inplaceIdx ⟨d0, d1, d2, d3⟩ :=
          (mem_inplaceIdx _ _ _ _ _).mpr ⟨⟨hlt, hj⟩, by dsimp only; omega, hk, hl⟩
        have h := (hv _ hm).1
        dsimp only at h
        rw [hex i j k l hi (by omega) hk hl, hex j i k l hj (by omega) hk hl] at h
        exact h
      · have hm : (i, j, k, l) ∈ inplaceIdx ⟨d0, d1, d2, d3⟩ :=
          (mem_inplaceIdx _ _ _ _ _).mpr ⟨⟨hgt, hi⟩, by dsimp only; omega, hk, hl⟩
        have h := (hv _ hm).2
        dsimp only at h
        rw [hex i j k l hi (by omega) hk hl, hex j i k l hj (by omega) hk hl] at h
        exact h
    · intro i j k l hi hj hk hl hcase
      rw [elem_eq_dotOffset, elem_eq_dotOffset]
      dsimp only
      apply hframe
      intro t ht
      obtain ⟨i2, j2, k2, l2⟩ := t
      obtain ⟨⟨hji2, hi2⟩, hj2, hk2, hl2⟩ := (mem_inplaceIdx _ _ _ _ _).mp ht
      dsimp only at hji2 hi2 hj2 hk2 hl2 ⊢
      rw [hex j2 i2 k2 l2 (by omega) (by omega) hk2 hl2, hex i2 j2 k2 l2 hi2 hj2 hk2 hl2]
      constructor
      · intro h
        obtain ⟨e1, e2, e3, e4⟩ := hinj j2 i2 k2 l2 i j k l (by omega) (by omega) hk2 hl2
          hi hj hk hl h
        omega
      · intro h
        obtain ⟨e1, e2, e3, e4⟩ := hinj i2 j2 k2 l2 i j k l hi2 hj2 hk2 hl2
          hi hj hk hl h
        omega

/-! ## Transposing twice -/

/-- Two successive calls of `transpose` on an array whose elements lie in its
buffer: both run to completion and the second result is packed with the shape
of the input; with unit stride, offsets below `2^32` and at most `2^32`
elements each element went through the element transform twice; for a packed
input an element whose offset is `2^32` or more is unwritten. -/
theorem transpose_twice {T : Type} (conj : T → T) (A : Array T) (conjugate : Bool)
    (g1 g2 : Nat → T) (hs0 : 1 ≤ A.strides.d0) (hwf : A.inBounds) :
    ∃ B, transpose conj A conjugate g1 = some B ∧
      ∃ C, transpose conj B conjugate g2 = some C ∧
        C.dims = A.dims ∧ C.packed ∧
        (A.strides.d0 = 1 → A.offsets32 → A.dims.elements ≤ 2 ^ 32 →
          ∀ i j k l, i < A.dims.d0 → j < A.dims.d1 → k < A.dims.d2 → l < A.dims.d3 →
          ∃ v, A.elem i j k l = some v ∧
            C.elem i j k l = some (applyConj conj conjugate (applyConj conj conjugate v))) ∧
        (∀ i j k l, i < A.dims.d0 → j < A.dims.d1 → k < A.dims.d2 → l < A.dims.d3 →
          2 ^ 32 ≤ packedOffset A.dims.d0 A.dims.d1 A.dims.d2 i j k l →
          C.elem i j k l = some (g2 (packedOffset A.dims.d0 A.dims.d1 A.dims.d2 i j k l))) := by
  obtain ⟨B, hB, hBd, hBp, -, hBv⟩ := transpose_run conj A conjugate g1 hs0 hwf
  obtain ⟨C, hC, hCd, hCp, -, hCv⟩ := transpose_packed conj B hBp conjugate g2
  have hCdims : C.dims = A.dims := by rw [hCd, hBd]
  have hBsz : B.dims.elements = A.dims.elements := by
    rw [hBd]; unfold dim4.elements; dsimp only; ring
  refine ⟨B, hB, C, hC, hCdims, hCp, ?_, ?_⟩
  · intro hone h32 hsz i j k l hi hj hk hl
    obtain ⟨v, hv1, hv2⟩ := hBv hone h32 hsz j i k l (by omega) (by omega) hk hl
    obtain ⟨w, hw1, hw2⟩ := hCv (by rw [hBsz]; exact hsz) i j k l
      (by rw [hBd]; exact hi) (by rw [hBd]; exact hj) (by rw [hBd]; exact hk)
      (by rw [hBd]; exact hl)
    rw [hv2] at hw1
    refine ⟨v, hv1, ?_⟩
    rw [hw2, ← Option.some.inj hw1]
  · intro i j k l hi hj hk hl hbig
    obtain ⟨C2, hC2, -, -, helem⟩ := transpose_unwritten conj B hBp conjugate g2 i j k l
      (by rw [hBd]; exact hi) (by rw [hBd]; exact hj) (by rw [hBd]; exact hk)
      (by rw [hBd]; exact hl) (by rw [hBd]; exact hbig)
    rw [hC] at hC2
    cases Option.some.inj hC2
    rw [helem, hBd]

theorem getConjugateC_involutive {R : Type} [InvolutiveNeg R] (v : Cplx R) :
    getConjugateC (getConjugateC v) = v := by
  cases v
  simp only [getConjugateC, neg_neg]

/-! ## C1: element mapping without conjugation -/

/-- Element mapping below the 32-bit limit: for a packed input of at most
`2^32` elements and every index tuple valid for the output,
`transpose(A, false)` runs to completion and its element `(i, j, k, l)` is the
element `(j, i, k, l)` of `A`. -/
theorem transpose_elem {T : Type} (conj : T → T) (A : Array T) (garbage : Nat → T)
    (i j k l : Nat) (hp : A.packed) (hsz : A.dims.elements ≤ 2 ^ 32)
    (hi : i < A.dims.d1) (hj : j < A.dims.d0) (hk : k < A.dims.d2) (hl : l < A.dims.d3) :
    ∃ out, transpose conj A false garbage = some out ∧
      ∃ v, A.elem j i k l = some v ∧ out.elem i j k l = some v := by
  obtain ⟨out, hrun, -, -, -, hval⟩ := transpose_packed conj A hp false garbage
  exact ⟨out, hrun, hval hsz i j k l hi hj hk hl⟩

/-- The 3×2 array `[[1,2],[3,4],[5,6]]` is transposed to the 2×3 array
`[[1,3,5],[2,4,6]]`, stored as `[1,2,3,4,5,6]`. -/
theorem transpose_elem_witness :
    rows32.packed ∧ rows32.dims.elements ≤ 2 ^ 32 ∧
    transpose getConjugate rows32 false (fun _ => 0)
      = some (mkPacked ⟨2, 3, 1, 1⟩ [1, 2, 3, 4, 5, 6]) ∧
    ∃ out, transpose getConjugate rows32 false (fun _ => 0) = some out ∧
      ∃ v, rows32.elem 2 1 0 0 = some v ∧ out.elem 1 2 0 0 = some v :=
  ⟨by decide, by decide, by decide,
    transpose_elem getConjugate rows32 (fun _ => 0) 1 2 0 0 (by decide) (by decide)
      (by decide) (by decide) (by decide) (by decide)⟩

/-- C1, the code at the failing input: `transpose(A, false)` on the packed
column `A` of `2^32 + 1` elements runs to completion.  The index
`(0, 2^32, 0, 0)` is valid for the output and the input element
`(2^32, 0, 0, 0)` is `2^32`, but the output element `(0, 2^32, 0, 0)` is the
content `0` that the fresh buffer held: `getIdx` returns the offset as a 32-bit
`unsigned`, so the kernel never stores to the cell at offset `2^32`. -/
theorem transpose_elem_huge_column :
    hugeColumn.packed ∧ 0 < hugeColumn.dims.d1 ∧ 2 ^ 32 < hugeColumn.dims.d0 ∧
    0 < hugeColumn.dims.d2 ∧ 0 < hugeColumn.dims.d3 ∧
    ∃ out, transpose getConjugate hugeColumn false (fun _ => 0) = some out ∧
      hugeColumn.elem (2 ^ 32) 0 0 0 = some (2 ^ 32) ∧
      out.elem 0 (2 ^ 32) 0 0 = some 0 ∧
      out.elem 0 (2 ^ 32) 0 0 ≠ hugeColumn.elem (2 ^ 32) 0 0 0 := by
  have hd1 : 0 < hugeColumn.dims.d1 := Nat.one_pos
  have hd0 : 2 ^ 32 < hugeColumn.dims.d0 := Nat.lt_succ_self _
  have hd2 : 0 < hugeColumn.dims.d2 := Nat.one_pos
  have hd3 : 0 < hugeColumn.dims.d3 := Nat.one_pos
  obtain ⟨out, hrun, -, -, helem⟩ :=
    transpose_unwritten getConjugate hugeColumn hugeColumn_packed false (fun _ => 0)
      0 (2 ^ 32) 0 0 hd1 hd0 hd2 hd3 (by
        show 2 ^ 32 ≤ packedOffset 1 (2 ^ 32 + 1) 1 0 (2 ^ 32) 0 0
        unfold packedOffset; omega)
  have hin := hugeColumn_elem
  refine ⟨hugeColumn_packed, hd1, hd0, hd2, hd3, out, hrun, hin, helem, ?_⟩
  rw [hin, helem]
  intro h
  have h2 : (0 : Nat) = 2 ^ 32 := Option.some.inj h
  omega

/-! ## C2: element mapping with conjugation -/

/-- C2, amended: for a complex input with unit stride on axis 0, all element
offsets below `2^32` and at most `2^32` elements, and for every index tuple
valid for the output, `transpose(A, true)` runs to completion and its element
`(i, j, k, l)` is the conjugate of the element `(j, i, k, l)` of `A`, on the
diagonal as well. -/
theorem transpose_conj_elem {R : Type} [Neg R] (A : Array (Cplx R)) (garbage : Nat → Cplx R)
    (i j k l : Nat) (hs0 : A.strides.d0 = 1) (hwf : A.inBounds) (h32 : A.offsets32)
    (hsz : A.dims.elements ≤ 2 ^ 32)
    (hi : i < A.dims.d1) (hj : j < A.dims.d0) (hk : k < A.dims.d2) (hl : l < A.dims.d3) :
    ∃ out, transpose getConjugateC A true garbage = some out ∧
      ∃ v, A.elem j i k l = some v ∧ out.elem i j k l = some (getConjugateC v) := by
  obtain ⟨out, hrun, -, -, -, hval⟩ :=
    transpose_run getConjugateC A true garbage (by rw [hs0]) hwf
  exact ⟨out, hrun, hval hs0 h32 hsz i j k l hi hj hk hl⟩

/-- C2, witness: `[[1+2i, 3+4i], [5+6i, 7+8i]]` is transposed with conjugation
to `[[1-2i, 5-6i], [3-4i, 7-8i]]`; the diagonal element `(1, 1)` is
conjugated. -/
theorem transpose_conj_elem_witness :
    cplx22.strides.d0 = 1 ∧ cplx22.inBounds ∧ cplx22.offsets32 ∧
    cplx22.dims.elements ≤ 2 ^ 32 ∧
    transpose getConjugateC cplx22 true (fun _ => ⟨0, 0⟩)
      = some (mkPacked ⟨2, 2, 1, 1⟩ [⟨1, -2⟩, ⟨3, -4⟩, ⟨5, -6⟩, ⟨7, -8⟩]) ∧
    ∃ out, transpose getConjugateC cplx22 true (fun _ => ⟨0, 0⟩) = some out ∧
      ∃ v, cplx22.elem 1 1 0 0 = some v ∧ out.elem 1 1 0 0 = some (getConjugateC v) :=
  ⟨rfl, packed_inBounds _ (by decide), packed_offsets32 _ (by decide) (by decide),
    by decide, by decide,
    transpose_conj_elem cplx22 (fun _ => ⟨0, 0⟩) 1 1 0 0 rfl
      (packed_inBounds _ (by decide)) (packed_offsets32 _ (by decide) (by decide))
      (by decide) (by decide) (by decide) (by decide) (by decide)⟩

/-- C2, counterexample.  First the packed complex column of `2^32 + 1`
elements: the index `(0, 2^32, 0, 0)` is valid for the output, the input
element `(2^32, 0, 0, 0)` is `2^32 + i`, and the output element is the
unwritten content `0` of the fresh buffer, not `2^32 - i`.  Second an array of
two elements with stride 2 on axis 0: the output element `(0, 1, 0, 0)` is the
conjugate of the cell between the two elements, not of the element
`(1, 0, 0, 0)`. -/
theorem transpose_conj_elem_counterexample :
    (hugeComplexColumn.packed ∧ 0 < hugeComplexColumn.dims.d1 ∧
      2 ^ 32 < hugeComplexColumn.dims.d0 ∧
      0 < hugeComplexColumn.dims.d2 ∧ 0 < hugeComplexColumn.dims.d3 ∧
      ∃ out, transpose getConjugateC hugeComplexColumn true (fun _ => ⟨0, 0⟩) = some out ∧
        hugeComplexColumn.elem (2 ^ 32) 0 0 0 = some ⟨2 ^ 32, 1⟩ ∧
        out.elem 0 (2 ^ 32) 0 0 = some ⟨0, 0⟩ ∧
        out.elem 0 (2 ^ 32) 0 0 ≠
          (hugeComplexColumn.elem (2 ^ 32) 0 0 0).map getConjugateC) ∧
    (stridedComplexPair.inBounds ∧
      ∃ out, transpose getConjugateC stridedComplexPair true (fun _ => ⟨0, 0⟩) = some out ∧
        stridedComplexPair.elem 1 0 0 0 = some ⟨3, 4⟩ ∧
        out.elem 0 1 0 0 = some ⟨9, -9⟩ ∧
        out.elem 0 1 0 0 ≠ (stridedComplexPair.elem 1 0 0 0).map getConjugateC) := by
  have hd1 : 0 < hugeComplexColumn.dims.d1 := Nat.one_pos
  have hd0 : 2 ^ 32 < hugeComplexColumn.dims.d0 := Nat.lt_succ_self _
  have hd2 : 0 < hugeComplexColumn.dims.d2 := Nat.one_pos
  have hd3 : 0 < hugeComplexColumn.dims.d3 := Nat.one_pos
  obtain ⟨out, hrun, -, -, helem⟩ :=
    transpose_unwritten getConjugateC hugeComplexColumn hugeComplexColumn_packed true
      (fun _ => ⟨0, 0⟩) 0 (2 ^ 32) 0 0 hd1 hd0 hd2 hd3 (by
        show 2 ^ 32 ≤ packedOffset 1 (2 ^ 32 + 1) 1 0 (2 ^ 32) 0 0
        unfold packedOffset; omega)
  refine ⟨⟨hugeComplexColumn_packed, hd1, hd0, hd2, hd3, out, hrun, hugeComplexColumn_elem,
    helem, ?_⟩, stridedComplexPair_inBounds, _, rfl, by decide, by decide, by decide⟩
  rw [hugeComplexColumn_elem, helem]
  intro h
  have h3 := congrArg Cplx.im (Option.some.inj h)
  simp only [getConjugateC] at h3
  omega

/-! ## C3: in-place against out-of-place -/

/-- C3, the code at the failing input: on the 2×2 complex array
`[[1+2i, 3+4i], [5+6i, 7+8i]]` with the flag set, `transpose_inplace` leaves
`[[1+2i, 5-6i], [3-4i, 7+8i]]` and `transpose` returns
`[[1-2i, 5-6i], [3-4i, 7-8i]]`: the diagonal elements differ. -/
theorem transpose_inplace_diagonal_not_conjugated :
    cplx22.dims.d0 = cplx22.dims.d1 ∧
    transpose_inplace getConjugateC cplx22 true
      = some (mkPacked ⟨2, 2, 1, 1⟩ [⟨1, 2⟩, ⟨3, -4⟩, ⟨5, -6⟩, ⟨7, 8⟩]) ∧
    transpose getConjugateC cplx22 true (fun _ => ⟨0, 0⟩)
      = some (mkPacked ⟨2, 2, 1, 1⟩ [⟨1, -2⟩, ⟨3, -4⟩, ⟨5, -6⟩, ⟨7, -8⟩]) ∧
    transpose_inplace getConjugateC cplx22 true
      ≠ transpose getConjugateC cplx22 true (fun _ => ⟨0, 0⟩) := by
  decide

/-! ## C4: round trip -/

/-- C4, amended: for every array `A` with unit stride on axis 0, all element
offsets below `2^32` and at most `2^32` elements,
`transpose(transpose(A, false), false)` runs to completion, has the shape of
`A` and is element-wise equal to `A`. -/
theorem transpose_roundtrip {T : Type} (conj : T → T) (A : Array T) (g1 g2 : Nat → T)
    (hs0 : A.strides.d0 = 1) (hwf : A.inBounds) (h32 : A.offsets32)
    (hsz : A.dims.elements ≤ 2 ^ 32) :
    ∃ B, transpose conj A false g1 = some B ∧
      ∃ C, transpose conj B false g2 = some C ∧
        C.dims = A.dims ∧
        ∀ i j k l, i < A.dims.d0 → j < A.dims.d1 → k < A.dims.d2 → l < A.dims.d3 →
          ∃ v, A.elem i j k l = some v ∧ C.elem i j k l = some v := by
  obtain ⟨B, hB, C, hC, hd, -, hv, -⟩ :=
    transpose_twice conj A false g1 g2 (by rw [hs0]) hwf
  exact ⟨B, hB, C, hC, hd, hv hs0 h32 hsz⟩

/-- C4, witness: the 3×2 array `[[1,2],[3,4],[5,6]]` transposed twice is
itself. -/
theorem transpose_roundtrip_witness :
    rows32.strides.d0 = 1 ∧ rows32.inBounds ∧ rows32.offsets32 ∧
    rows32.dims.elements ≤ 2 ^ 32 ∧
    (transpose getConjugate rows32 false (fun _ => 0)).bind
      (fun B => transpose getConjugate B false (fun _ => 0)) = some rows32 ∧
    ∃ B, transpose getConjugate rows32 false (fun _ => 0) = some B ∧
      ∃ C, transpose getConjugate B false (fun _ => 0) = some C ∧
        C.dims = rows32.dims ∧
        ∀ i j k l, i < rows32.dims.d0 → j < rows32.dims.d1 → k < rows32.dims.d2 →
          l < rows32.dims.d3 →
          ∃ v, rows32.elem i j k l = some v ∧ C.elem i j k l = some v :=
  ⟨rfl, packed_inBounds _ (by decide), packed_offsets32 _ (by decide) (by decide),
    by decide, by decide,
    transpose_roundtrip getConjugate rows32 (fun _ => 0) (fun _ => 0) rfl
      (packed_inBounds _ (by decide)) (packed_offsets32 _ (by decide) (by decide))
      (by decide)⟩

/-- C4, counterexample.  First the packed column of `2^32 + 1` elements
transposed twice: both calls run to completion, the index `(2^32, 0, 0, 0)` is
valid for the array, whose element there is `2^32`, and the element of the
result is the unwritten content `0` of the second fresh buffer.  Second the
array of two elements `10` and `20` with stride 2 on axis 0: the element
`(1, 0, 0, 0)` of the result is `99`, not `20`. -/
theorem transpose_roundtrip_counterexample :
    (hugeColumn.packed ∧ 2 ^ 32 < hugeColumn.dims.d0 ∧ 0 < hugeColumn.dims.d1 ∧
      0 < hugeColumn.dims.d2 ∧ 0 < hugeColumn.dims.d3 ∧
      ∃ B, transpose getConjugate hugeColumn false (fun _ => 0) = some B ∧
        ∃ C, transpose getConjugate B false (fun _ => 0) = some C ∧
          hugeColumn.elem (2 ^ 32) 0 0 0 = some (2 ^ 32) ∧
          C.elem (2 ^ 32) 0 0 0 = some 0 ∧
          C.elem (2 ^ 32) 0 0 0 ≠ hugeColumn.elem (2 ^ 32) 0 0 0) ∧
    (stridedPair.inBounds ∧
      ∃ B, transpose getConjugate stridedPair false (fun _ => 0) = some B ∧
        ∃ C, transpose getConjugate B false (fun _ => 0) = some C ∧
          stridedPair.elem 1 0 0 0 = some 20 ∧
          C.elem 1 0 0 0 = some 99 ∧
          C.elem 1 0 0 0 ≠ stridedPair.elem 1 0 0 0) := by
  have hd1 : 0 < hugeColumn.dims.d1 := Nat.one_pos
  have hd0 : 2 ^ 32 < hugeColumn.dims.d0 := Nat.lt_succ_self _
  have hd2 : 0 < hugeColumn.dims.d2 := Nat.one_pos
  have hd3 : 0 < hugeColumn.dims.d3 := Nat.one_pos
  obtain ⟨B, hB, C, hC, -, -, -, hhigh⟩ :=
    transpose_twice getConjugate hugeColumn false (fun _ => 0) (fun _ => 0)
      (by rw [packed_stride0 _ hugeColumn_packed]) (packed_inBounds _ hugeColumn_packed)
  have hout : C.elem (2 ^ 32) 0 0 0 = some 0 :=
    hhigh (2 ^ 32) 0 0 0 hd0 hd1 hd2 hd3 (by
      show 2 ^ 32 ≤ packedOffset (2 ^ 32 + 1) 1 1 (2 ^ 32) 0 0 0
      unfold packedOffset; omega)
  refine ⟨⟨hugeColumn_packed, hd0, hd1, hd2, hd3, B, hB, C, hC, hugeColumn_elem, hout, ?_⟩,
    stridedPair_inBounds, _, rfl, _, rfl, by decide, by decide, by decide⟩
  rw [hugeColumn_elem, hout]
  intro h
  have h2 : (0 : Nat) = 2 ^ 32 := Option.some.inj h
  omega

/-! ## C5: round trip with conjugation -/

/-- C5, amended: for every complex array `A` with unit stride on axis 0, all
element offsets below `2^32` and at most `2^32` elements,
`transpose(transpose(A, true), true)` runs to completion, has the shape of `A`
and is element-wise equal to `A`: the two conjugations cancel. -/
theorem transpose_conj_roundtrip {R : Type} [InvolutiveNeg R] (A : Array (Cplx R))
    (g1 g2 : Nat → Cplx R) (hs0 : A.strides.d0 = 1) (hwf : A.inBounds) (h32 : A.offsets32)
    (hsz : A.dims.elements ≤ 2 ^ 32) :
    ∃ B, transpose getConjugateC A true g1 = some B ∧
      ∃ C, transpose getConjugateC B true g2 = some C ∧
        C.dims = A.dims ∧
        ∀ i j k l, i < A.dims.d0 → j < A.dims.d1 → k < A.dims.d2 → l < A.dims.d3 →
          ∃ v, A.elem i j k l = some v ∧ C.elem i j k l = some v := by
  obtain ⟨B, hB, C, hC, hd, -, hv, -⟩ :=
    transpose_twice getConjugateC A true g1 g2 (by rw [hs0]) hwf
  refine ⟨B, hB, C, hC, hd, ?_⟩
  intro i j k l hi hj hk hl
  obtain ⟨v, hv1, hv2⟩ := hv hs0 h32 hsz i j k l hi hj hk hl
  refine ⟨v, hv1, ?_⟩
  rw [hv2]
  exact congrArg some (getConjugateC_involutive v)

/-- C5, witness: `[[1+2i, 3+4i], [5+6i, 7+8i]]` transposed twice with
conjugation is itself. -/
theorem transpose_conj_roundtrip_witness :
    cplx22.strides.d0 = 1 ∧ cplx22.inBounds ∧ cplx22.offsets32 ∧
    cplx22.dims.elements ≤ 2 ^ 32 ∧
    (transpose getConjugateC cplx22 true (fun _ => ⟨0, 0⟩)).bind
      (fun B => transpose getConjugateC B true (fun _ => ⟨0, 0⟩)) = some cplx22 ∧
    ∃ B, transpose getConjugateC cplx22 true (fun _ => ⟨0, 0⟩) = some B ∧
      ∃ C, transpose getConjugateC B true (fun _ => ⟨0, 0⟩) = some C ∧
        C.dims = cplx22.dims ∧
        ∀ i j k l, i < cplx22.dims.d0 → j < cplx22.dims.d1 → k < cplx22.dims.d2 →
          l < cplx22.dims.d3 →
          ∃ v, cplx22.elem i j k l = some v ∧ C.elem i j k l = some v :=
  ⟨rfl, packed_inBounds _ (by decide), packed_offsets32 _ (by decide) (by decide),
    by decide, by decide,
    transpose_conj_roundtrip cplx22 (fun _ => ⟨0, 0⟩) (fun _ => ⟨0, 0⟩) rfl
      (packed_inBounds _ (by decide)) (packed_offsets32 _ (by decide) (by decide))
      (by decide)⟩

/-- C5, counterexample.  First the packed complex column of `2^32 + 1`
elements transposed twice with conjugation: both calls run to completion, the
element `(2^32, 0, 0, 0)` of the array is `2^32 + i`, and that element of the
result is the unwritten content `0` of the second fresh buffer.  Second the
array of two complex elements with stride 2 on axis 0: the element
`(1, 0, 0, 0)` of the result is `9+9i`, not `3+4i`. -/
theorem transpose_conj_roundtrip_counterexample :
    (hugeComplexColumn.packed ∧ 2 ^ 32 < hugeComplexColumn.dims.d0 ∧
      0 < hugeComplexColumn.dims.d1 ∧
      0 < hugeComplexColumn.dims.d2 ∧ 0 < hugeComplexColumn.dims.d3 ∧
      ∃ B, transpose getConjugateC hugeComplexColumn true (fun _ => ⟨0, 0⟩) = some B ∧
        ∃ C, transpose getConjugateC B true (fun _ => ⟨0, 0⟩) = some C ∧
          hugeComplexColumn.elem (2 ^ 32) 0 0 0 = some ⟨2 ^ 32, 1⟩ ∧
          C.elem (2 ^ 32) 0 0 0 = some ⟨0, 0⟩ ∧
          C.elem (2 ^ 32) 0 0 0 ≠ hugeComplexColumn.elem (2 ^ 32) 0 0 0) ∧
    (stridedComplexPair.inBounds ∧
      ∃ B, transpose getConjugateC stridedComplexPair true (fun _ => ⟨0, 0⟩) = some B ∧
        ∃ C, transpose getConjugateC B true (fun _ => ⟨0, 0⟩) = some C ∧
          stridedComplexPair.elem 1 0 0 0 = some ⟨3, 4⟩ ∧
          C.elem 1 0 0 0 = some ⟨9, 9⟩ ∧
          C.elem 1 0 0 0 ≠ stridedComplexPair.elem 1 0 0 0) := by
  have hd1 : 0 < hugeComplexColumn.dims.d1 := Nat.one_pos
  have hd0 : 2 ^ 32 < hugeComplexColumn.dims.d0 := Nat.lt_succ_self _
  have hd2 : 0 < hugeComplexColumn.dims.d2 := Nat.one_pos
  have hd3 : 0 < hugeComplexColumn.dims.d3 := Nat.one_pos
  obtain ⟨B, hB, C, hC, -, -, -, hhigh⟩ :=
    transpose_twice getConjugateC hugeComplexColumn true (fun _ => ⟨0, 0⟩) (fun _ => ⟨0, 0⟩)
      (by rw [packed_stride0 _ hugeComplexColumn_packed])
      (packed_inBounds _ hugeComplexColumn_packed)
  have hout : C.elem (2 ^ 32) 0 0 0 = some ⟨0, 0⟩ :=
    hhigh (2 ^ 32) 0 0 0 hd0 hd1 hd2 hd3 (by
      show 2 ^ 32 ≤ packedOffset (2 ^ 32 + 1) 1 1 (2 ^ 32) 0 0 0
      unfold packedOffset; omega)
  refine ⟨⟨hugeComplexColumn_packed, hd0, hd1, hd2, hd3, B, hB, C, hC,
    hugeComplexColumn_elem, hout, ?_⟩,
    stridedComplexPair_inBounds, _, rfl, _, rfl, by decide, by decide, by decide⟩
  rw [hugeComplexColumn_elem, hout]
  intro h
  have h3 := congrArg Cplx.im (Option.some.inj h)
  simp only at h3
  omega

/-! ## C6: shape of the result -/

/-- C6: `transpose` returns an array for every input whose elements lie in its
buffer (stride at least 1 on axis 0), with either value of the flag, and an
array it returns has shape `(d1, d0, d2, d3)`. -/
theorem transpose_shape {T : Type} (conj : T → T) (A : Array T) (conjugate : Bool)
    (garbage : Nat → T) :
    (1 ≤ A.strides.d0 → A.inBounds → ∃ out, transpose conj A conjugate garbage = some out) ∧
    (∀ out, transpose conj A conjugate garbage = some out →
      out.dims = ⟨A.dims.d1, A.dims.d0, A.dims.d2, A.dims.d3⟩) := by
  constructor
  · intro hs0 hwf
    obtain ⟨out, hrun, -⟩ := transpose_run conj A conjugate garbage hs0 hwf
    exact ⟨out, hrun⟩
  · intro out hrun
    unfold transpose transpose_ at hrun
    simp only [Option.map_eq_some'] at hrun
    obtain ⟨d, -, hd⟩ := hrun
    rw [← hd]
    rfl

/-- C6, witness: the 3×2 array is transposed with the flag set to an array of
shape `(2, 3, 1, 1)`. -/
theorem transpose_shape_witness :
    ∃ out, transpose getConjugate rows32 true (fun _ => 0) = some out ∧
      out.dims = ⟨2, 3, 1, 1⟩ :=
  have h := transpose_shape getConjugate rows32 true (fun _ => 0)
  Exists.elim (h.1 (by decide) (packed_inBounds _ (by decide)))
    (fun out ho => ⟨out, ho, h.2 out ho⟩)

/-! ## C7: the element mapping and its index ranges -/

/-- C7, amended: for an input with unit stride on axis 0, all element offsets
below `2^32` and at most `2^32` elements, `transpose` runs to completion and
`output[i,j,k,l] = f(input[j,i,k,l])` for all `i` in `[0,d1)`, `j` in
`[0,d0)`, `k` in `[0,d2)`, `l` in `[0,d3)`: `f` is the identity for the
non-complex types, and for the complex types conjugation when the flag is set
and the identity otherwise. -/
theorem transpose_mapping (conjugate : Bool) (i j k l : Nat) :
    (∀ (T : Type) (A : Array T) (garbage : Nat → T), A.strides.d0 = 1 → A.inBounds →
      A.offsets32 → A.dims.elements ≤ 2 ^ 32 →
      i < A.dims.d1 → j < A.dims.d0 → k < A.dims.d2 → l < A.dims.d3 →
      ∃ out, transpose getConjugate A conjugate garbage = some out ∧
        ∃ v, A.elem j i k l = some v ∧ out.elem i j k l = some v) ∧
    (∀ (R : Type) [Neg R] (A : Array (Cplx R)) (garbage : Nat → Cplx R),
      A.strides.d0 = 1 → A.inBounds → A.offsets32 → A.dims.elements ≤ 2 ^ 32 →
      i < A.dims.d1 → j < A.dims.d0 → k < A.dims.d2 → l < A.dims.d3 →
      ∃ out, transpose getConjugateC A conjugate garbage = some out ∧
        ∃ v, A.elem j i k l = some v ∧
          out.elem i j k l = some (if conjugate then getConjugateC v else v)) := by
  constructor
  · intro T A garbage hs0 hwf h32 hsz hi hj hk hl
    obtain ⟨out, hrun, -, -, -, hval⟩ :=
      transpose_run getConjugate A conjugate garbage (by rw [hs0]) hwf
    obtain ⟨v, hv1, hv2⟩ := hval hs0 h32 hsz i j k l hi hj hk hl
    refine ⟨out, hrun, v, hv1, ?_⟩
    rw [hv2]
    cases conjugate <;> rfl
  · intro R _ A garbage hs0 hwf h32 hsz hi hj hk hl
    obtain ⟨out, hrun, -, -, -, hval⟩ :=
      transpose_run getConjugateC A conjugate garbage (by rw [hs0]) hwf
    exact ⟨out, hrun, hval hs0 h32 hsz i j k l hi hj hk hl⟩

/-- C7, witness: on the 3×2 array the output element `(1, 2, 0, 0)` is the
input element `(2, 1, 0, 0)`, and on the 2×2 complex array with the flag set
the output element `(0, 1, 0, 0)` is the conjugate of the input element
`(1, 0, 0, 0)`. -/
theorem transpose_mapping_witness :
    (∃ out, transpose getConjugate rows32 true (fun _ => 0) = some out ∧
      ∃ v, rows32.elem 2 1 0 0 = some v ∧ out.elem 1 2 0 0 = some v) ∧
    (∃ out, transpose getConjugateC cplx22 true (fun _ => ⟨0, 0⟩) = some out ∧
      ∃ v, cplx22.elem 1 0 0 0 = some v ∧
        out.elem 0 1 0 0 = some (if true then getConjugateC v else v)) :=
  ⟨(transpose_mapping true 1 2 0 0).1 Int rows32 (fun _ => 0) rfl
      (packed_inBounds _ (by decide)) (packed_offsets32 _ (by decide) (by decide))
      (by decide) (by decide) (by decide) (by decide) (by decide),
    (transpose_mapping true 0 1 0 0).2 Int cplx22 (fun _ => ⟨0, 0⟩) rfl
      (packed_inBounds _ (by decide)) (packed_offsets32 _ (by decide) (by decide))
      (by decide) (by decide) (by decide) (by decide) (by decide)⟩

/-- C7, counterexample.  First the 3×2 array with `i = 2 < d0` and
`j = 0 < d1`: the cell the output holds for `(2, 0, 0, 0)` is `3` and the input
has no element `(0, 2, 0, 0)`.  Second the packed square array of
`65537 × 65537` elements with `i = 65535`, `j = 65536`: the output element is
the unwritten content `0` of the fresh buffer and the input element
`(65536, 65535, 0, 0)` is `2^32 + 65535`.  Third the array of two elements
with stride 2 on axis 0 and the index `(0, 1, 0, 0)` of the output: the output
element is `99`, the input element `(1, 0, 0, 0)` is `20`. -/
theorem transpose_mapping_counterexample :
    (2 < rows32.dims.d0 ∧ 0 < rows32.dims.d1 ∧ 0 < rows32.dims.d2 ∧ 0 < rows32.dims.d3 ∧
      ∃ out, transpose getConjugate rows32 false (fun _ => 0) = some out ∧
        out.elem 2 0 0 0 = some 3 ∧ rows32.elem 0 2 0 0 = none) ∧
    (hugeSquare.packed ∧ 65535 < hugeSquare.dims.d0 ∧ 65536 < hugeSquare.dims.d1 ∧
      0 < hugeSquare.dims.d2 ∧ 0 < hugeSquare.dims.d3 ∧
      ∃ out, transpose getConjugate hugeSquare false (fun _ => 0) = some out ∧
        out.elem 65535 65536 0 0 = some 0 ∧
        hugeSquare.elem 65536 65535 0 0 = some (2 ^ 32 + 65535)) ∧
    (stridedPair.inBounds ∧
      ∃ out, transpose getConjugate stridedPair false (fun _ => 0) = some out ∧
        out.elem 0 1 0 0 = some 99 ∧ stridedPair.elem 1 0 0 0 = some 20) := by
  have hd0 : 65535 < hugeSquare.dims.d0 := by decide
  have hd1 : 65536 < hugeSquare.dims.d1 := by decide
  have hd2 : 0 < hugeSquare.dims.d2 := Nat.one_pos
  have hd3 : 0 < hugeSquare.dims.d3 := Nat.one_pos
  obtain ⟨out, hrun, -, -, helem⟩ :=
    transpose_unwritten getConjugate hugeSquare hugeSquare_packed false (fun _ => 0)
      65535 65536 0 0 (by decide) (by decide) hd2 hd3 (by
        show 2 ^ 32 ≤ packedOffset 65537 65537 1 65535 65536 0 0
        unfold packedOffset; omega)
  exact ⟨⟨by decide, by decide, by decide, by decide, _, rfl, by decide, by decide⟩,
    ⟨hugeSquare_packed, hd0, hd1, hd2, hd3, out, hrun, helem, hugeSquare_elem⟩,
    stridedPair_inBounds, _, rfl, by decide, by decide⟩

/-! ## C8: the offset helper -/

/-- C8, amended: for every stride vector and every index tuple, `getIdx`
returns `i + j*s1 + k*s2 + l*s3` reduced modulo `2^32`: the stride of axis 0 is
taken to be 1.  It is the dot product of index and strides whenever `s0 = 1`
and the dot product is below `2^32`. -/
theorem getIdx_offset (s : dim4) (i j k l : Nat) :
    getIdx s i j k l = (i + j * s.d1 + k * s.d2 + l * s.d3) % 2 ^ 32 ∧
    (s.d0 = 1 → i * s.d0 + j * s.d1 + k * s.d2 + l * s.d3 < 2 ^ 32 →
      getIdx s i j k l = i * s.d0 + j * s.d1 + k * s.d2 + l * s.d3) :=
  ⟨getIdx_eq s i j k l, fun h0 hlt => getIdx_eq_dotOffset s h0 i j k l hlt⟩

/-- C8, witness: with the strides `(1, 3, 6, 6)` of the packed 3×2 array the
offset of `(2, 1, 0, 0)` is the dot product `5`. -/
theorem getIdx_offset_witness :
    (⟨1, 3, 6, 6⟩ : dim4).d0 = 1 ∧
    2 * (⟨1, 3, 6, 6⟩ : dim4).d0 + 1 * (⟨1, 3, 6, 6⟩ : dim4).d1
      + 0 * (⟨1, 3, 6, 6⟩ : dim4).d2 + 0 * (⟨1, 3, 6, 6⟩ : dim4).d3 < 2 ^ 32 ∧
    getIdx ⟨1, 3, 6, 6⟩ 2 1 0 0 = 5 :=
  ⟨rfl, by decide, (getIdx_offset ⟨1, 3, 6, 6⟩ 2 1 0 0).2 rfl (by decide)⟩

/-- C8, counterexample: with the strides `(2, 4, 8, 8)` the offset computed
for `(1, 0, 0, 0)` is `1` and the dot product is `2`; with the strides
`(1, 2^32, 2^32, 2^32)` the offset computed for `(0, 1, 0, 0)` is `0` and the
dot product is `2^32`. -/
theorem getIdx_offset_counterexample :
    (getIdx ⟨2, 4, 8, 8⟩ 1 0 0 0 = 1 ∧ dotOffset ⟨2, 4, 8, 8⟩ 1 0 0 0 = 2) ∧
    (getIdx ⟨1, 2 ^ 32, 2 ^ 32, 2 ^ 32⟩ 0 1 0 0 = 0 ∧
      dotOffset ⟨1, 2 ^ 32, 2 ^ 32, 2 ^ 32⟩ 0 1 0 0 = 2 ^ 32) := by
  decide

/-! ## C9: in-place on a non-square array -/

/-- C9, amended: `transpose_inplace` does not compare `d0` with `d1` and
reports nothing.  On an array with `d0 < d1`, unit stride on axis 0 and
pairwise distinct offsets below `2^32`, it runs to completion and mutates the
buffer: inside the leading `d0 × d0` block every element `(i, j)` with `i ≠ j`
becomes the image of the original element `(j, i)`, and all other elements
are unchanged. -/
theorem transpose_inplace_unchecked {T : Type} (conj : T → T) (A : Array T) (conjugate : Bool)
    (hlt : A.dims.d0 < A.dims.d1) (hs0 : A.strides.d0 = 1) (hwf : A.inBounds)
    (h32 : A.offsets32) (hinj : A.distinctOffsets) :
    ∃ out, transpose_inplace conj A conjugate = some out ∧ out.dims = A.dims ∧
      (∀ i j k l, i < A.dims.d0 → j < A.dims.d0 → k < A.dims.d2 → l < A.dims.d3 → i ≠ j →
        ∃ v, A.elem j i k l = some v ∧
          out.elem i j k l = some (applyConj conj conjugate v)) ∧
      (∀ i j k l, i < A.dims.d0 → j < A.dims.d1 → k < A.dims.d2 → l < A.dims.d3 →
        (i = j ∨ A.dims.d0 ≤ j) → out.elem i j k l = A.elem i j k l) := by
  obtain ⟨out, hrun, hd, -, -, -, hval⟩ :=
    transpose_inplace_run conj A conjugate (by rw [hs0]) hwf (Nat.le_of_lt hlt)
  obtain ⟨hoff, hrest⟩ := hval hs0 h32 hinj
  refine ⟨out, hrun, hd, ?_, hrest⟩
  intro i j k l hi hj hk hl hij
  have hb := hwf j i k l hj (by omega) hk hl
  refine ⟨A.data.get ⟨_, hb⟩, List.getElem?_eq_getElem hb, ?_⟩
  rw [hoff i j k l hi hj hk hl hij, elem_eq_dotOffset, List.getElem?_eq_getElem hb]
  rfl

/-- C9, witness: on the packed 2×3 array with buffer `[1, 2, 3, 4, 5, 6]` the
call returns the buffer `[1, 3, 2, 4, 5, 6]`. -/
theorem transpose_inplace_unchecked_witness :
    transpose_inplace getConjugate wide23 false
      = some (mkPacked ⟨2, 3, 1, 1⟩ [1, 3, 2, 4, 5, 6]) ∧
    ∃ out, transpose_inplace getConjugate wide23 false = some out ∧ out.dims = wide23.dims ∧
      (∀ i j k l, i < wide23.dims.d0 → j < wide23.dims.d0 → k < wide23.dims.d2 →
        l < wide23.dims.d3 → i ≠ j →
        ∃ v, wide23.elem j i k l = some v ∧
          out.elem i j k l = some (applyConj getConjugate false v)) ∧
      (∀ i j k l, i < wide23.dims.d0 → j < wide23.dims.d1 → k < wide23.dims.d2 →
        l < wide23.dims.d3 →
        (i = j ∨ wide23.dims.d0 ≤ j) → out.elem i j k l = wide23.elem i j k l) :=
  ⟨by decide,
    transpose_inplace_unchecked getConjugate wide23 false (by decide) rfl
      (packed_inBounds _ (by decide)) (packed_offsets32 _ (by decide) (by decide))
      (packed_distinctOffsets _ (by decide))⟩

/-- C9, counterexample: on the packed 2×3 array, whose leading extents
differ, `transpose_inplace` returns normally and the buffer it leaves,
`[1, 3, 2, 4, 5, 6]`, is not the original one. -/
theorem transpose_inplace_unchecked_counterexample :
    wide23.dims.d0 ≠ wide23.dims.d1 ∧
    ∃ out, transpose_inplace getConjugate wide23 false = some out ∧
      out.data = [1, 3, 2, 4, 5, 6] ∧ out.data ≠ wide23.data :=
  ⟨by decide, _, rfl, by decide, by decide⟩

/-! ## C10: off-diagonal elements of the in-place transpose -/

/-- C10, amended: for every square array (`d0 == d1`) with unit stride on
axis 0 and pairwise distinct element offsets below `2^32`, `transpose_inplace`
with flag `c` runs to completion, and every off-diagonal position satisfies
`result[i,j,k,l] = f_c(original[j,i,k,l])` for all `i ≠ j`, `k < d2`,
`l < d3`: `f_c` is the identity for the non-complex types, and for the complex
types conjugation when `c` is set and the identity otherwise. -/
theorem transpose_inplace_offdiag (conjugate : Bool) (i j k l : Nat) :
    (∀ (T : Type) (A : Array T), A.dims.d0 = A.dims.d1 → A.strides.d0 = 1 → A.inBounds →
      A.offsets32 → A.distinctOffsets →
      i < A.dims.d0 → j < A.dims.d1 → k < A.dims.d2 → l < A.dims.d3 → i ≠ j →
      ∃ out, transpose_inplace getConjugate A conjugate = some out ∧
        ∃ v, A.elem j i k l = some v ∧ out.elem i j k l = some v) ∧
    (∀ (R : Type) [Neg R] (A : Array (Cplx R)), A.dims.d0 = A.dims.d1 → A.strides.d0 = 1 →
      A.inBounds → A.offsets32 → A.distinctOffsets →
      i < A.dims.d0 → j < A.dims.d1 → k < A.dims.d2 → l < A.dims.d3 → i ≠ j →
      ∃ out, transpose_inplace getConjugateC A conjugate = some out ∧
        ∃ v, A.elem j i k l = some v ∧
          out.elem i j k l = some (if conjugate then getConjugateC v else v)) := by
  constructor
  · intro T A hsq hs0 hwf h32 hinj hi hj hk hl hij
    obtain ⟨out, hrun, -, -, -, -, hval⟩ :=
      transpose_inplace_run getConjugate A conjugate (by rw [hs0]) hwf (Nat.le_of_eq hsq)
    obtain ⟨hoff, -⟩ := hval hs0 h32 hinj
    have hb := hwf j i k l (by omega) (by omega) hk hl
    refine ⟨out, hrun, A.data.get ⟨_, hb⟩, List.getElem?_eq_getElem hb, ?_⟩
    rw [hoff i j k l hi (by omega) hk hl hij, elem_eq_dotOffset, List.getElem?_eq_getElem hb]
    cases conjugate <;> rfl
  · intro R _ A hsq hs0 hwf h32 hinj hi hj hk hl hij
    obtain ⟨out, hrun, -, -, -, -, hval⟩ :=
      transpose_inplace_run getConjugateC A conjugate (by rw [hs0]) hwf (Nat.le_of_eq hsq)
    obtain ⟨hoff, -⟩ := hval hs0 h32 hinj
    have hb := hwf j i k l (by omega) (by omega) hk hl
    refine ⟨out, hrun, A.data.get ⟨_, hb⟩, List.getElem?_eq_getElem hb, ?_⟩
    rw [hoff i j k l hi (by omega) hk hl hij, elem_eq_dotOffset, List.getElem?_eq_getElem hb]
    rfl

/-- C10, witness: on the 2×2 complex array with the flag set, the elements
`(1, 0)` and `(0, 1)` are exchanged and both conjugated. -/
theorem transpose_inplace_offdiag_witness :
    (∃ out, transpose_inplace getConjugateC cplx22 true = some out ∧
      ∃ v, cplx22.elem 0 1 0 0 = some v ∧
        out.elem 1 0 0 0 = some (if true then getConjugateC v else v)) ∧
    (∃ out, transpose_inplace getConjugateC cplx22 true = some out ∧
      ∃ v, cplx22.elem 1 0 0 0 = some v ∧
        out.elem 0 1 0 0 = some (if true then getConjugateC v else v)) ∧
    transpose_inplace getConjugateC cplx22 true
      = some (mkPacked ⟨2, 2, 1, 1⟩ [⟨1, 2⟩, ⟨3, -4⟩, ⟨5, -6⟩, ⟨7, 8⟩]) :=
  ⟨(transpose_inplace_offdiag true 1 0 0 0).2 Int cplx22 rfl rfl
      (packed_inBounds _ (by decide)) (packed_offsets32 _ (by decide) (by decide))
      (packed_distinctOffsets _ (by decide))
      (by decide) (by decide) (by decide) (by decide) (by decide),
    (transpose_inplace_offdiag true 0 1 0 0).2 Int cplx22 rfl rfl
      (packed_inBounds _ (by decide)) (packed_offsets32 _ (by decide) (by decide))
      (packed_distinctOffsets _ (by decide))
      (by decide) (by decide) (by decide) (by decide) (by decide),
    by decide⟩

/-- C10, counterexample.  First the packed square array of `65537 × 65537`
elements, whose offsets are pairwise distinct: the call runs to completion and
the element `(65535, 65536, 0, 0)`, at offset `2^32 + 131071`, is untouched,
while the original element `(65536, 65535, 0, 0)` is `2^32 + 65535`.  Second
the 2×2 array with stride 2 on axis 0, whose offsets are pairwise distinct:
the element `(1, 0, 0, 0)` of the result is `2` and the original element
`(0, 1, 0, 0)` is `3`. -/
theorem transpose_inplace_offdiag_counterexample :
    (hugeSquare.dims.d0 = hugeSquare.dims.d1 ∧ hugeSquare.distinctOffsets ∧
      ∃ out, transpose_inplace getConjugate hugeSquare false = some out ∧
        out.elem 65535 65536 0 0 = some (2 ^ 32 + 131071) ∧
        hugeSquare.elem 65536 65535 0 0 = some (2 ^ 32 + 65535)) ∧
    (stridedSquare.dims.d0 = stridedSquare.dims.d1 ∧ stridedSquare.distinctOffsets ∧
      ∃ out, transpose_inplace getConjugate stridedSquare false = some out ∧
        out.elem 1 0 0 0 = some 2 ∧ stridedSquare.elem 0 1 0 0 = some 3) := by
  obtain ⟨out, hrun, hd, hs, -, hhigh, -⟩ :=
    transpose_inplace_run getConjugate hugeSquare false
      (by rw [packed_stride0 _ hugeSquare_packed]) (packed_inBounds _ hugeSquare_packed)
      (Nat.le_refl _)
  refine ⟨⟨rfl, packed_distinctOffsets _ hugeSquare_packed, out, hrun, ?_, hugeSquare_elem⟩,
    rfl, stridedSquare_distinctOffsets, _, rfl, by decide, by decide⟩
  have h1 := hugeSquare_elem_upper
  rw [elem_eq_dotOffset] at h1 ⊢
  rw [hs]
  have hoff : dotOffset hugeSquare.strides 65535 65536 0 0 = 2 ^ 32 + 131071 := by
    show dotOffset ⟨1, 65537, 65537 * 65537, 65537 * 65537 * 1⟩ 65535 65536 0 0 = _
    unfold dotOffset; dsimp only; omega
  rw [hoff] at h1 ⊢
  rw [hhigh _ (by omega)]
  exact h1

/-! ## Single steps inside a fold of exchanges -/

theorem transpose_inplace_eq_fold {T : Type} (conj : T → T) (A : Array T) (conjugate : Bool) :
    transpose_inplace conj A conjugate =
      ((inplaceIdx A.dims).foldlM
        (fun buf t => inplaceBody conj conjugate A.strides t.1 t.2.1 t.2.2.1 t.2.2.2 buf)
        A.data).map (fun d => { A with data := d }) := by
  unfold transpose_inplace transpose_inplace_
  simp only []
  rw [inplace_loops_eq A.dims (fun i j k l => inplaceBody conj conjugate A.strides i j k l)]

theorem nodup_split_one {ι : Type} (ts : List ι) (x : ι) (hnd : ts.Nodup) (hx : x ∈ ts) :
    ∃ L0 L1, ts = L0 ++ x :: L1 ∧ x ∉ L0 ∧ x ∉ L1 := by
  obtain ⟨L0, L1, rfl⟩ := List.append_of_mem hx
  refine ⟨L0, L1, rfl, ?_, ?_⟩
  · intro h
    have hd := (List.nodup_append.mp hnd).2.2
    exact hd h (List.mem_cons_self _ _)
  · have h2 := (List.nodup_append.mp hnd).2.1
    exact (List.nodup_cons.mp h2).1

theorem nodup_split_two {ι : Type} (ts : List ι) (x y : ι) (hnd : ts.Nodup) (hx : x ∈ ts)
    (hy : y ∈ ts) (hxy : x ≠ y) :
    (∃ L0 L1 L2, ts = L0 ++ x :: (L1 ++ y :: L2) ∧ x ∉ L0 ∧ x ∉ L1 ∧ x ∉ L2 ∧
      y ∉ L0 ∧ y ∉ L1 ∧ y ∉ L2) ∨
    (∃ L0 L1 L2, ts = L0 ++ y :: (L1 ++ x :: L2) ∧ x ∉ L0 ∧ x ∉ L1 ∧ x ∉ L2 ∧
      y ∉ L0 ∧ y ∉ L1 ∧ y ∉ L2) := by
  obtain ⟨L0, R, rfl, hx0, hxR⟩ := nodup_split_one ts x hnd hx
  have hndL : L0.Nodup := (List.nodup_append.mp hnd).1
  have hndR : R.Nodup := (List.nodup_cons.mp (List.nodup_append.mp hnd).2.1).2
  rcases List.mem_append.mp hy with hy0 | hyR
  · obtain ⟨M0, M1, rfl, hy1, hy2⟩ := nodup_split_one L0 y hndL hy0
    right
    refine ⟨M0, M1, R, by simp only [List.append_assoc, List.cons_append], ?_, ?_, hxR, hy1,
      hy2, ?_⟩
    · intro h; exact hx0 (List.mem_append_left _ h)
    · intro h; exact hx0 (List.mem_append_right _ (List.mem_cons_of_mem _ h))
    · intro h
      have hd := (List.nodup_append.mp hnd).2.2
      exact hd (List.mem_append_right _ (List.mem_cons_self _ _)) (List.mem_cons_of_mem _ h)
  · rcases List.mem_cons.mp hyR with e | hyR2
    · exact absurd e.symm hxy
    · obtain ⟨M0, M1, rfl, hy1, hy2⟩ := nodup_split_one R y hndR hyR2
      left
      refine ⟨L0, M0, M1, rfl, hx0, ?_, ?_, ?_, hy1, hy2⟩
      · intro h; exact hxR (List.mem_append_left _ h)
      · intro h; exact hxR (List.mem_append_right _ (List.mem_cons_of_mem _ h))
      · intro h
        have hd := (List.nodup_append.mp hnd).2.2
        exact hd h (List.mem_cons_of_mem _ (List.mem_append_right _ (List.mem_cons_self _ _)))

/-- Inside a fold of exchanges without repeated steps, a step whose two cells
no other step addresses exchanges them. -/
theorem isolated_exchange {ι T : Type} (f : T → T) (a b : ι → Nat)
    (step : List T → ι → Option (List T))
    (hstep : ∀ buf t, a t < buf.length → b t < buf.length →
      ∃ r, step buf t = some r ∧ r.length = buf.length ∧
        (∀ p, p ≠ a t → p ≠ b t → r[p]? = buf[p]?) ∧
        (a t ≠ b t → r[a t]? = (buf[b t]?).map f ∧ r[b t]? = (buf[a t]?).map f))
    (ts : List ι) (x : ι) (hnd : ts.Nodup) (hx : x ∈ ts) (hne : a x ≠ b x)
    (hoth : ∀ t ∈ ts, t ≠ x → a t ≠ a x ∧ a t ≠ b x ∧ b t ≠ a x ∧ b t ≠ b x)
    (buf : List T) (hin : ∀ t ∈ ts, a t < buf.length ∧ b t < buf.length) :
    ∃ r, ts.foldlM step buf = some r ∧ r.length = buf.length ∧
      r[a x]? = (buf[b x]?).map f ∧ r[b x]? = (buf[a x]?).map f := by
  obtain ⟨L0, L1, rfl, hx0, hx1⟩ := nodup_split_one ts x hnd hx
  have hfree : ∀ L : List ι, (∀ t ∈ L, t ∈ L0 ++ x :: L1) → x ∉ L →
      ∀ t ∈ L, (a t ≠ a x ∧ b t ≠ a x) ∧ (a t ≠ b x ∧ b t ≠ b x) := by
    intro L hsub hxL t ht
    obtain ⟨h1, h2, h3, h4⟩ := hoth t (hsub t ht) (fun e => hxL (e ▸ ht))
    exact ⟨⟨h1, h3⟩, ⟨h2, h4⟩⟩
  have hf0 := hfree L0 (fun t ht => List.mem_append_left _ ht) hx0
  have hf1 := hfree L1 (fun t ht => List.mem_append_right _ (List.mem_cons_of_mem _ ht)) hx1
  obtain ⟨r0, hr0, hl0, hfr0, -⟩ := swap_fold f a b step hstep L0 buf
    (fun t ht => hin t (List.mem_append_left _ ht))
  obtain ⟨hax, hbx⟩ := hin x (List.mem_append_right _ (List.mem_cons_self _ _))
  obtain ⟨r1, hr1, hl1, -, hv1⟩ := hstep r0 x (by rw [hl0]; exact hax) (by rw [hl0]; exact hbx)
  obtain ⟨r2, hr2, hl2, hfr2, -⟩ := swap_fold f a b step hstep L1 r1
    (fun t ht => by
      rw [hl1, hl0]
      exact hin t (List.mem_append_right _ (List.mem_cons_of_mem _ ht)))
  obtain ⟨e1, e2⟩ := hv1 hne
  refine ⟨r2, ?_, by rw [hl2, hl1, hl0], ?_, ?_⟩
  · rw [List.foldlM_append, hr0]
    show (x :: L1).foldlM step r0 = some r2
    rw [List.foldlM_cons, hr1]
    exact hr2
  · rw [hfr2 (a x) (fun t ht => (hf1 t ht).1), e1, hfr0 (b x) (fun t ht => (hf0 t ht).2)]
  · rw [hfr2 (b x) (fun t ht => (hf1 t ht).2), e2, hfr0 (a x) (fun t ht => (hf0 t ht).1)]

/-- Inside a fold of exchanges, a step on the cells `p`, `q` followed later by
a step on the cells `q`, `r`, when no other step addresses `p`, `q` or `r`:
`p` receives the content of `q`, `q` that of `r`, and `r` that of `p`. -/
theorem linked_exchange {ι T : Type} (a b : ι → Nat)
    (step : List T → ι → Option (List T))
    (hstep : ∀ buf t, a t < buf.length → b t < buf.length →
      ∃ r, step buf t = some r ∧ r.length = buf.length ∧
        (∀ p, p ≠ a t → p ≠ b t → r[p]? = buf[p]?) ∧
        (a t ≠ b t → r[a t]? = (buf[b t]?).map id ∧ r[b t]? = (buf[a t]?).map id))
    (L0 L1 L2 : List ι) (x y : ι) (p q r : Nat)
    (hpq : p ≠ q) (hqr : q ≠ r) (hpr : p ≠ r)
    (hx : (a x = p ∧ b x = q) ∨ (a x = q ∧ b x = p))
    (hy : (a y = q ∧ b y = r) ∨ (a y = r ∧ b y = q))
    (hoth : ∀ t, t ∈ L0 ∨ t ∈ L1 ∨ t ∈ L2 →
      (a t ≠ p ∧ b t ≠ p) ∧ (a t ≠ q ∧ b t ≠ q) ∧ (a t ≠ r ∧ b t ≠ r))
    (buf : List T)
    (hin : ∀ t ∈ L0 ++ x :: (L1 ++ y :: L2), a t < buf.length ∧ b t < buf.length) :
    ∃ out, (L0 ++ x :: (L1 ++ y :: L2)).foldlM step buf = some out ∧
      out.length = buf.length ∧
      out[p]? = buf[q]? ∧ out[q]? = buf[r]? ∧ out[r]? = buf[p]? := by
  have hmx : x ∈ L0 ++ x :: (L1 ++ y :: L2) :=
    List.mem_append_right _ (List.mem_cons_self _ _)
  have hmy : y ∈ L0 ++ x :: (L1 ++ y :: L2) :=
    List.mem_append_right _ (List.mem_cons_of_mem _
      (List.mem_append_right _ (List.mem_cons_self _ _)))
  obtain ⟨r0, hr0, hl0, hfr0, -⟩ := swap_fold id a b step hstep L0 buf
    (fun t ht => hin t (List.mem_append_left _ ht))
  obtain ⟨hax, hbx⟩ := hin x hmx
  obtain ⟨r1, hr1, hl1, hfr1, hv1⟩ :=
    hstep r0 x (by rw [hl0]; exact hax) (by rw [hl0]; exact hbx)
  obtain ⟨r2, hr2, hl2, hfr2, -⟩ := swap_fold id a b step hstep L1 r1
    (fun t ht => by
      rw [hl1, hl0]
      exact hin t (List.mem_append_right _ (List.mem_cons_of_mem _ (List.mem_append_left _ ht))))
  obtain ⟨hay, hby⟩ := hin y hmy
  obtain ⟨r3, hr3, hl3, hfr3, hv3⟩ :=
    hstep r2 y (by rw [hl2, hl1, hl0]; exact hay) (by rw [hl2, hl1, hl0]; exact hby)
  obtain ⟨r4, hr4, hl4, hfr4, -⟩ := swap_fold id a b step hstep L2 r3
    (fun t ht => by
      rw [hl3, hl2, hl1, hl0]
      exact hin t (List.mem_append_right _ (List.mem_cons_of_mem _
        (List.mem_append_right _ (List.mem_cons_of_mem _ ht)))))
  have h0 : ∀ c, c = p ∨ c = q ∨ c = r → r0[c]? = buf[c]? := by
    intro c hc
    apply hfr0
    intro t ht
    obtain ⟨h1, h2, h3⟩ := hoth t (Or.inl ht)
    rcases hc with rfl | rfl | rfl
    · exact h1
    · exact h2
    · exact h3
  have h2 : ∀ c, c = p ∨ c = q ∨ c = r → r2[c]? = r1[c]? := by
    intro c hc
    apply hfr2
    intro t ht
    obtain ⟨h1, h2, h3⟩ := hoth t (Or.inr (Or.inl ht))
    rcases hc with rfl | rfl | rfl
    · exact h1
    · exact h2
    · exact h3
  have h4 : ∀ c, c = p ∨ c = q ∨ c = r → r4[c]? = r3[c]? := by
    intro c hc
    apply hfr4
    intro t ht
    obtain ⟨h1, h2, h3⟩ := hoth t (Or.inr (Or.inr ht))
    rcases hc with rfl | rfl | rfl
    · exact h1
    · exact h2
    · exact h3
  have hx1 : r1[p]? = r0[q]? ∧ r1[q]? = r0[p]? ∧ r1[r]? = r0[r]? := by
    rcases hx with ⟨e1, e2⟩ | ⟨e1, e2⟩
    · obtain ⟨v1, v2⟩ := hv1 (by rw [e1, e2]; exact hpq)
      rw [e1, e2] at v1 v2
      simp only [Option.map_id, id_eq] at v1 v2
      exact ⟨v1, v2, hfr1 r (by rw [e1]; exact Ne.symm hpr) (by rw [e2]; exact Ne.symm hqr)⟩
    · obtain ⟨v1, v2⟩ := hv1 (by rw [e1, e2]; exact Ne.symm hpq)
      rw [e1, e2] at v1 v2
      simp only [Option.map_id, id_eq] at v1 v2
      exact ⟨v2, v1, hfr1 r (by rw [e1]; exact Ne.symm hqr) (by rw [e2]; exact Ne.symm hpr)⟩
  have hy3 : r3[q]? = r2[r]? ∧ r3[r]? = r2[q]? ∧ r3[p]? = r2[p]? := by
    rcases hy with ⟨e1, e2⟩ | ⟨e1, e2⟩
    · obtain ⟨v1, v2⟩ := hv3 (by rw [e1, e2]; exact hqr)
      rw [e1, e2] at v1 v2
      simp only [Option.map_id, id_eq] at v1 v2
      exact ⟨v1, v2, hfr3 p (by rw [e1]; exact hpq) (by rw [e2]; exact hpr)⟩
    · obtain ⟨v1, v2⟩ := hv3 (by rw [e1, e2]; exact Ne.symm hqr)
      rw [e1, e2] at v1 v2
      simp only [Option.map_id, id_eq] at v1 v2
      exact ⟨v2, v1, hfr3 p (by rw [e1]; exact hpr) (by rw [e2]; exact hpq)⟩
  refine ⟨r4, ?_, by rw [hl4, hl3, hl2, hl1, hl0], ?_, ?_, ?_⟩
  · rw [List.foldlM_append, hr0]
    show (x :: (L1 ++ y :: L2)).foldlM step r0 = some r4
    rw [List.foldlM_cons, hr1]
    show (L1 ++ y :: L2).foldlM step r1 = some r4
    rw [List.foldlM_append, hr2]
    show (y :: L2).foldlM step r2 = some r4
    rw [List.foldlM_cons, hr3]
    exact hr4
  · rw [h4 p (Or.inl rfl), hy3.2.2, h2 p (Or.inl rfl), hx1.1, h0 q (Or.inr (Or.inl rfl))]
  · rw [h4 q (Or.inr (Or.inl rfl)), hy3.1, h2 r (Or.inr (Or.inr rfl)), hx1.2.2,
      h0 r (Or.inr (Or.inr rfl))]
  · rw [h4 r (Or.inr (Or.inr rfl)), hy3.2.1, h2 q (Or.inr (Or.inl rfl)), hx1.2.1,
      h0 p (Or.inl rfl)]

/-! ## The in-place kernel on the square of `65537 × 65537` elements -/

theorem hugeSquare_cells (t : Nat × Nat × Nat × Nat)
    (ht : t ∈ inplaceIdx ⟨65537, 65537, 1, 1⟩) :
    t.2.1 < t.1 ∧ t.1 < 65537 ∧ t.2.2.1 = 0 ∧ t.2.2.2 = 0 ∧
    getIdx ⟨1, 65537, 65537 * 65537, 65537 * 65537 * 1⟩ t.2.1 t.1 t.2.2.1 t.2.2.2
      = (t.2.1 + t.1 * 65537) % 2 ^ 32 ∧
    getIdx ⟨1, 65537, 65537 * 65537, 65537 * 65537 * 1⟩ t.1 t.2.1 t.2.2.1 t.2.2.2
      = (t.1 + t.2.1 * 65537) % 2 ^ 32 := by
  obtain ⟨i, j, k, l⟩ := t
  obtain ⟨⟨hji, hi⟩, -, hk, hl⟩ := (mem_inplaceIdx _ _ _ _ _).mp ht
  dsimp only at hji hi hk hl ⊢
  have hk0 : k = 0 := by omega
  have hl0 : l = 0 := by omega
  subst hk0 hl0
  refine ⟨hji, hi, rfl, rfl, ?_, ?_⟩
  · rw [getIdx_eq]
    simp only [Nat.zero_mul, Nat.add_zero]
  · rw [getIdx_eq]
    simp only [Nat.zero_mul, Nat.add_zero]

theorem exchange_step_plain {T : Type} (s : dim4) (buf : List T) (t : Nat × Nat × Nat × Nat)
    (ha : getIdx s t.2.1 t.1 t.2.2.1 t.2.2.2 < buf.length)
    (hb : getIdx s t.1 t.2.1 t.2.2.1 t.2.2.2 < buf.length) :
    ∃ r, inplaceBody getConjugate false s t.1 t.2.1 t.2.2.1 t.2.2.2 buf = some r ∧
      r.length = buf.length ∧
      (∀ p, p ≠ getIdx s t.2.1 t.1 t.2.2.1 t.2.2.2 → p ≠ getIdx s t.1 t.2.1 t.2.2.1 t.2.2.2 →
        r[p]? = buf[p]?) ∧
      (getIdx s t.2.1 t.1 t.2.2.1 t.2.2.2 ≠ getIdx s t.1 t.2.1 t.2.2.1 t.2.2.2 →
        r[getIdx s t.2.1 t.1 t.2.2.1 t.2.2.2]? =
          (buf[getIdx s t.1 t.2.1 t.2.2.1 t.2.2.2]?).map id ∧
        r[getIdx s t.1 t.2.1 t.2.2.1 t.2.2.2]? =
          (buf[getIdx s t.2.1 t.1 t.2.2.1 t.2.2.2]?).map id) :=
  exchange_spec getConjugate false buf _ _ ha hb

theorem mod_two_cases (x m : Nat) (h : x < 2 * m) :
    (x < m ∧ x % m = x) ∨ (m ≤ x ∧ x % m = x - m) := by
  rcases Nat.lt_or_ge x m with h1 | h1
  · exact Or.inl ⟨h1, Nat.mod_eq_of_lt h1⟩
  · right
    refine ⟨h1, ?_⟩
    rw [Nat.mod_eq_sub_mod h1]
    exact Nat.mod_eq_of_lt (by omega)

theorem hugeSquare_far (i j : Nat) (hji : j < i) (hi : i < 65537)
    (hx : ¬ (i = 2 ∧ j = 1)) (hy : ¬ (i = 65536 ∧ j = 3)) :
    ((j + i * 65537) % 2 ^ 32 ≠ 131075 ∧ (i + j * 65537) % 2 ^ 32 ≠ 131075) ∧
    ((j + i * 65537) % 2 ^ 32 ≠ 65539 ∧ (i + j * 65537) % 2 ^ 32 ≠ 65539) ∧
    ((j + i * 65537) % 2 ^ 32 ≠ 262147 ∧ (i + j * 65537) % 2 ^ 32 ≠ 262147) := by
  have hu := mod_two_cases (j + i * 65537) (2 ^ 32) (by omega)
  have hv := mod_two_cases (i + j * 65537) (2 ^ 32) (by omega)
  rcases hu with ⟨hu1, hu2⟩ | ⟨hu1, hu2⟩ <;> rcases hv with ⟨hv1, hv2⟩ | ⟨hv1, hv2⟩ <;>
    rw [hu2, hv2] <;> refine ⟨⟨?_, ?_⟩, ⟨?_, ?_⟩, ⟨?_, ?_⟩⟩ <;> omega

theorem hugeSquare_far_diag (i j : Nat) (hji : j < i) (hi : i < 65537)
    (hx : ¬ (i = 65536 ∧ j = 2)) :
    ((j + i * 65537) % 2 ^ 32 ≠ 65538 ∧ (i + j * 65537) % 2 ^ 32 ≠ 65538) ∧
    ((j + i * 65537) % 2 ^ 32 ≠ 196610 ∧ (i + j * 65537) % 2 ^ 32 ≠ 196610) := by
  have hu := mod_two_cases (j + i * 65537) (2 ^ 32) (by omega)
  have hv := mod_two_cases (i + j * 65537) (2 ^ 32) (by omega)
  rcases hu with ⟨hu1, hu2⟩ | ⟨hu1, hu2⟩ <;> rcases hv with ⟨hv1, hv2⟩ | ⟨hv1, hv2⟩ <;>
    rw [hu2, hv2] <;> refine ⟨⟨?_, ?_⟩, ⟨?_, ?_⟩⟩ <;> omega

theorem hugeSquare_inRange {T : Type} (buf : List T) (hl : buf.length = 65537 * 65537)
    (t : Nat × Nat × Nat × Nat) :
    getIdx ⟨1, 65537, 65537 * 65537, 65537 * 65537 * 1⟩ t.2.1 t.1 t.2.2.1 t.2.2.2 < buf.length ∧
    getIdx ⟨1, 65537, 65537 * 65537, 65537 * 65537 * 1⟩ t.1 t.2.1 t.2.2.1 t.2.2.2
      < buf.length := by
  have h1 := getIdx_lt ⟨1, 65537, 65537 * 65537, 65537 * 65537 * 1⟩ t.2.1 t.1 t.2.2.1 t.2.2.2
  have h2 := getIdx_lt ⟨1, 65537, 65537 * 65537, 65537 * 65537 * 1⟩ t.1 t.2.1 t.2.2.1 t.2.2.2
  constructor <;> omega

/-- On an array with the shape and strides of the packed `65537 × 65537`
square, the in-place kernel without conjugation stores into cell `65538`, the
cell of the diagonal element `(1, 1)`, the content of cell `196610`: the step
`i = 65536`, `j = 2` addresses `2 + 65536*65537 - 2^32 = 65538`. -/
theorem hugeSquare_diagonal_pass {T : Type} (A : Array T)
    (hd : A.dims = ⟨65537, 65537, 1, 1⟩)
    (hs : A.strides = ⟨1, 65537, 65537 * 65537, 65537 * 65537 * 1⟩)
    (hl : A.data.length = 65537 * 65537) :
    ∃ B, transpose_inplace getConjugate A false = some B ∧
      B.dims = A.dims ∧ B.strides = A.strides ∧ B.data.length = A.data.length ∧
      B.data[65538]? = A.data[196610]? := by
  obtain ⟨dims, strides, data⟩ := A
  dsimp only at hd hs hl
  subst hd hs
  have hmem : ((65536, 2, 0, 0) : Nat × Nat × Nat × Nat) ∈ inplaceIdx ⟨65537, 65537, 1, 1⟩ :=
    (mem_inplaceIdx _ _ _ _ _).mpr ⟨⟨by norm_num, by norm_num⟩, by norm_num, by norm_num,
      by norm_num⟩
  have hcx := hugeSquare_cells _ hmem
  dsimp only at hcx
  have hax : getIdx ⟨1, 65537, 65537 * 65537, 65537 * 65537 * 1⟩ 2 65536 0 0 = 65538 := by
    rw [hcx.2.2.2.2.1]; norm_num
  have hbx : getIdx ⟨1, 65537, 65537 * 65537, 65537 * 65537 * 1⟩ 65536 2 0 0 = 196610 := by
    rw [hcx.2.2.2.2.2]; norm_num
  obtain ⟨r, hfold, hlen, e1, -⟩ :=
    isolated_exchange id
      (fun t : Nat × Nat × Nat × Nat =>
        getIdx ⟨1, 65537, 65537 * 65537, 65537 * 65537 * 1⟩ t.2.1 t.1 t.2.2.1 t.2.2.2)
      (fun t : Nat × Nat × Nat × Nat =>
        getIdx ⟨1, 65537, 65537 * 65537, 65537 * 65537 * 1⟩ t.1 t.2.1 t.2.2.1 t.2.2.2)
      (fun buf t => inplaceBody getConjugate false
        ⟨1, 65537, 65537 * 65537, 65537 * 65537 * 1⟩ t.1 t.2.1 t.2.2.1 t.2.2.2 buf)
      (fun buf t ha hb => exchange_step_plain _ buf t ha hb)
      (inplaceIdx ⟨65537, 65537, 1, 1⟩) (65536, 2, 0, 0) (inplaceIdx_nodup _) hmem
      (by dsimp only; rw [hax, hbx]; norm_num)
      (fun t ht hne => by
        obtain ⟨hji, hi, hk, hl0, ha, hb⟩ := hugeSquare_cells t ht
        have hx : ¬ (t.1 = 65536 ∧ t.2.1 = 2) := by
          rintro ⟨e1, e2⟩
          apply hne
          obtain ⟨i, j, k, l⟩ := t
          dsimp only at e1 e2 hk hl0
          rw [e1, e2, hk, hl0]
        obtain ⟨⟨f1, f2⟩, ⟨f3, f4⟩⟩ := hugeSquare_far_diag t.1 t.2.1 hji hi hx
        dsimp only
        rw [ha, hb, hax, hbx]
        exact ⟨f1, f3, f2, f4⟩)
      data (fun t _ => hugeSquare_inRange data hl t)
  refine ⟨⟨⟨65537, 65537, 1, 1⟩, ⟨1, 65537, 65537 * 65537, 65537 * 65537 * 1⟩, r⟩, ?_, rfl, rfl,
    hlen, ?_⟩
  · rw [transpose_inplace_eq_fold]
    dsimp only
    rw [hfold]
    rfl
  · dsimp only at e1 ⊢
    rw [hax, hbx] at e1
    rw [e1, Option.map_id]
    rfl

theorem hugeSquare_others (L0 L1 L2 : List (Nat × Nat × Nat × Nat))
    (x y : Nat × Nat × Nat × Nat)
    (hts : inplaceIdx ⟨65537, 65537, 1, 1⟩ = L0 ++ x :: (L1 ++ y :: L2))
    (hx0 : (2, 1, 0, 0) ∉ L0) (hx1 : (2, 1, 0, 0) ∉ L1) (hx2 : (2, 1, 0, 0) ∉ L2)
    (hy0 : (65536, 3, 0, 0) ∉ L0) (hy1 : (65536, 3, 0, 0) ∉ L1) (hy2 : (65536, 3, 0, 0) ∉ L2)
    (t : Nat × Nat × Nat × Nat) (ht : t ∈ L0 ∨ t ∈ L1 ∨ t ∈ L2) :
    ∀ c, c = 131075 ∨ c = 65539 ∨ c = 262147 →
      getIdx ⟨1, 65537, 65537 * 65537, 65537 * 65537 * 1⟩ t.2.1 t.1 t.2.2.1 t.2.2.2 ≠ c ∧
      getIdx ⟨1, 65537, 65537 * 65537, 65537 * 65537 * 1⟩ t.1 t.2.1 t.2.2.1 t.2.2.2 ≠ c := by
  have hmem : t ∈ inplaceIdx ⟨65537, 65537, 1, 1⟩ := by
    rw [hts]
    rcases ht with h | h | h
    · exact List.mem_append_left _ h
    · exact List.mem_append_right _ (List.mem_cons_of_mem _ (List.mem_append_left _ h))
    · exact List.mem_append_right _ (List.mem_cons_of_mem _
        (List.mem_append_right _ (List.mem_cons_of_mem _ h)))
  have hnx : t ≠ (2, 1, 0, 0) := by
    rintro rfl
    rcases ht with h | h | h
    · exact hx0 h
    · exact hx1 h
    · exact hx2 h
  have hny : t ≠ (65536, 3, 0, 0) := by
    rintro rfl
    rcases ht with h | h | h
    · exact hy0 h
    · exact hy1 h
    · exact hy2 h
  obtain ⟨hji, hi, hk, hl0, ha, hb⟩ := hugeSquare_cells t hmem
  have h1 : ¬ (t.1 = 2 ∧ t.2.1 = 1) := by
    rintro ⟨e1, e2⟩
    apply hnx
    obtain ⟨i, j, k, l⟩ := t
    dsimp only at e1 e2 hk hl0
    rw [e1, e2, hk, hl0]
  have h2 : ¬ (t.1 = 65536 ∧ t.2.1 = 3) := by
    rintro ⟨e1, e2⟩
    apply hny
    obtain ⟨i, j, k, l⟩ := t
    dsimp only at e1 e2 hk hl0
    rw [e1, e2, hk, hl0]
  obtain ⟨f1, f2, f3⟩ := hugeSquare_far t.1 t.2.1 hji hi h1 h2
  intro c hc
  rw [ha, hb]
  rcases hc with rfl | rfl | rfl
  · exact f1
  · exact f2
  · exact f3

/-- On arrays with the shape and strides of the packed `65537 × 65537`
square, one run of the in-place kernel without conjugation rotates the
contents of the cells `131075`, `65539` and `262147`: the step `i = 2`,
`j = 1` exchanges `131075` with `65539`, and the step `i = 65536`, `j = 3`
addresses `3 + 65536*65537 - 2^32 = 65539` and exchanges it with `262147`.
The direction of the rotation is the order of the two steps. -/
theorem hugeSquare_cycle (T : Type) :
    (∀ A : Array T, A.dims = ⟨65537, 65537, 1, 1⟩ →
      A.strides = ⟨1, 65537, 65537 * 65537, 65537 * 65537 * 1⟩ →
      A.data.length = 65537 * 65537 →
      ∃ B, transpose_inplace getConjugate A false = some B ∧
        B.dims = A.dims ∧ B.strides = A.strides ∧ B.data.length = A.data.length ∧
        B.data[131075]? = A.data[65539]? ∧ B.data[65539]? = A.data[262147]? ∧
        B.data[262147]? = A.data[131075]?) ∨
    (∀ A : Array T, A.dims = ⟨65537, 65537, 1, 1⟩ →
      A.strides = ⟨1, 65537, 65537 * 65537, 65537 * 65537 * 1⟩ →
      A.data.length = 65537 * 65537 →
      ∃ B, transpose_inplace getConjugate A false = some B ∧
        B.dims = A.dims ∧ B.strides = A.strides ∧ B.data.length = A.data.length ∧
        B.data[262147]? = A.data[65539]? ∧ B.data[65539]? = A.data[131075]? ∧
        B.data[131075]? = A.data[262147]?) := by
  have hmx : ((2, 1, 0, 0) : Nat × Nat × Nat × Nat) ∈ inplaceIdx ⟨65537, 65537, 1, 1⟩ :=
    (mem_inplaceIdx _ _ _ _ _).mpr ⟨⟨by norm_num, by norm_num⟩, by norm_num, by norm_num,
      by norm_num⟩
  have hmy : ((65536, 3, 0, 0) : Nat × Nat × Nat × Nat) ∈ inplaceIdx ⟨65537, 65537, 1, 1⟩ :=
    (mem_inplaceIdx _ _ _ _ _).mpr ⟨⟨by norm_num, by norm_num⟩, by norm_num, by norm_num,
      by norm_num⟩
  have hcx := hugeSquare_cells _ hmx
  have hcy := hugeSquare_cells _ hmy
  dsimp only at hcx hcy
  have hax : getIdx ⟨1, 65537, 65537 * 65537, 65537 * 65537 * 1⟩ 1 2 0 0 = 131075 := by
    rw [hcx.2.2.2.2.1]; norm_num
  have hbx : getIdx ⟨1, 65537, 65537 * 65537, 65537 * 65537 * 1⟩ 2 1 0 0 = 65539 := by
    rw [hcx.2.2.2.2.2]; norm_num
  have hay : getIdx ⟨1, 65537, 65537 * 65537, 65537 * 65537 * 1⟩ 3 65536 0 0 = 65539 := by
    rw [hcy.2.2.2.2.1]; norm_num
  have hby : getIdx ⟨1, 65537, 65537 * 65537, 65537 * 65537 * 1⟩ 65536 3 0 0 = 262147 := by
    rw [hcy.2.2.2.2.2]; norm_num
  have hxy : ((2, 1, 0, 0) : Nat × Nat × Nat × Nat) ≠ (65536, 3, 0, 0) := by
    intro h
    have := congrArg Prod.fst h
    norm_num at this
  rcases nodup_split_two _ _ _ (inplaceIdx_nodup ⟨65537, 65537, 1, 1⟩) hmx hmy hxy with
    ⟨L0, L1, L2, hts, hx0, hx1, hx2, hy0, hy1, hy2⟩ | ⟨L0, L1, L2, hts, hx0, hx1, hx2, hy0, hy1, hy2⟩
  · left
    intro A hd hs hl
    obtain ⟨dims, strides, data⟩ := A
    dsimp only at hd hs hl
    subst hd hs
    obtain ⟨r, hfold, hlen, e1, e2, e3⟩ :=
      linked_exchange
        (fun t : Nat × Nat × Nat × Nat =>
          getIdx ⟨1, 65537, 65537 * 65537, 65537 * 65537 * 1⟩ t.2.1 t.1 t.2.2.1 t.2.2.2)
        (fun t : Nat × Nat × Nat × Nat =>
          getIdx ⟨1, 65537, 65537 * 65537, 65537 * 65537 * 1⟩ t.1 t.2.1 t.2.2.1 t.2.2.2)
        (fun buf t => inplaceBody getConjugate false
          ⟨1, 65537, 65537 * 65537, 65537 * 65537 * 1⟩ t.1 t.2.1 t.2.2.1 t.2.2.2 buf)
        (fun buf t ha hb => exchange_step_plain _ buf t ha hb)
        L0 L1 L2 (2, 1, 0, 0) (65536, 3, 0, 0) 131075 65539 262147
        (by norm_num) (by norm_num) (by norm_num)
        (Or.inl ⟨hax, hbx⟩) (Or.inl ⟨hay, hby⟩)
        (fun t ht => by
          have h := hugeSquare_others L0 L1 L2 _ _ hts hx0 hx1 hx2 hy0 hy1 hy2 t ht
          exact ⟨h _ (Or.inl rfl), h _ (Or.inr (Or.inl rfl)), h _ (Or.inr (Or.inr rfl))⟩)
        data (fun t _ => hugeSquare_inRange data hl t)
    refine ⟨⟨⟨65537, 65537, 1, 1⟩, ⟨1, 65537, 65537 * 65537, 65537 * 65537 * 1⟩, r⟩, ?_, rfl,
      rfl, hlen, e1, e2, e3⟩
    rw [transpose_inplace_eq_fold]
    dsimp only
    rw [hts, hfold]
    rfl
  · right
    intro A hd hs hl
    obtain ⟨dims, strides, data⟩ := A
    dsimp only at hd hs hl
    subst hd hs
    obtain ⟨r, hfold, hlen, e1, e2, e3⟩ :=
      linked_exchange
        (fun t : Nat × Nat × Nat × Nat =>
          getIdx ⟨1, 65537, 65537 * 65537, 65537 * 65537 * 1⟩ t.2.1 t.1 t.2.2.1 t.2.2.2)
        (fun t : Nat × Nat × Nat × Nat =>
          getIdx ⟨1, 65537, 65537 * 65537, 65537 * 65537 * 1⟩ t.1 t.2.1 t.2.2.1 t.2.2.2)
        (fun buf t => inplaceBody getConjugate false
          ⟨1, 65537, 65537 * 65537, 65537 * 65537 * 1⟩ t.1 t.2.1 t.2.2.1 t.2.2.2 buf)
        (fun buf t ha hb => exchange_step_plain _ buf t ha hb)
        L0 L1 L2 (65536, 3, 0, 0) (2, 1, 0, 0) 262147 65539 131075
        (by norm_num) (by norm_num) (by norm_num)
        (Or.inr ⟨hay, hby⟩) (Or.inr ⟨hax, hbx⟩)
        (fun t ht => by
          have h := hugeSquare_others L0 L1 L2 _ _ hts hx0 hx1 hx2 hy0 hy1 hy2 t ht
          exact ⟨h _ (Or.inr (Or.inr rfl)), h _ (Or.inr (Or.inl rfl)), h _ (Or.inl rfl)⟩)
        data (fun t _ => hugeSquare_inRange data hl t)
    refine ⟨⟨⟨65537, 65537, 1, 1⟩, ⟨1, 65537, 65537 * 65537, 65537 * 65537 * 1⟩, r⟩, ?_, rfl,
      rfl, hlen, e1, e2, e3⟩
    rw [transpose_inplace_eq_fold]
    dsimp only
    rw [hts, hfold]
    rfl

/-! ## C13: offsets of the out-of-place kernel -/

/-- C13: for every shape `(d0,d1,d2,d3)`, a packed input of that shape and a
packed output of shape `(d1,d0,d2,d3)`, every offset `transpose_` reads from
the input and every offset it writes to the output is below `d0*d1*d2*d3`, and
the kernel runs to completion without an access outside a buffer. -/
theorem transpose_offsets_inside {T : Type} (conj : T → T) (output input : Array T)
    (conjugate : Bool) (hin : input.packed) (hout : output.packed)
    (hdims : output.dims = ⟨input.dims.d1, input.dims.d0, input.dims.d2, input.dims.d3⟩) :
    (∀ i j k l, i < output.dims.d0 → j < output.dims.d1 → k < output.dims.d2 →
      l < output.dims.d3 →
      getIdx input.strides j i k l < input.dims.d0 * input.dims.d1 * input.dims.d2 * input.dims.d3 ∧
      getIdx output.strides i j k l <
        input.dims.d0 * input.dims.d1 * input.dims.d2 * input.dims.d3) ∧
    ∃ out, transpose_ conj output input conjugate = some out := by
  obtain ⟨⟨d0, d1, d2, d3⟩, istr, idata⟩ := input
  obtain ⟨odims, ostr, odata⟩ := output
  obtain ⟨his, hil⟩ := hin
  obtain ⟨hos, hol⟩ := hout
  dsimp only [dim4.elements] at his hil hos hol hdims ⊢
  subst hdims
  dsimp only at hos hol
  subst his hos
  have hswap : d1 * d0 * d2 * d3 = d0 * d1 * d2 * d3 := by ring
  have hacc : ∀ i j k l, i < d1 → j < d0 → k < d2 → l < d3 →
      getIdx ⟨1, d0, d0 * d1, d0 * d1 * d2⟩ j i k l < d0 * d1 * d2 * d3 ∧
      getIdx ⟨1, d1, d1 * d0, d1 * d0 * d2⟩ i j k l < d0 * d1 * d2 * d3 := by
    intro i j k l hi hj hk hl
    have h1 := getIdx_packed_le d0 d1 d2 j i k l
    have h2 := packedOffset_lt d0 d1 d2 d3 j i k l hj hi hk hl
    have h3 := getIdx_packed_le d1 d0 d2 i j k l
    have h4 := packedOffset_lt d1 d0 d2 d3 i j k l hi hj hk hl
    exact ⟨by omega, by omega⟩
  refine ⟨hacc, ?_⟩
  obtain ⟨out, hrun, -⟩ :=
    transpose__spec conj ⟨⟨d1, d0, d2, d3⟩, ⟨1, d1, d1 * d0, d1 * d0 * d2⟩, odata⟩
      ⟨⟨d0, d1, d2, d3⟩, ⟨1, d0, d0 * d1, d0 * d1 * d2⟩, idata⟩ conjugate
      (fun i j k l hi hj hk hl => by
        have h := (hacc i j k l hi hj hk hl).1
        show getIdx ⟨1, d0, d0 * d1, d0 * d1 * d2⟩ j i k l < idata.length
        omega)
      (fun i j k l hi hj hk hl => by
        have h := (hacc i j k l hi hj hk hl).2
        show getIdx ⟨1, d1, d1 * d0, d1 * d0 * d2⟩ i j k l < odata.length
        omega)
  exact ⟨out, hrun⟩

/-- C13, witness: the packed 3×2 array as input and a packed 2×3 array as
output. -/
theorem transpose_offsets_inside_witness :
    rows32.packed ∧ (mkPacked ⟨2, 3, 1, 1⟩ [0, 0, 0, 0, 0, 0] : Array Int).packed ∧
    (∀ i j k l, i < 2 → j < 3 → k < 1 → l < 1 →
      getIdx rows32.strides j i k l < 3 * 2 * 1 * 1 ∧
      getIdx (mkPacked ⟨2, 3, 1, 1⟩ [0, 0, 0, 0, 0, 0] : Array Int).strides i j k l
        < 3 * 2 * 1 * 1) ∧
    ∃ out, transpose_ getConjugate (mkPacked ⟨2, 3, 1, 1⟩ [0, 0, 0, 0, 0, 0]) rows32 false
      = some out :=
  ⟨by decide, by decide,
    transpose_offsets_inside getConjugate (mkPacked ⟨2, 3, 1, 1⟩ [0, 0, 0, 0, 0, 0]) rows32
      false (by decide) (by decide) rfl⟩

/-! ## C14: every output cell is written once -/

theorem digit_split (a p M : Nat) (ha : 0 < a) (h : p < a * M) :
    p % a < a ∧ p / a < M ∧ p % a + (p / a) * a = p := by
  refine ⟨Nat.mod_lt _ ha, Nat.div_lt_of_lt_mul h, ?_⟩
  have := Nat.mod_add_div p a
  rw [Nat.mul_comm] at this
  exact this

theorem packedOffset_surj (a b c d p : Nat) (h : p < a * b * c * d) :
    ∃ i j k l, i < a ∧ j < b ∧ k < c ∧ l < d ∧ packedOffset a b c i j k l = p := by
  have ha : 0 < a := by
    rcases Nat.eq_zero_or_pos a with h0 | h0
    · subst h0; simp only [Nat.zero_mul] at h; omega
    · exact h0
  have hb : 0 < b := by
    rcases Nat.eq_zero_or_pos b with h0 | h0
    · subst h0; simp only [Nat.zero_mul, Nat.mul_zero] at h; omega
    · exact h0
  have hc : 0 < c := by
    rcases Nat.eq_zero_or_pos c with h0 | h0
    · subst h0; simp only [Nat.zero_mul, Nat.mul_zero] at h; omega
    · exact h0
  have h1 : p < a * (b * (c * d)) := by
    have e : a * (b * (c * d)) = a * b * c * d := by ring
    omega
  obtain ⟨hi, hq1, e1⟩ := digit_split a p (b * (c * d)) ha h1
  obtain ⟨hj, hq2, e2⟩ := digit_split b (p / a) (c * d) hb hq1
  obtain ⟨hk, hl, e3⟩ := digit_split c (p / a / b) d hc hq2
  refine ⟨p % a, p / a % b, p / a / b % c, p / a / b / c, hi, hj, hk, hl, ?_⟩
  rw [packedOffset_horner, e3, e2, e1]

/-- Writes below the 32-bit limit: for a packed input of at most `2^32`
elements, `transpose` runs to completion on its freshly allocated packed output
of shape `(d1,d0,d2,d3)`; the offsets it writes are pairwise distinct over the
iteration domain and cover all `d0*d1*d2*d3` cells: every cell is the target of
one index tuple and holds, after the run, the image of an input element. -/
theorem transpose_writes_once {T : Type} (conj : T → T) (A : Array T) (conjugate : Bool)
    (garbage : Nat → T) (hp : A.packed) (hsz : A.dims.elements ≤ 2 ^ 32) :
    ∃ out, transpose conj A conjugate garbage = some out ∧ out.packed ∧
      out.dims = ⟨A.dims.d1, A.dims.d0, A.dims.d2, A.dims.d3⟩ ∧
      (∀ i j k l i2 j2 k2 l2, i < out.dims.d0 → j < out.dims.d1 → k < out.dims.d2 →
        l < out.dims.d3 → i2 < out.dims.d0 → j2 < out.dims.d1 → k2 < out.dims.d2 →
        l2 < out.dims.d3 → getIdx out.strides i j k l = getIdx out.strides i2 j2 k2 l2 →
        i = i2 ∧ j = j2 ∧ k = k2 ∧ l = l2) ∧
      (∀ p, p < A.dims.d0 * A.dims.d1 * A.dims.d2 * A.dims.d3 →
        ∃ i j k l, i < out.dims.d0 ∧ j < out.dims.d1 ∧ k < out.dims.d2 ∧ l < out.dims.d3 ∧
          getIdx out.strides i j k l = p ∧
          ∃ v, A.elem j i k l = some v ∧ out.data[p]? = some (applyConj conj conjugate v)) := by
  obtain ⟨out, hrun, hdims, hpk, -, hval⟩ := transpose_packed conj A hp conjugate garbage
  refine ⟨out, hrun, hpk, hdims, ?_, ?_⟩
  · obtain ⟨od, os, odata⟩ := out
    obtain ⟨hs, -⟩ := hpk
    dsimp only at hdims hs ⊢
    subst hdims
    dsimp only at hs ⊢
    subst hs
    have hswap : A.dims.d1 * A.dims.d0 * A.dims.d2 * A.dims.d3 = A.dims.elements := by
      unfold dim4.elements; ring
    intro i j k l i2 j2 k2 l2 hi hj hk hl hi2 hj2 hk2 hl2 h
    have h1 := packedOffset_lt _ _ _ _ i j k l hi hj hk hl
    have h2 := packedOffset_lt _ _ _ _ i2 j2 k2 l2 hi2 hj2 hk2 hl2
    rw [getIdx_packed_exact _ _ _ _ _ _ _ (by omega),
      getIdx_packed_exact _ _ _ _ _ _ _ (by omega)] at h
    exact packedOffset_inj _ _ _ _ _ _ _ _ _ _ _ hi hj hk hi2 hj2 hk2 h
  · intro p hlt
    have hswap : A.dims.d1 * A.dims.d0 * A.dims.d2 * A.dims.d3
        = A.dims.d0 * A.dims.d1 * A.dims.d2 * A.dims.d3 := by ring
    have hel : A.dims.elements = A.dims.d0 * A.dims.d1 * A.dims.d2 * A.dims.d3 := rfl
    obtain ⟨i, j, k, l, hi, hj, hk, hl, hoff⟩ :=
      packedOffset_surj A.dims.d1 A.dims.d0 A.dims.d2 A.dims.d3 p (by omega)
    obtain ⟨v, hv1, hv2⟩ := hval hsz i j k l hi hj hk hl
    obtain ⟨od, os, odata⟩ := out
    obtain ⟨hs, -⟩ := hpk
    dsimp only at hdims hs hv2 ⊢
    subst hdims
    dsimp only at hs ⊢
    subst hs
    refine ⟨i, j, k, l, hi, hj, hk, hl, ?_, v, hv1, ?_⟩
    · rw [getIdx_packed_exact _ _ _ _ _ _ _ (by omega)]
      exact hoff
    · rw [elem_packed, hoff] at hv2
      exact hv2

/-- The packed 3×2 array: its output has 6 cells and each is the target of one
index tuple. -/
theorem transpose_writes_once_witness :
    rows32.packed ∧ rows32.dims.elements ≤ 2 ^ 32 ∧
    ∃ out, transpose getConjugate rows32 false (fun _ => 0) = some out ∧ out.packed ∧
      out.dims = ⟨rows32.dims.d1, rows32.dims.d0, rows32.dims.d2, rows32.dims.d3⟩ ∧
      (∀ i j k l i2 j2 k2 l2, i < out.dims.d0 → j < out.dims.d1 → k < out.dims.d2 →
        l < out.dims.d3 → i2 < out.dims.d0 → j2 < out.dims.d1 → k2 < out.dims.d2 →
        l2 < out.dims.d3 → getIdx out.strides i j k l = getIdx out.strides i2 j2 k2 l2 →
        i = i2 ∧ j = j2 ∧ k = k2 ∧ l = l2) ∧
      (∀ p, p < rows32.dims.d0 * rows32.dims.d1 * rows32.dims.d2 * rows32.dims.d3 →
        ∃ i j k l, i < out.dims.d0 ∧ j < out.dims.d1 ∧ k < out.dims.d2 ∧ l < out.dims.d3 ∧
          getIdx out.strides i j k l = p ∧
          ∃ v, rows32.elem j i k l = some v ∧
            out.data[p]? = some (applyConj getConjugate false v)) :=
  ⟨by decide, by decide,
    transpose_writes_once getConjugate rows32 false (fun _ => 0) (by decide) (by decide)⟩

theorem mem_transposeWrites (odims ostrides : dim4) (p : Nat) :
    p ∈ transposeWrites odims ostrides ↔
      ∃ i j k l, i < odims.d0 ∧ j < odims.d1 ∧ k < odims.d2 ∧ l < odims.d3 ∧
        getIdx ostrides i j k l = p := by
  unfold transposeWrites
  rw [List.mem_map]
  constructor
  · rintro ⟨⟨i, j, k, l⟩, ht, h⟩
    obtain ⟨hi, hj, hk, hl⟩ := (mem_transposeIdx _ _ _ _ _).mp ht
    exact ⟨i, j, k, l, hi, hj, hk, hl, h⟩
  · rintro ⟨i, j, k, l, hi, hj, hk, hl, h⟩
    exact ⟨(i, j, k, l), (mem_transposeIdx _ _ _ _ _).mpr ⟨hi, hj, hk, hl⟩, h⟩

/-- On a packed output of at most `2^32` cells the kernel stores to every cell
exactly once. -/
theorem transposeWrites_once (a b c d : Nat) (h : a * b * c * d ≤ 2 ^ 32) :
    (transposeWrites ⟨a, b, c, d⟩ ⟨1, a, a * b, a * b * c⟩).Nodup ∧
    (∀ p, p ∈ transposeWrites ⟨a, b, c, d⟩ ⟨1, a, a * b, a * b * c⟩ ↔ p < a * b * c * d) ∧
    ∀ p, p < a * b * c * d →
      (transposeWrites ⟨a, b, c, d⟩ ⟨1, a, a * b, a * b * c⟩).count p = 1 := by
  have hnd : (transposeWrites ⟨a, b, c, d⟩ ⟨1, a, a * b, a * b * c⟩).Nodup := by
    unfold transposeWrites
    refine (transposeIdx_nodup _).map_on ?_
    rintro ⟨i, j, k, l⟩ hx ⟨i2, j2, k2, l2⟩ hy hxy
    obtain ⟨hi, hj, hk, hl⟩ := (mem_transposeIdx _ _ _ _ _).mp hx
    obtain ⟨hi2, hj2, hk2, hl2⟩ := (mem_transposeIdx _ _ _ _ _).mp hy
    dsimp only at hi hj hk hl hi2 hj2 hk2 hl2 hxy
    have h1 := packedOffset_lt a b c d i j k l hi hj hk hl
    have h2 := packedOffset_lt a b c d i2 j2 k2 l2 hi2 hj2 hk2 hl2
    rw [getIdx_packed_exact _ _ _ _ _ _ _ (by omega),
      getIdx_packed_exact _ _ _ _ _ _ _ (by omega)] at hxy
    obtain ⟨e1, e2, e3, e4⟩ := packedOffset_inj _ _ _ _ _ _ _ _ _ _ _ hi hj hk hi2 hj2 hk2 hxy
    subst e1 e2 e3 e4
    rfl
  have hmem : ∀ p, p ∈ transposeWrites ⟨a, b, c, d⟩ ⟨1, a, a * b, a * b * c⟩ ↔
      p < a * b * c * d := by
    intro p
    rw [mem_transposeWrites]
    constructor
    · rintro ⟨i, j, k, l, hi, hj, hk, hl, rfl⟩
      have h1 := packedOffset_lt a b c d i j k l hi hj hk hl
      have h2 := getIdx_packed_le a b c i j k l
      omega
    · intro hp
      obtain ⟨i, j, k, l, hi, hj, hk, hl, hoff⟩ := packedOffset_surj a b c d p hp
      refine ⟨i, j, k, l, hi, hj, hk, hl, ?_⟩
      rw [getIdx_packed_exact _ _ _ _ _ _ _ (by omega)]
      exact hoff
  exact ⟨hnd, hmem, fun p hp => List.count_eq_one_of_mem hnd ((hmem p).mpr hp)⟩

theorem two_le_length_of_mem {α : Type} (xs : List α) (x y : α) (hx : x ∈ xs) (hy : y ∈ xs)
    (hne : x ≠ y) : 2 ≤ xs.length := by
  cases xs with
  | nil => exact absurd hx (List.not_mem_nil x)
  | cons a t =>
    cases t with
    | nil =>
      rw [List.mem_singleton] at hx hy
      exact absurd (hx.trans hy.symm) hne
    | cons b t2 =>
      simp only [List.length_cons]
      omega

theorem two_le_count_map {α : Type} (xs : List α) (f : α → Nat) (x y : α) (hx : x ∈ xs)
    (hy : y ∈ xs) (hne : x ≠ y) (hf : f y = f x) : 2 ≤ (xs.map f).count (f x) := by
  rw [List.count_eq_countP, List.countP_map, List.countP_eq_length_filter]
  refine two_le_length_of_mem _ x y ?_ ?_ hne
  · rw [List.mem_filter]
    exact ⟨hx, by simp⟩
  · rw [List.mem_filter]
    exact ⟨hy, by simp [hf]⟩

/-- C14, the code at the failing input: `transpose` on the packed column of
`2^32 + 1` elements runs to completion on a packed output of shape
`(1, 2^32+1, 1, 1)`.  The index tuples `(0, 0, 0, 0)` and `(0, 2^32, 0, 0)`,
both visited by the loops of `transpose_`, store to the same offset `0`, so
the list of offsets the kernel stores to has a repetition and lists offset `0`
at least twice; no iteration stores to the cell at offset `2^32`, which lies
in the output buffer and keeps the content `7` of the fresh buffer. -/
theorem transpose_writes_huge_column :
    hugeColumn.packed ∧
    ∃ out, transpose getConjugate hugeColumn false (fun _ => 7) = some out ∧ out.packed ∧
      0 < out.dims.d0 ∧ 2 ^ 32 < out.dims.d1 ∧ 0 < out.dims.d2 ∧ 0 < out.dims.d3 ∧
      getIdx out.strides 0 0 0 0 = 0 ∧ getIdx out.strides 0 (2 ^ 32) 0 0 = 0 ∧
      2 ^ 32 < out.dims.d0 * out.dims.d1 * out.dims.d2 * out.dims.d3 ∧
      (∀ i j k l, getIdx out.strides i j k l ≠ 2 ^ 32) ∧
      out.data[2 ^ 32]? = some 7 ∧
      (0, 0, 0, 0) ∈ transposeIdx out.dims ∧ (0, 2 ^ 32, 0, 0) ∈ transposeIdx out.dims ∧
      ¬ (transposeWrites out.dims out.strides).Nodup ∧
      2 ≤ (transposeWrites out.dims out.strides).count 0 ∧
      2 ^ 32 ∉ transposeWrites out.dims out.strides ∧
      (transposeWrites out.dims out.strides).count (2 ^ 32) = 0 := by
  obtain ⟨out, hrun, hdims, hpk, hhigh, -⟩ :=
    transpose_packed getConjugate hugeColumn hugeColumn_packed false (fun _ => 7)
  have hd : out.dims = ⟨1, 2 ^ 32 + 1, 1, 1⟩ := hdims
  have hs : out.strides = ⟨1, 1, 1 * (2 ^ 32 + 1), 1 * (2 ^ 32 + 1) * 1⟩ := by
    rw [hpk.1, hd]
  have hm0 : (0, 0, 0, 0) ∈ transposeIdx out.dims := by
    rw [mem_transposeIdx, hd]
    exact ⟨Nat.one_pos, Nat.succ_pos _, Nat.one_pos, Nat.one_pos⟩
  have hm1 : (0, 2 ^ 32, 0, 0) ∈ transposeIdx out.dims := by
    rw [mem_transposeIdx, hd]
    exact ⟨Nat.one_pos, Nat.lt_succ_self _, Nat.one_pos, Nat.one_pos⟩
  have hg0 : getIdx out.strides 0 0 0 0 = 0 := by rw [hs]; decide
  have hg1 : getIdx out.strides 0 (2 ^ 32) 0 0 = 0 := by rw [hs]; decide
  have hnd : ¬ (transposeWrites out.dims out.strides).Nodup := by
    intro hn
    have := List.inj_on_of_nodup_map hn hm0 hm1 (hg0.trans hg1.symm)
    have h2 : (0 : Nat) = 2 ^ 32 := congrArg (fun t : Nat × Nat × Nat × Nat => t.2.1) this
    omega
  have hnm : 2 ^ 32 ∉ transposeWrites out.dims out.strides := by
    rw [mem_transposeWrites]
    rintro ⟨i, j, k, l, -, -, -, -, h⟩
    have := getIdx_lt out.strides i j k l
    omega
  refine ⟨hugeColumn_packed, out, hrun, hpk, ?_, ?_, ?_, ?_, hg0, hg1, ?_, ?_, ?_, hm0, hm1,
    hnd, ?_, hnm, List.count_eq_zero.mpr hnm⟩
  · rw [hd]; exact Nat.one_pos
  · rw [hd]; exact Nat.lt_succ_self _
  · rw [hd]; exact Nat.one_pos
  · rw [hd]; exact Nat.one_pos
  · rw [hd]; dsimp only; omega
  · intro i j k l h
    have := getIdx_lt out.strides i j k l
    omega
  · rw [hhigh _ (Nat.le_refl _), List.getElem?_map, List.getElem?_range]
    · rfl
    · show 2 ^ 32 < 1 * (2 ^ 32 + 1) * 1 * 1
      omega
  · have h2 := two_le_count_map (transposeIdx out.dims)
      (fun t => getIdx out.strides t.1 t.2.1 t.2.2.1 t.2.2.2) (0, 0, 0, 0) (0, 2 ^ 32, 0, 0)
      hm0 hm1 (by
        intro h
        have h3 : (0 : Nat) = 2 ^ 32 := congrArg (fun t : Nat × Nat × Nat × Nat => t.2.1) h
        omega) (hg1.trans hg0.symm)
    have h3 : (fun t : Nat × Nat × Nat × Nat => getIdx out.strides t.1 t.2.1 t.2.2.1 t.2.2.2)
        (0, 0, 0, 0) = 0 := hg0
    rw [h3] at h2
    exact h2

/-! ## C15: offsets of the in-place kernel on a square array -/

/-- C15: for every packed array with `d0 == d1`, every offset
`transpose_inplace` reads or writes is below `d0*d1*d2*d3`, and the kernel
runs to completion without an access outside the buffer. -/
theorem transpose_inplace_offsets_inside {T : Type} (conj : T → T) (A : Array T)
    (conjugate : Bool) (hp : A.packed) (hsq : A.dims.d0 = A.dims.d1) :
    (∀ i j k l, j < A.dims.d1 → j < i → i < A.dims.d0 → k < A.dims.d2 → l < A.dims.d3 →
      getIdx A.strides j i k l < A.dims.d0 * A.dims.d1 * A.dims.d2 * A.dims.d3 ∧
      getIdx A.strides i j k l < A.dims.d0 * A.dims.d1 * A.dims.d2 * A.dims.d3) ∧
    ∃ out, transpose_inplace conj A conjugate = some out := by
  constructor
  · intro i j k l hj hji hi hk hl
    have hs0 : 1 ≤ A.strides.d0 := by rw [packed_stride0 A hp]
    have h1 := getIdx_le_dotOffset A.strides hs0 j i k l
    have h2 := packed_inBounds A hp j i k l (by omega) (by omega) hk hl
    have h3 := getIdx_le_dotOffset A.strides hs0 i j k l
    have h4 := packed_inBounds A hp i j k l hi hj hk hl
    have h5 : A.data.length = A.dims.d0 * A.dims.d1 * A.dims.d2 * A.dims.d3 := hp.2
    exact ⟨by omega, by omega⟩
  · obtain ⟨out, hrun, -⟩ :=
      transpose_inplace_run conj A conjugate (by rw [packed_stride0 A hp])
        (packed_inBounds A hp) (Nat.le_of_eq hsq)
    exact ⟨out, hrun⟩

/-- C15, witness: the packed 2×2 complex array. -/
theorem transpose_inplace_offsets_inside_witness :
    cplx22.packed ∧ cplx22.dims.d0 = cplx22.dims.d1 ∧
    (∀ i j k l, j < cplx22.dims.d1 → j < i → i < cplx22.dims.d0 → k < cplx22.dims.d2 →
      l < cplx22.dims.d3 →
      getIdx cplx22.strides j i k l
        < cplx22.dims.d0 * cplx22.dims.d1 * cplx22.dims.d2 * cplx22.dims.d3 ∧
      getIdx cplx22.strides i j k l
        < cplx22.dims.d0 * cplx22.dims.d1 * cplx22.dims.d2 * cplx22.dims.d3) ∧
    ∃ out, transpose_inplace getConjugateC cplx22 true = some out :=
  ⟨by decide, rfl,
    transpose_inplace_offsets_inside getConjugateC cplx22 true (by decide) rfl⟩

/-! ## C16: the diagonal under the in-place kernel -/

theorem hugeSquare_data (n : Nat) (h : n < 65537 * 65537) : hugeSquare.data[n]? = some n := by
  rw [hugeSquare, mkPacked]
  dsimp only
  exact List.getElem?_range h

theorem hugeSquare_length : hugeSquare.data.length = 65537 * 65537 := by
  rw [hugeSquare, mkPacked]
  dsimp only
  exact List.length_range _

/-- C16, amended: on an array with `d0 ≤ d1`, unit stride on axis 0 and
pairwise distinct element offsets below `2^32`, `transpose_inplace` runs to
completion and leaves every diagonal element `(i, i, k, l)` exactly as it was,
for either value of the flag and whatever `getConjugate` does: with the flag
set on a complex array the diagonal elements are not conjugated. -/
theorem transpose_inplace_diagonal {T : Type} (conj : T → T) (A : Array T) (conjugate : Bool)
    (hle : A.dims.d0 ≤ A.dims.d1) (hs0 : A.strides.d0 = 1) (hwf : A.inBounds)
    (h32 : A.offsets32) (hinj : A.distinctOffsets) :
    ∃ out, transpose_inplace conj A conjugate = some out ∧
      ∀ i k l, i < A.dims.d0 → k < A.dims.d2 → l < A.dims.d3 →
        ∃ v, A.elem i i k l = some v ∧ out.elem i i k l = some v := by
  obtain ⟨out, hrun, -, -, -, -, hval⟩ :=
    transpose_inplace_run conj A conjugate (by rw [hs0]) hwf hle
  obtain ⟨-, hrest⟩ := hval hs0 h32 hinj
  refine ⟨out, hrun, ?_⟩
  intro i k l hi hk hl
  have hb := hwf i i k l hi (by omega) hk hl
  refine ⟨A.data.get ⟨_, hb⟩, List.getElem?_eq_getElem hb, ?_⟩
  rw [hrest i i k l hi (by omega) hk hl (Or.inl rfl)]
  exact List.getElem?_eq_getElem hb

/-- C16, witness: on the 2×2 complex array with the flag set the diagonal
elements `1+2i` and `7+8i` stay as they are. -/
theorem transpose_inplace_diagonal_witness :
    (∃ out, transpose_inplace getConjugateC cplx22 true = some out ∧
      out.elem 0 0 0 0 = some ⟨1, 2⟩ ∧ out.elem 1 1 0 0 = some ⟨7, 8⟩) ∧
    ∃ out, transpose_inplace getConjugateC cplx22 true = some out ∧
      ∀ i k l, i < cplx22.dims.d0 → k < cplx22.dims.d2 → l < cplx22.dims.d3 →
        ∃ v, cplx22.elem i i k l = some v ∧ out.elem i i k l = some v :=
  ⟨⟨_, rfl, by decide, by decide⟩,
    transpose_inplace_diagonal getConjugateC cplx22 true (by decide) rfl
      (packed_inBounds _ (by decide)) (packed_offsets32 _ (by decide) (by decide))
      (packed_distinctOffsets _ (by decide))⟩

theorem strided33_distinctOffsets : strided33.distinctOffsets := by
  intro i j k l i2 j2 k2 l2 hi hj hk hl hi2 hj2 hk2 hl2 h
  simp only [strided33, dotOffset] at hi hj hk hl hi2 hj2 hk2 hl2 h
  omega

theorem tallSlack_distinctOffsets : tallSlack.distinctOffsets := by
  intro i j k l i2 j2 k2 l2 hi hj hk hl hi2 hj2 hk2 hl2 h
  simp only [tallSlack, dotOffset] at hi hj hk hl hi2 hj2 hk2 hl2 h
  omega

theorem tallSlack_inBounds : tallSlack.inBounds := by
  intro i j k l hi hj hk hl
  simp only [tallSlack, dotOffset, List.length_cons, List.length_nil] at hi hj hk hl ⊢
  omega

/-- C16, counterexample.  First the 3×3 array with stride 2 on axis 0, whose
offsets are pairwise distinct: the step `i = 2`, `j = 1` addresses the offset
`2 + 1*6 = 8` of the diagonal element `(1, 1)`, which becomes `13`.  Second
the packed square of `65537 × 65537` elements: the step `i = 65536`, `j = 2`
addresses the wrapped offset `65538` of the diagonal element `(1, 1)`, which
becomes `196610`.  Third two 3×2 slices in one buffer: the step `i = 2`,
`j = 0` of slice 0 addresses offset `6`, the diagonal element `(0, 0)` of
slice 1, which becomes `2`. -/
theorem transpose_inplace_diagonal_counterexample :
    (strided33.distinctOffsets ∧
      ∃ out, transpose_inplace getConjugate strided33 false = some out ∧
        strided33.elem 1 1 0 0 = some 8 ∧ out.elem 1 1 0 0 = some 13) ∧
    (hugeSquare.packed ∧ hugeSquare.dims.d0 = hugeSquare.dims.d1 ∧
      ∃ out, transpose_inplace getConjugate hugeSquare false = some out ∧
        hugeSquare.elem 1 1 0 0 = some 65538 ∧ out.elem 1 1 0 0 = some 196610) ∧
    (tallSlack.strides.d0 = 1 ∧ tallSlack.inBounds ∧ tallSlack.distinctOffsets ∧
      ∃ out, transpose_inplace getConjugate tallSlack false = some out ∧
        tallSlack.elem 0 0 1 0 = some 6 ∧ out.elem 0 0 1 0 = some 2) := by
  obtain ⟨B, hB, hBd, hBs, -, hcell⟩ :=
    hugeSquare_diagonal_pass hugeSquare rfl rfl hugeSquare_length
  have hoff : dotOffset hugeSquare.strides 1 1 0 0 = 65538 := by
    show dotOffset ⟨1, 65537, 65537 * 65537, 65537 * 65537 * 1⟩ 1 1 0 0 = 65538
    unfold dotOffset; dsimp only
  refine ⟨⟨strided33_distinctOffsets, _, rfl, by decide, by decide⟩,
    ⟨hugeSquare_packed, rfl, B, hB, ?_, ?_⟩,
    rfl, tallSlack_inBounds, tallSlack_distinctOffsets, _, rfl, by decide, by decide⟩
  · rw [elem_eq_dotOffset, hoff]
    exact hugeSquare_data _ (by norm_num)
  · rw [elem_eq_dotOffset, hBs, hoff, hcell]
    exact hugeSquare_data _ (by norm_num)

/-! ## C17: the flag on non-complex types -/

theorem transposeBody_flag {T : Type} :
    transposeBody (getConjugate (T := T)) true = transposeBody (getConjugate (T := T)) false := by
  funext ostrides istrides inp i j k l out
  unfold transposeBody
  dsimp only
  cases load inp (getIdx istrides j i k l) with
  | none => rfl
  | some x => rfl

theorem conjCell_getConjugate {T : Type} (buf : List T) (a : Nat) :
    conjCell getConjugate buf a = (load buf a).map (fun _ => buf) := by
  cases h : load buf a with
  | none =>
    unfold conjCell
    rw [h]
    rfl
  | some x =>
    have ha : buf[a]? = some x := h
    rw [conjCell_eq getConjugate buf a x ha]
    have hla : a < buf.length := (List.getElem?_eq_some.mp ha).1
    congr 1
    apply List.ext_getElem?
    intro n
    by_cases hn : a = n
    · subst hn
      rw [List.getElem?_set_eq_of_lt _ hla, ha]
      rfl
    · rw [List.getElem?_set_ne hn]

theorem inplaceBody_flag {T : Type} :
    inplaceBody (getConjugate (T := T)) true = inplaceBody (getConjugate (T := T)) false := by
  funext istrides i j k l buf
  unfold inplaceBody
  dsimp only
  rw [if_pos rfl, if_neg (by decide), conjCell_getConjugate]
  cases ha : load buf (getIdx istrides j i k l) with
  | none =>
    unfold swapCells
    rw [ha]
    rfl
  | some x =>
    dsimp only [Option.map]
    rw [conjCell_getConjugate]
    cases hb : load buf (getIdx istrides i j k l) with
    | none =>
      unfold swapCells
      rw [ha, hb]
      rfl
    | some y => rfl

/-- The flag on one fresh buffer: for a non-complex element type, whose
`getConjugate` is the identity, `transpose(A, true)` and `transpose(A, false)`
give the same result when their fresh output buffers hold the same contents,
and `transpose_inplace(A, true)` and `transpose_inplace(A, false)` leave the
same buffer. -/
theorem conjugate_flag_no_effect {T : Type} (A : Array T) (garbage : Nat → T) :
    transpose getConjugate A true garbage = transpose getConjugate A false garbage ∧
    transpose_inplace getConjugate A true = transpose_inplace getConjugate A false := by
  constructor
  · unfold transpose transpose_
    rw [transposeBody_flag]
  · unfold transpose_inplace transpose_inplace_
    rw [inplaceBody_flag]

/-- For an input of at most `2^32` elements the result of `transpose` does not
depend on what the fresh output buffer held: the kernel faults for both
contents or writes every cell of the output. -/
theorem transpose_fresh {T : Type} (conj : T → T) (A : Array T) (conjugate : Bool)
    (g1 g2 : Nat → T) (hsz : A.dims.elements ≤ 2 ^ 32) :
    transpose conj A conjugate g1 = transpose conj A conjugate g2 := by
  obtain ⟨⟨d0, d1, d2, d3⟩, strides, data⟩ := A
  simp only [dim4.elements] at hsz
  have hswap : d1 * d0 * d2 * d3 = d0 * d1 * d2 * d3 := by ring
  unfold transpose
  dsimp only
  rw [transpose__eq_fold, transpose__eq_fold]
  simp only [createEmptyArray, dim4.elements]
  rcases scatter_fold_fresh data
      (fun t : Nat × Nat × Nat × Nat => getIdx strides t.2.1 t.1 t.2.2.1 t.2.2.2)
      (fun t : Nat × Nat × Nat × Nat =>
        getIdx ⟨1, d1, d1 * d0, d1 * d0 * d2⟩ t.1 t.2.1 t.2.2.1 t.2.2.2)
      (applyConj conj conjugate)
      (fun buf t =>
        match load data (getIdx strides t.2.1 t.1 t.2.2.1 t.2.2.2) with
        | none => none
        | some x =>
          store buf (getIdx ⟨1, d1, d1 * d0, d1 * d0 * d2⟩ t.1 t.2.1 t.2.2.1 t.2.2.2)
            (applyConj conj conjugate x))
      (fun b t => rfl)
      (transposeIdx ⟨d1, d0, d2, d3⟩)
      ((List.range (d1 * d0 * d2 * d3)).map g1) ((List.range (d1 * d0 * d2 * d3)).map g2)
      (by rw [List.length_map, List.length_map]) with hnone | hsome
  · rw [hnone.1, hnone.2]
  · obtain ⟨r1, r2, h1, h2, hl1, hl2, hag⟩ := hsome
    rw [List.length_map, List.length_range] at hl1 hl2
    have hr : r1 = r2 := by
      apply List.ext_getElem?
      intro p
      by_cases hp : p < d1 * d0 * d2 * d3
      · apply hag p
        right
        obtain ⟨i, j, k, l, hi, hj, hk, hl, hoff⟩ := packedOffset_surj d1 d0 d2 d3 p hp
        refine ⟨(i, j, k, l), (mem_transposeIdx _ _ _ _ _).mpr ⟨hi, hj, hk, hl⟩, ?_⟩
        dsimp only
        rw [getIdx_packed_exact _ _ _ _ _ _ _ (by omega)]
        exact hoff
      · rw [List.getElem?_eq_none (by omega), List.getElem?_eq_none (by omega)]
    rw [h1, h2, hr]

/-- For a non-complex element type and an input of at most `2^32` elements,
`transpose(A, true)` and `transpose(A, false)` give the same result whatever
their fresh output buffers held, and `transpose_inplace(A, true)` and
`transpose_inplace(A, false)` leave the same buffer. -/
theorem conjugate_flag_fresh {T : Type} (A : Array T) (g1 g2 : Nat → T)
    (hsz : A.dims.elements ≤ 2 ^ 32) :
    transpose getConjugate A true g1 = transpose getConjugate A false g2 ∧
    transpose_inplace getConjugate A true = transpose_inplace getConjugate A false := by
  constructor
  · rw [transpose_fresh getConjugate A true g1 g2 hsz]
    unfold transpose transpose_
    rw [transposeBody_flag]
  · unfold transpose_inplace transpose_inplace_
    rw [inplaceBody_flag]

/-- With `d0 ≤ d1`, unit stride on axis 0 and offsets below `2^32`, a run of
`transpose_inplace` leaves every cell that is not the offset of an element. -/
theorem transpose_inplace_frame {T : Type} (conj : T → T) (A : Array T) (conjugate : Bool)
    (hs0 : A.strides.d0 = 1) (hwf : A.inBounds) (hle : A.dims.d0 ≤ A.dims.d1)
    (h32 : A.offsets32) (out : Array T) (hrun : transpose_inplace conj A conjugate = some out)
    (p : Nat)
    (hp : ∀ i j k l, i < A.dims.d0 → j < A.dims.d1 → k < A.dims.d2 → l < A.dims.d3 →
      dotOffset A.strides i j k l ≠ p) :
    out.data[p]? = A.data[p]? := by
  have hex : ∀ i j k l, i < A.dims.d0 → j < A.dims.d1 → k < A.dims.d2 → l < A.dims.d3 →
      getIdx A.strides i j k l = dotOffset A.strides i j k l :=
    fun i j k l hi hj hk hl =>
      getIdx_eq_dotOffset A.strides hs0 i j k l (h32 i j k l hi hj hk hl)
  obtain ⟨r, hfold, -, hframe, -⟩ :=
    swap_fold (applyConj conj conjugate)
      (fun t : Nat × Nat × Nat × Nat => getIdx A.strides t.2.1 t.1 t.2.2.1 t.2.2.2)
      (fun t : Nat × Nat × Nat × Nat => getIdx A.strides t.1 t.2.1 t.2.2.1 t.2.2.2)
      (fun buf t => inplaceBody conj conjugate A.strides t.1 t.2.1 t.2.2.1 t.2.2.2 buf)
      (fun buf t ha hb => exchange_spec conj conjugate buf _ _ ha hb)
      (inplaceIdx A.dims) A.data
      (fun t ht => by
        obtain ⟨i, j, k, l⟩ := t
        obtain ⟨⟨hji, hi⟩, hj, hk, hl⟩ := (mem_inplaceIdx _ _ _ _ _).mp ht
        dsimp only at hji hi hj hk hl ⊢
        rw [hex j i k l (by omega) (by omega) hk hl, hex i j k l hi hj hk hl]
        exact ⟨hwf j i k l (by omega) (by omega) hk hl, hwf i j k l hi hj hk hl⟩)
  rw [transpose_inplace_eq_fold, hfold] at hrun
  have hout : out.data = r := by
    have := Option.some.inj hrun
    rw [← this]
  rw [hout]
  apply hframe
  intro t ht
  obtain ⟨i, j, k, l⟩ := t
  obtain ⟨⟨hji, hi⟩, hj, hk, hl⟩ := (mem_inplaceIdx _ _ _ _ _).mp ht
  dsimp only at hji hi hj hk hl ⊢
  rw [hex j i k l (by omega) (by omega) hk hl, hex i j k l hi hj hk hl]
  exact ⟨hp j i k l (by omega) (by omega) hk hl, hp i j k l hi hj hk hl⟩

theorem applyConj_twice {T : Type} (conj : T → T) (hconj : ∀ x, conj (conj x) = x)
    (conjugate : Bool) (v : Option T) :
    (v.map (applyConj conj conjugate)).map (applyConj conj conjugate) = v := by
  cases v with
  | none => rfl
  | some x =>
    cases conjugate with
    | false => rfl
    | true => exact congrArg some (hconj x)

/-- C18, amended: for every square array (`d0 == d1`) with unit stride on
axis 0 and pairwise distinct element offsets below `2^32`, and either value of
the flag, applying `transpose_inplace` twice with the same flag runs to
completion and restores the original array, buffer included, given that the
conjugation is an involution. -/
theorem transpose_inplace_involution {T : Type} (conj : T → T) (A : Array T)
    (conjugate : Bool) (hconj : ∀ x, conj (conj x) = x)
    (hsq : A.dims.d0 = A.dims.d1) (hs0 : A.strides.d0 = 1) (hwf : A.inBounds)
    (h32 : A.offsets32) (hinj : A.distinctOffsets) :
    ∃ B, transpose_inplace conj A conjugate = some B ∧
      ∃ C, transpose_inplace conj B conjugate = some C ∧ C = A := by
  have hle : A.dims.d0 ≤ A.dims.d1 := Nat.le_of_eq hsq
  obtain ⟨B, hB, hBd, hBs, hBl, -, hBv⟩ :=
    transpose_inplace_run conj A conjugate (by rw [hs0]) hwf hle
  obtain ⟨hBoff, hBrest⟩ := hBv hs0 h32 hinj
  have hwfB : B.inBounds := by
    intro i j k l hi hj hk hl
    rw [hBd] at hi hj hk hl
    rw [hBs, hBl]
    exact hwf i j k l hi hj hk hl
  have h32B : B.offsets32 := by
    intro i j k l hi hj hk hl
    rw [hBd] at hi hj hk hl
    rw [hBs]
    exact h32 i j k l hi hj hk hl
  have hinjB : B.distinctOffsets := by
    intro i j k l i2 j2 k2 l2 hi hj hk hl hi2 hj2 hk2 hl2 h
    rw [hBd] at hi hj hk hl hi2 hj2 hk2 hl2
    rw [hBs] at h
    exact hinj i j k l i2 j2 k2 l2 hi hj hk hl hi2 hj2 hk2 hl2 h
  have hs0B : B.strides.d0 = 1 := by rw [hBs]; exact hs0
  have hleB : B.dims.d0 ≤ B.dims.d1 := by rw [hBd]; exact hle
  obtain ⟨C, hC, hCd, hCs, hCl, -, hCv⟩ :=
    transpose_inplace_run conj B conjugate (by rw [hs0B]) hwfB hleB
  obtain ⟨hCoff, hCrest⟩ := hCv hs0B h32B hinjB
  refine ⟨B, hB, C, hC, ?_⟩
  have hdata : C.data = A.data := by
    apply List.ext_getElem?
    intro p
    by_cases hp : ∃ i j k l, i < A.dims.d0 ∧ j < A.dims.d1 ∧ k < A.dims.d2 ∧ l < A.dims.d3 ∧
        dotOffset A.strides i j k l = p
    · obtain ⟨i, j, k, l, hi, hj, hk, hl, rfl⟩ := hp
      have hCe : C.elem i j k l = C.data[dotOffset A.strides i j k l]? := by
        rw [elem_eq_dotOffset, hCs, hBs]
      have hAe : A.elem i j k l = A.data[dotOffset A.strides i j k l]? := rfl
      rw [← hCe, ← hAe]
      by_cases hij : i = j
      · rw [hCrest i j k l (by rw [hBd]; exact hi) (by rw [hBd]; exact hj)
            (by rw [hBd]; exact hk) (by rw [hBd]; exact hl) (Or.inl hij),
          hBrest i j k l hi hj hk hl (Or.inl hij)]
      · rw [hCoff i j k l (by rw [hBd]; exact hi) (by rw [hBd]; omega)
            (by rw [hBd]; exact hk) (by rw [hBd]; exact hl) hij,
          hBoff j i k l (by omega) hi hk hl (Ne.symm hij)]
        exact applyConj_twice conj hconj conjugate _
    · have hfree : ∀ i j k l, i < A.dims.d0 → j < A.dims.d1 → k < A.dims.d2 →
          l < A.dims.d3 → dotOffset A.strides i j k l ≠ p :=
        fun i j k l hi hj hk hl h => hp ⟨i, j, k, l, hi, hj, hk, hl, h⟩
      rw [transpose_inplace_frame conj B conjugate hs0B hwfB hleB h32B C hC p (by
          rw [hBd, hBs]; exact hfree),
        transpose_inplace_frame conj A conjugate hs0 hwf hle h32 B hB p hfree]
  obtain ⟨Cd, Cs, Cdata⟩ := C
  obtain ⟨Ad, As, Adata⟩ := A
  dsimp only at hCd hCs hBd hBs hdata
  rw [hCd, hBd, hCs, hBs, hdata]

/-- C18, witness: the 2×2 complex array, two runs with the flag set. -/
theorem transpose_inplace_involution_witness :
    (transpose_inplace getConjugateC cplx22 true).bind
      (fun B => transpose_inplace getConjugateC B true) = some cplx22 ∧
    ∃ B, transpose_inplace getConjugateC cplx22 true = some B ∧
      ∃ C, transpose_inplace getConjugateC B true = some C ∧ C = cplx22 :=
  ⟨by decide,
    transpose_inplace_involution getConjugateC cplx22 true getConjugateC_involutive rfl rfl
      (packed_inBounds _ (by decide)) (packed_offsets32 _ (by decide) (by decide))
      (packed_distinctOffsets _ (by decide))⟩

theorem skew33_distinctOffsets : skew33.distinctOffsets := by
  intro i j k l i2 j2 k2 l2 hi hj hk hl hi2 hj2 hk2 hl2 h
  simp only [skew33, dotOffset] at hi hj hk hl hi2 hj2 hk2 hl2 h
  omega

/-- C18, counterexample.  First the 3×3 array with strides 6 and 2, whose
element offsets are pairwise distinct: after two runs the element `(0, 1)` is
`5`, not `2`, because the steps exchange the cells `(2,1)`, `(4,2)`, `(5,4)`,
which meet.  Second the packed square of `65537 × 65537` elements: the step
`i = 65536`, `j = 3` addresses the wrapped offset `65539` of the element
`(2, 1)`, which the step `i = 2`, `j = 1` addresses too, and after two runs
that element is `131075` or `262147`, not `65539`. -/
theorem transpose_inplace_involution_counterexample :
    (skew33.dims.d0 = skew33.dims.d1 ∧ skew33.distinctOffsets ∧
      ∃ B, transpose_inplace getConjugate skew33 false = some B ∧
        ∃ C, transpose_inplace getConjugate B false = some C ∧
          skew33.elem 0 1 0 0 = some 2 ∧ C.elem 0 1 0 0 = some 5 ∧ C ≠ skew33) ∧
    (hugeSquare.packed ∧ hugeSquare.dims.d0 = hugeSquare.dims.d1 ∧
      ∃ B, transpose_inplace getConjugate hugeSquare false = some B ∧
        ∃ C, transpose_inplace getConjugate B false = some C ∧
          hugeSquare.elem 2 1 0 0 = some 65539 ∧
          (C.elem 2 1 0 0 = some 131075 ∨ C.elem 2 1 0 0 = some 262147) ∧ C ≠ hugeSquare) := by
  have hoff : dotOffset hugeSquare.strides 2 1 0 0 = 65539 := by
    show dotOffset ⟨1, 65537, 65537 * 65537, 65537 * 65537 * 1⟩ 2 1 0 0 = 65539
    unfold dotOffset; dsimp only
  have hA : hugeSquare.elem 2 1 0 0 = some 65539 := by
    rw [elem_eq_dotOffset, hoff]
    exact hugeSquare_data _ (by norm_num)
  have hfin : ∀ C : Array Nat, (C.elem 2 1 0 0 = some 131075 ∨ C.elem 2 1 0 0 = some 262147) →
      C ≠ hugeSquare := by
    intro C hC e
    rw [e, hA] at hC
    rcases hC with h | h
    · have := Option.some.inj h; omega
    · have := Option.some.inj h; omega
  refine ⟨⟨rfl, skew33_distinctOffsets, _, rfl, _, rfl, by decide, by decide, by decide⟩,
    hugeSquare_packed, rfl, ?_⟩
  rcases hugeSquare_cycle Nat with hcyc | hcyc
  · obtain ⟨B, hB, hBd, hBs, hBl, -, -, e3⟩ := hcyc hugeSquare rfl rfl hugeSquare_length
    obtain ⟨C, hC, -, hCs, -, -, f2, -⟩ :=
      hcyc B hBd hBs (by rw [hBl]; exact hugeSquare_length)
    have hCe : C.elem 2 1 0 0 = some 131075 := by
      rw [elem_eq_dotOffset, hCs, hBs, hoff, f2, e3]
      exact hugeSquare_data _ (by norm_num)
    exact ⟨B, hB, C, hC, hA, Or.inl hCe, hfin C (Or.inl hCe)⟩
  · obtain ⟨B, hB, hBd, hBs, hBl, -, -, e3⟩ := hcyc hugeSquare rfl rfl hugeSquare_length
    obtain ⟨C, hC, -, hCs, -, -, f2, -⟩ :=
      hcyc B hBd hBs (by rw [hBl]; exact hugeSquare_length)
    have hCe : C.elem 2 1 0 0 = some 262147 := by
      rw [elem_eq_dotOffset, hCs, hBs, hoff, f2, e3]
      exact hugeSquare_data _ (by norm_num)
    exact ⟨B, hB, C, hC, hA, Or.inr hCe, hfin C (Or.inr hCe)⟩

/-! ## C19: in-place on a tall array -/

/-- C19: on the packed array of shape `(3, 2, 1, 1)` with strides
`(1, 3, 6, 6)` and a buffer of 6 elements, the loops of `transpose_inplace`
reach `i = 2`, `j = 0`, whose offset `getIdx(0, 2)` is `6`, outside the
buffer: the kernel faults, with either value of the flag. -/
theorem transpose_inplace_tall_out_of_range :
    tall32.packed ∧ tall32.dims.d1 < tall32.dims.d0 ∧ tall32.data.length = 6 ∧
    tall32.strides = ⟨1, 3, 6, 6⟩ ∧
    (2, 0, 0, 0) ∈ inplaceIdx tall32.dims ∧
    getIdx tall32.strides 0 2 0 0 = 6 ∧
    tall32.dims.d0 * tall32.dims.d1 * tall32.dims.d2 * tall32.dims.d3
      ≤ getIdx tall32.strides 0 2 0 0 ∧
    transpose_inplace getConjugate tall32 false = none ∧
    transpose_inplace getConjugate tall32 true = none := by
  decide

/-! ## C20: 32-bit reduction in `getIdx` -/

/-- C20: `getIdx` returns `l*s3 + k*s2 + j*s1 + i` reduced modulo `2^32`; it
equals that sum exactly when the sum is below `2^32`; for a larger sum it is a
smaller, wrapped-around offset, and that offset is the one the kernel loads
from and stores to. -/
theorem getIdx_wraps (s : dim4) (i j k l : Nat) :
    getIdx s i j k l = (l * s.d3 + k * s.d2 + j * s.d1 + i) % 2 ^ 32 ∧
    (getIdx s i j k l = l * s.d3 + k * s.d2 + j * s.d1 + i ↔
      l * s.d3 + k * s.d2 + j * s.d1 + i < 2 ^ 32) ∧
    (2 ^ 32 ≤ l * s.d3 + k * s.d2 + j * s.d1 + i →
      getIdx s i j k l < l * s.d3 + k * s.d2 + j * s.d1 + i) ∧
    (∀ (T : Type) (conj : T → T) (conjugate : Bool) (os : dim4) (inp out : List T),
      transposeBody conj conjugate os s inp i j k l out =
        match load inp ((l * s.d3 + k * s.d2 + i * s.d1 + j) % 2 ^ 32) with
        | none => none
        | some x =>
          store out ((l * os.d3 + k * os.d2 + j * os.d1 + i) % 2 ^ 32)
            (applyConj conj conjugate x)) := by
  have hsum : ∀ (t : dim4) (a b c d : Nat),
      getIdx t a b c d = (d * t.d3 + c * t.d2 + b * t.d1 + a) % 2 ^ 32 := by
    intro t a b c d
    rw [getIdx_eq]
    congr 1
    ring
  have h := hsum s i j k l
  refine ⟨h, ?_, ?_, ?_⟩
  · rw [h]
    constructor
    · intro e
      have := Nat.mod_lt (l * s.d3 + k * s.d2 + j * s.d1 + i) (by norm_num : 0 < 2 ^ 32)
      omega
    · intro hlt
      exact Nat.mod_eq_of_lt hlt
  · intro hge
    rw [h]
    have := Nat.mod_lt (l * s.d3 + k * s.d2 + j * s.d1 + i) (by norm_num : 0 < 2 ^ 32)
    omega
  · intro T conj conjugate os inp out
    rw [transposeBody_eq, hsum s j i k l, hsum os i j k l]

/-- C20, witness: with the strides `(1, 2^31, 2^32, 2^32)` of a packed array
with `d0 = 2^31`, `d1 = 2`, the index `(5, 2, 0, 0)`, whose components are
below `2^31`, has the sum `2^32 + 5` and `getIdx` returns `5`. -/
theorem getIdx_wraps_witness :
    2 ^ 32 ≤ 0 * (⟨1, 2 ^ 31, 2 ^ 32, 2 ^ 32⟩ : dim4).d3 + 0 * (⟨1, 2 ^ 31, 2 ^ 32, 2 ^ 32⟩ : dim4).d2
      + 2 * (⟨1, 2 ^ 31, 2 ^ 32, 2 ^ 32⟩ : dim4).d1 + 5 ∧
    getIdx ⟨1, 2 ^ 31, 2 ^ 32, 2 ^ 32⟩ 5 2 0 0 = 5 ∧
    getIdx ⟨1, 2 ^ 31, 2 ^ 32, 2 ^ 32⟩ 5 2 0 0
      < 0 * (⟨1, 2 ^ 31, 2 ^ 32, 2 ^ 32⟩ : dim4).d3 + 0 * (⟨1, 2 ^ 31, 2 ^ 32, 2 ^ 32⟩ : dim4).d2
        + 2 * (⟨1, 2 ^ 31, 2 ^ 32, 2 ^ 32⟩ : dim4).d1 + 5 :=
  ⟨by decide, by decide,
    (getIdx_wraps ⟨1, 2 ^ 31, 2 ^ 32, 2 ^ 32⟩ 5 2 0 0).2.2.1 (by decide)⟩

end cpu

namespace cuda

/-! ## C11: selecting a device that does not exist -/

/-- C11: `setDevice` with an index at or beyond `getDeviceCount` returns the
invalid-argument error and leaves `getActiveDeviceId` unchanged; so does
`DeviceManager::setActiveDevice`. -/
theorem setDevice_out_of_range (m : DeviceManager) (device : Int)
    (h : getDeviceCount m ≤ device) :
    (setDevice m device).1 = Status.invalidArgument ∧
    getActiveDeviceId (setDevice m device).2 = getActiveDeviceId m ∧
    (m.setActiveDevice device).1 = Status.invalidArgument ∧
    (m.setActiveDevice device).2.activeDev = m.activeDev := by
  have hn : ¬ (0 ≤ device ∧ device < m.nDevices) := by
    intro hc
    have : m.nDevices ≤ device := h
    omega
  unfold setDevice DeviceManager.setActiveDevice
  rw [if_neg hn]
  exact ⟨rfl, rfl, rfl, rfl⟩

/-- C11, witness: with two devices and device 1 active, selecting device 2
fails and device 1 stays active. -/
theorem setDevice_out_of_range_witness :
    getDeviceCount ⟨1, 2⟩ ≤ 2 ∧
    (setDevice ⟨1, 2⟩ 2).1 = Status.invalidArgument ∧
    getActiveDeviceId (setDevice ⟨1, 2⟩ 2).2 = getActiveDeviceId ⟨1, 2⟩ ∧
    (DeviceManager.setActiveDevice ⟨1, 2⟩ 2).1 = Status.invalidArgument ∧
    (DeviceManager.setActiveDevice ⟨1, 2⟩ 2).2.activeDev = (⟨1, 2⟩ : DeviceManager).activeDev :=
  ⟨by decide, setDevice_out_of_range ⟨1, 2⟩ 2 (by decide)⟩

end cuda
